import Mathlib

/-!
Verification development for the shadowrocket-config maintenance scripts
(`ip.py`, `domains.py`, `domains_ip.py`): a shallow embedding of the two line
normalizers (domain lists and IP/CIDR lists) together with the parts of
Python's `ipaddress` module that they invoke, and proofs of the specified
properties.

Strings are modelled as `List Char`.  Python's `str.upper` and `str.strip`
are modelled at ASCII granularity (all characters significant to the scripts
are ASCII, and the `isascii() and isdigit()` tests of `ipaddress` are exactly
the ASCII digit test).  Printing of numbers uses fuel-driven recursion so
that concrete instances reduce inside the kernel.
-/

abbrev Str := List Char

/-- Python whitespace for `str.strip` (the ASCII whitespace characters). -/
def pyIsSpace (c : Char) : Bool :=
  c = ' ' || c = '\t' || c = '\n' || c = '\r' || c = '\x0b' || c = '\x0c'

/-- Python `s.strip()`: drop whitespace from both ends. -/
def pyStrip (s : Str) : Str :=
  ((s.dropWhile pyIsSpace).reverse.dropWhile pyIsSpace).reverse

/-- Python `s.split(sep)` for a one-character separator: `n` separators give
`n + 1` (possibly empty) parts. -/
def pySplit (sep : Char) : Str → List Str
  | [] => [[]]
  | c :: cs =>
    if c = sep then [] :: pySplit sep cs
    else
      match pySplit sep cs with
      | [] => [[c]]
      | p :: ps => (c :: p) :: ps

/-- Python `sep.join(parts)` for a one-character separator. -/
def joinSep (sep : Char) : List Str → Str
  | [] => []
  | [p] => p
  | p :: ps => p ++ sep :: joinSep sep ps

/-- Python `s.split(sep, 1)[1]`: everything after the first occurrence of
`sep`.  The scripts only evaluate this when `sep` occurs in `s` (otherwise
Python would raise an `IndexError`); on separator-free input we return `[]`. -/
def afterFirst (sep : Char) : Str → Str
  | [] => []
  | c :: cs => if c = sep then cs else afterFirst sep cs

/-- Python `s.partition(sep)` restricted to what the scripts inspect: `none`
when `sep` does not occur, otherwise the parts before and after its first
occurrence. -/
def pyPartition (sep : Char) : Str → Option (Str × Str)
  | [] => none
  | c :: cs =>
    if c = sep then some ([], cs)
    else (pyPartition sep cs).map fun p => (c :: p.1, p.2)

/-- Python `s.upper()` at ASCII granularity. -/
def pyUpper (s : Str) : Str := s.map Char.toUpper

/-- Python `s.startswith(t)`. -/
def startsWith (s t : Str) : Bool := t.isPrefixOf s

/-- The ASCII decimal digits (`s.isascii() and s.isdigit()` accepts exactly
strings of these). -/
def asciiDigits : List Char := ['0', '1', '2', '3', '4', '5', '6', '7', '8', '9']

def isAsciiDigit (c : Char) : Bool := asciiDigits.contains c

/-- Numeric value of a decimal digit character. -/
def digitVal (c : Char) : Nat := c.toNat - 48

/-- Python `int(s, 10)` on all-digit strings. -/
def decValue (s : Str) : Nat := s.foldl (fun a c => 10 * a + digitVal c) 0

/-- Decimal digit character (the digits used by `str(n)`). -/
def digitChar (n : Nat) : Char :=
  if n = 0 then '0' else if n = 1 then '1' else if n = 2 then '2'
  else if n = 3 then '3' else if n = 4 then '4' else if n = 5 then '5'
  else if n = 6 then '6' else if n = 7 then '7' else if n = 8 then '8' else '9'

/-- Fuel-driven core of the decimal printer. -/
def natReprAux : Nat → Nat → Str
  | 0, _ => []
  | fuel + 1, n =>
    if n < 10 then [digitChar n] else natReprAux fuel (n / 10) ++ [digitChar (n % 10)]

/-- Python `str(n)` / `'%d' % n` for a natural number. -/
def natRepr (n : Nat) : Str := natReprAux (n + 1) n

/-- The lowercase hex digits (the alphabet of `'%x'`). -/
def hexDigitsLower : List Char := asciiDigits ++ ['a', 'b', 'c', 'd', 'e', 'f']

/-- The characters accepted by `_parse_hextet` (`_HEX_DIGITS`). -/
def hexDigits : List Char := hexDigitsLower ++ ['A', 'B', 'C', 'D', 'E', 'F']

def isHexDigit (c : Char) : Bool := hexDigits.contains c

/-- Numeric value of a hexadecimal digit character. -/
def hexVal (c : Char) : Nat :=
  if c ≤ '9' then c.toNat - 48 else if c ≤ 'F' then c.toNat - 55 else c.toNat - 87

/-- Python `int(s, 16)` on all-hex strings. -/
def hexValue (s : Str) : Nat := s.foldl (fun a c => 16 * a + hexVal c) 0

/-- Lowercase hexadecimal digit character (the digits of `'%x' % n`). -/
def hexDigitChar (n : Nat) : Char :=
  if n < 10 then digitChar n
  else if n = 10 then 'a' else if n = 11 then 'b' else if n = 12 then 'c'
  else if n = 13 then 'd' else if n = 14 then 'e' else 'f'

/-- Fuel-driven core of the lowercase hex printer. -/
def hexReprAux : Nat → Nat → Str
  | 0, _ => []
  | fuel + 1, n =>
    if n < 16 then [hexDigitChar n] else hexReprAux fuel (n / 16) ++ [hexDigitChar (n % 16)]

/-- Python `'%x' % n` (lowercase hex, no padding). -/
def hexRepr (n : Nat) : Str := hexReprAux (n + 1) n

/-- Python `ipaddress._parse_octet` (bpo-36384 strictness): nonempty ASCII
digit string, at most three characters, no leading zeros, value at most 255. -/
def parseOctet (s : Str) : Option Nat :=
  if s.isEmpty then none
  else if ¬ s.all isAsciiDigit then none
  else if s.length > 3 then none
  else if s ≠ ['0'] ∧ s.head? = some '0' then none
  else if decValue s > 255 then none
  else some (decValue s)

/-- Python `IPv4Address._ip_int_from_string`: exactly four dot-separated
octets, big-endian value. -/
def parseIPv4 (s : Str) : Option Nat :=
  if s.isEmpty then none
  else
    match pySplit '.' s with
    | [o1, o2, o3, o4] => do
      let v1 ← parseOctet o1
      let v2 ← parseOctet o2
      let v3 ← parseOctet o3
      let v4 ← parseOctet o4
      pure (((v1 * 256 + v2) * 256 + v3) * 256 + v4)
    | _ => none

/-- Python `IPv4Address(addr_str)` on strings: rejects any `/`, then parses. -/
def parseIPv4Address (s : Str) : Option Nat :=
  if s.contains '/' then none else parseIPv4 s

/-- Python `str(IPv4Address(n))`: dotted decimal of the four bytes. -/
def ipv4Str (n : Nat) : Str :=
  joinSep '.'
    [natRepr (n / 2 ^ 24 % 256), natRepr (n / 2 ^ 16 % 256),
      natRepr (n / 2 ^ 8 % 256), natRepr (n % 256)]

/-- Python `IPv6Address._parse_hextet`: only hex digits, at most four
characters; the final `int(s, 16)` additionally fails on the empty string. -/
def parseHextet (s : Str) : Option Nat :=
  if ¬ s.all isHexDigit then none
  else if s.length > 4 then none
  else if s.isEmpty then none
  else some (hexValue s)

/-- The indices `i` with `0 < i < len - 1` and `parts[i] = ''`: the interior
empty parts scanned by `_ip_int_from_string`.  Two or more of them mean an
invalid address; exactly one marks the `::`. -/
def interiorEmpties (parts : List Str) : List Nat :=
  (List.range parts.length).filter fun i =>
    decide (0 < i) && decide (i + 1 < parts.length) && (parts[i]? == some ([] : Str))

/-- Left-to-right hextet accumulation, `ip_int <<= 16; ip_int |= hextet`
(equal to `acc * 2 ^ 16 + h` because `h < 2 ^ 16`). -/
def foldHextets (ps : List Str) (a : Nat) : Option Nat :=
  ps.foldlM (fun acc p => (parseHextet p).map fun h => acc * 65536 + h) a

/-- The hextet phase of `IPv6Address._ip_int_from_string`, after any mixed
IPv4 suffix has been replaced by two hextet strings: at most nine parts, a
`::` position with its leading/trailing adjustments, then the two folds with
the skipped zero hextets shifted in between. -/
def parseHextetParts (parts : List Str) : Option Nat :=
  if parts.length > 9 then none
  else
    match interiorEmpties parts with
    | [] =>
      if parts.length ≠ 8 then none
      else if parts.head? = some ([] : Str) then none
      else if parts.getLast? = some ([] : Str) then none
      else foldHextets parts 0
    | [i] =>
      let hi? : Option Nat :=
        if parts.head? = some ([] : Str) then (if i - 1 = 0 then some 0 else none)
        else some i
      let lo? : Option Nat :=
        let lo0 := parts.length - i - 1
        if parts.getLast? = some ([] : Str) then (if lo0 - 1 = 0 then some 0 else none)
        else some lo0
      match hi?, lo? with
      | some hi, some lo =>
        if 8 - (hi + lo) < 1 then none
        else do
          let a ← foldHextets (parts.take hi) 0
          foldHextets (parts.drop (parts.length - lo)) (a * 65536 ^ (8 - (hi + lo)))
      | _, _ => none
    | _ => none

/-- Python `IPv6Address._ip_int_from_string` (the scope id has already been
removed by `_split_scope_id`): at least three colon-separated parts, optional
trailing embedded IPv4. -/
def parseIPv6Core (s : Str) : Option Nat :=
  if s.isEmpty then none
  else
    let parts := pySplit ':' s
    if parts.length < 3 then none
    else if (parts.getLastD []).contains '.' then
      match parseIPv4Address (parts.getLastD []) with
      | none => none
      | some v4 =>
        parseHextetParts
          (parts.dropLast ++ [hexRepr (v4 >>> 16 &&& 65535), hexRepr (v4 &&& 65535)])
    else parseHextetParts parts

/-- A parsed IPv6 address text: the 128-bit value plus the optional scope id. -/
structure IPv6Parsed where
  val : Nat
  scope : Option Str
deriving DecidableEq

/-- Python `IPv6Address(addr_str)` on strings: rejects any `/`, splits a scope
id at the first `%` (the scope must be nonempty and `%`-free), parses the
rest. -/
def parseIPv6Address (s : Str) : Option IPv6Parsed :=
  if s.contains '/' then none
  else
    match pyPartition '%' s with
    | none => (parseIPv6Core s).map fun v => ⟨v, none⟩
    | some (addr, sc) =>
      if sc.isEmpty || sc.contains '%' then none
      else (parseIPv6Core addr).map fun v => ⟨v, some sc⟩

inductive IPAddr where
  | v4 (n : Nat)
  | v6 (n : Nat) (scope : Option Str)
deriving DecidableEq

/-- Python `ipaddress.ip_address` on strings: try IPv4, then IPv6. -/
def ip_address (s : Str) : Option IPAddr :=
  match parseIPv4Address s with
  | some n => some (.v4 n)
  | none => (parseIPv6Address s).map fun p => .v6 p.val p.scope

/-- The eight 16-bit fields of a 128-bit value, high to low: the four-nibble
slices of `'%032x' % ip_int`. -/
def hextetVals (n : Nat) : List Nat :=
  [n / 2 ^ 112 % 65536, n / 2 ^ 96 % 65536, n / 2 ^ 80 % 65536, n / 2 ^ 64 % 65536,
    n / 2 ^ 48 % 65536, n / 2 ^ 32 % 65536, n / 2 ^ 16 % 65536, n % 65536]

/-- The scanning loop of `_compress_hextets`: track the best and the current
run of `'0'` hextets; `-1` plays Python's sentinel role. -/
def bestRunGo : List Str → Nat → Int → Nat → Int → Nat → Int × Nat
  | [], _, bs, bl, _, _ => (bs, bl)
  | h :: t, idx, bs, bl, cs, cl =>
    if h = ['0'] then
      if cl + 1 > bl then
        bestRunGo t (idx + 1) (if cs = -1 then (idx : Int) else cs) (cl + 1)
          (if cs = -1 then (idx : Int) else cs) (cl + 1)
      else bestRunGo t (idx + 1) bs bl (if cs = -1 then (idx : Int) else cs) (cl + 1)
    else bestRunGo t (idx + 1) bs bl (-1) 0

/-- Python `IPv6Address._compress_hextets`: replace the longest run (length
at least two) of `'0'` hextets by an empty marker, padding the ends so that
joining with `':'` shows a `::`. -/
def compressHextets (hx : List Str) : List Str :=
  let r := bestRunGo hx 0 (-1) 0 (-1) 0
  if r.2 > 1 then
    let s := r.1.toNat
    let e := s + r.2
    let hx1 := if e = hx.length then hx ++ [([] : Str)] else hx
    let hx2 := hx1.take s ++ [([] : Str)] ++ hx1.drop e
    if s = 0 then ([] : Str) :: hx2 else hx2
  else hx

/-- Python `str` of a bare IPv6 value (`_string_from_ip_int`). -/
def ipv6CoreStr (n : Nat) : Str :=
  joinSep ':' (compressHextets ((hextetVals n).map hexRepr))

/-- Python `str(IPv6Address)`: the compressed form, plus `%scope` when a
scope id is present. -/
def ipv6AddrStr (n : Nat) (scope : Option Str) : Str :=
  match scope with
  | none => ipv6CoreStr n
  | some sc => ipv6CoreStr n ++ '%' :: sc

/-- Python `_ip_int_from_prefix`: `ALL_ONES ^ (ALL_ONES >> prefixlen)`. -/
def netmaskInt (maxLen p : Nat) : Nat := (2 ^ maxLen - 1) ^^^ ((2 ^ maxLen - 1) >>> p)

/-- Fuel-driven count of the trailing zero bits of a positive number. -/
def ctzAux : Nat → Nat → Nat
  | 0, _ => 0
  | fuel + 1, n => if n % 2 = 1 then 0 else ctzAux fuel (n / 2) + 1

/-- Python `_count_righthand_zero_bits`. -/
def countRighthandZeroBits (n bits : Nat) : Nat :=
  if n = 0 then bits else min bits (ctzAux n n)

/-- Python `_prefix_from_ip_int`: a netmask bit pattern `1*0*` gives its
count of leading ones, anything else is rejected. -/
def prefixFromIpInt (maxLen ipInt : Nat) : Option Nat :=
  let tz := countRighthandZeroBits ipInt maxLen
  let p := maxLen - tz
  if ipInt >>> tz = 2 ^ p - 1 then some p else none

/-- Python `_prefix_from_prefix_string`: an ASCII digit string whose value is
at most the maximum prefix length. -/
def prefixFromString (maxLen : Nat) (m : Str) : Option Nat :=
  if m.isEmpty then none
  else if ¬ m.all isAsciiDigit then none
  else if decValue m ≤ maxLen then some (decValue m) else none

/-- Python `IPv4Network._make_netmask` on strings: prefix length form first,
then dotted netmask/hostmask form (`_prefix_from_ip_string`). -/
def v4MakeNetmask (m : Str) : Option Nat :=
  match prefixFromString 32 m with
  | some p => some p
  | none =>
    match parseIPv4 m with
    | none => none
    | some ipInt =>
      match prefixFromIpInt 32 ipInt with
      | some p => some p
      | none => prefixFromIpInt 32 (ipInt ^^^ (2 ^ 32 - 1))

/-- Python `IPv6Network._make_netmask` on strings: prefix length form only. -/
def v6MakeNetmask (m : Str) : Option Nat := prefixFromString 128 m

/-- The data determining `str()` of a parsed network: family, (masked)
network address with its optional scope, prefix length. -/
structure IPNet where
  isV6 : Bool
  addr : Nat
  scope : Option Str
  prefixlen : Nat
deriving DecidableEq

/-- The body of `IPv4Network.__init__` once address text and prefix length
are in hand: mask off host bits when `strict` is false (`IPv4Address(int)`
never carries a scope). -/
def ipv4NetworkWith (strict : Bool) (a : Str) (p : Nat) : Option IPNet :=
  match parseIPv4Address a with
  | none => none
  | some n =>
    let mask := netmaskInt 32 p
    if n &&& mask ≠ n then
      if strict then none else some ⟨false, n &&& mask, none, p⟩
    else some ⟨false, n, none, p⟩

/-- Python `IPv4Network(s, strict)` on the strings the scripts hand to it:
`_split_optional_netmask` allows at most one `/`; a missing mask means the
maximum prefix length. -/
def ipv4_network (strict : Bool) (s : Str) : Option IPNet :=
  match pySplit '/' s with
  | [a] => ipv4NetworkWith strict a 32
  | [a, m] => (v4MakeNetmask m).bind (ipv4NetworkWith strict a)
  | _ => none

/-- The body of `IPv6Network.__init__`: like IPv4, but the address text may
carry a scope id, which survives only when no masking is needed (masking
rebuilds the address from its integer, dropping the scope). -/
def ipv6NetworkWith (strict : Bool) (a : Str) (p : Nat) : Option IPNet :=
  match parseIPv6Address a with
  | none => none
  | some pa =>
    let mask := netmaskInt 128 p
    if pa.val &&& mask ≠ pa.val then
      if strict then none else some ⟨true, pa.val &&& mask, none, p⟩
    else some ⟨true, pa.val, pa.scope, p⟩

/-- Python `IPv6Network(s, strict)` on strings. -/
def ipv6_network (strict : Bool) (s : Str) : Option IPNet :=
  match pySplit '/' s with
  | [a] => ipv6NetworkWith strict a 128
  | [a, m] => (v6MakeNetmask m).bind (ipv6NetworkWith strict a)
  | _ => none

/-- Python `ipaddress.ip_network` on strings: try IPv4, then IPv6.  (The
scripts always pass `strict=False`, so the distinction between the error
classes caught by `ip_network` plays no role.) -/
def ip_network (strict : Bool) (s : Str) : Option IPNet :=
  match ipv4_network strict s with
  | some net => some net
  | none => ipv6_network strict s

/-- Python `str()` of a network: `'%s/%d' % (network_address, prefixlen)`. -/
def netStr (net : IPNet) : Str :=
  (if net.isV6 then ipv6AddrStr net.addr net.scope else ipv4Str net.addr)
    ++ '/' :: natRepr net.prefixlen

example : parseIPv4 ([' '] : Str) = none := by decide
example : parseIPv4 (['1', '.', '2', '.', '3', '.', '4'] : Str) = some 16909060 := by decide
example : ipv4Str 16909060 = ['1', '.', '2', '.', '3', '.', '4'] := by decide
example : parseIPv6Core ([':', ':', '1'] : Str) = some 1 := by decide
example : ipv6CoreStr 1 = [':', ':', '1'] := by decide
example : "::1".toList = ([':', ':', '1'] : Str) := by decide
example :
    ip_network false ("10.1.2.3/24".toList) =
      some ⟨false, 167838208, none, 24⟩ := by decide
example : netStr ⟨false, 167838208, none, 24⟩ = "10.1.2.0/24".toList := by decide

/-- Python line-break characters for `str.splitlines`. -/
def isLineBreak (c : Char) : Bool :=
  ['\n', '\r', '\x0b', '\x0c', '\x1c', '\x1d', '\x1e', '\x85', ' ', ' '].contains c

/-- The accumulator loop of `str.splitlines` (`acc` holds the current line,
reversed). -/
def splitlinesGo : Str → Str → List Str
  | [], acc => if acc.isEmpty then [] else [acc.reverse]
  | '\r' :: '\n' :: r, acc => acc.reverse :: splitlinesGo r []
  | c :: r, acc =>
    if isLineBreak c then acc.reverse :: splitlinesGo r []
    else splitlinesGo r (c :: acc)

/-- Python `str.splitlines`. -/
def pySplitlines (s : Str) : List Str := splitlinesGo s []

/-- The literal `"IP-CIDR,"`. -/
def ipCidrTag : Str := ['I', 'P', '-', 'C', 'I', 'D', 'R', ',']

/-- The literal `",no-resolve"`. -/
def noResolveTag : Str := [',', 'n', 'o', '-', 'r', 'e', 's', 'o', 'l', 'v', 'e']

/-- The literal `"DOMAIN-SUFFIX,"`. -/
def dsTag : Str := ['D', 'O', 'M', 'A', 'I', 'N', '-', 'S', 'U', 'F', 'F', 'I', 'X', ',']

/-- The emitted rule shape `f"IP-CIDR,{cidr},no-resolve"`. -/
def emit (cidr : Str) : Str := ipCidrTag ++ cidr ++ noResolveTag

/-- Python `f"{ip}/32"` for IPv4 and `f"{ip}/128"` for IPv6, applied to a
bare parsed address. -/
def addrCidr : IPAddr → Str
  | .v4 n => ipv4Str n ++ ['/', '3', '2']
  | .v6 n sc => ipv6AddrStr n sc ++ ['/', '1', '2', '8']

namespace ip

/-- `normalize_ip_or_cidr` from `ip.py`.  Notes on the translation: the
candidate in the already-tagged branch is `parts[0] if parts else ""`, and
`body.split(",")` is never empty, so it is `headD`; the fall-through from a
failed network parse to `ip_address` is the `except ValueError: pass`, and
`ip_address` itself rejects any string containing `/`. -/
def normalize_ip_or_cidr (line : Str) : Option Str :=
  let s := pyStrip line
  if startsWith (pyUpper s) ipCidrTag then
    let body := pyStrip (afterFirst ',' s)
    let parts := (pySplit ',' body).map pyStrip
    let cidr_raw := parts.headD []
    if cidr_raw.contains '/' then
      (ip_network false cidr_raw).map fun net => emit (netStr net)
    else
      (ip_address cidr_raw).map fun a => emit (addrCidr a)
  else if s.isEmpty || startsWith s ['#'] then some s
  else
    match
      (if s.contains '/' then (ip_network false s).map fun net => emit (netStr net)
        else none) with
    | some r => some r
    | none => (ip_address s).map fun a => emit (addrCidr a)

/-- The per-line loop of `process_lst_file` from `ip.py`: transformed lines,
changed count, kept count (a `None` from the normalizer drops the line). -/
def processLines : List Str → List Str × Nat × Nat
  | [] => ([], 0, 0)
  | raw :: rest =>
    let r := processLines rest
    match normalize_ip_or_cidr raw with
    | none => r
    | some res =>
      if res = raw then (raw :: r.1, r.2.1, r.2.2 + 1)
      else (res :: r.1, r.2.1 + 1, r.2.2)

/-- The content `process_lst_file` writes back:
`"\n".join(out_lines) + "\n"`. -/
def fileOutput (content : Str) : Str :=
  joinSep '\n' (processLines (pySplitlines content)).1 ++ ['\n']

/-- The backup content `process_lst_file` writes: `"\n".join(src_lines)`. -/
def backupOf (content : Str) : Str := joinSep '\n' (pySplitlines content)

end ip

namespace domains

/-- The per-line loop of `process_lst_file` from `domains.py` (identically
`process_domain_lst_file` in `domains_ip.py`): transformed lines and the
count of lines that received a new `DOMAIN-SUFFIX,` tag. -/
def processLines : List Str → List Str × Nat
  | [] => ([], 0)
  | raw :: rest =>
    let r := processLines rest
    let line := pyStrip raw
    if line.isEmpty then (raw :: r.1, r.2)
    else if startsWith line ['#'] then (raw :: r.1, r.2)
    else if startsWith line dsTag then (line :: r.1, r.2)
    else ((dsTag ++ line) :: r.1, r.2 + 1)

/-- The content `process_lst_file` writes back. -/
def fileOutput (content : Str) : Str :=
  joinSep '\n' (processLines (pySplitlines content)).1 ++ ['\n']

/-- The backup content `process_lst_file` writes. -/
def backupOf (content : Str) : Str := joinSep '\n' (pySplitlines content)

end domains

namespace domainsIp

/-- `normalize_ip_or_cidr` from `domains_ip.py`: identical to the `ip.py`
version except that the blank/comment branch returns the raw `line` rather
than the stripped `s`. -/
def normalize_ip_or_cidr (line : Str) : Option Str :=
  let s := pyStrip line
  if startsWith (pyUpper s) ipCidrTag then
    let body := pyStrip (afterFirst ',' s)
    let parts := (pySplit ',' body).map pyStrip
    let cidr_raw := parts.headD []
    if cidr_raw.contains '/' then
      (ip_network false cidr_raw).map fun net => emit (netStr net)
    else
      (ip_address cidr_raw).map fun a => emit (addrCidr a)
  else if s.isEmpty || startsWith s ['#'] then some line
  else
    match
      (if s.contains '/' then (ip_network false s).map fun net => emit (netStr net)
        else none) with
    | some r => some r
    | none => (ip_address s).map fun a => emit (addrCidr a)

end domainsIp

example :
    ip.normalize_ip_or_cidr ("10.1.2.3/24".toList) =
      some ("IP-CIDR,10.1.2.0/24,no-resolve".toList) := by decide
example :
    ip.normalize_ip_or_cidr ("10.0.0.0/8".toList) =
      some ("IP-CIDR,10.0.0.0/8,no-resolve".toList) := by decide
example : ip.normalize_ip_or_cidr ("not-an-ip".toList) = none := by decide
example :
    ip.normalize_ip_or_cidr ("ip-cidr,1.2.3.4".toList) =
      some ("IP-CIDR,1.2.3.4/32,no-resolve".toList) := by decide
example : ip.normalize_ip_or_cidr ("  # hello  ".toList) = some ("# hello".toList) := by decide
example :
    domainsIp.normalize_ip_or_cidr ("  # hello  ".toList) =
      some ("  # hello  ".toList) := by decide
example :
    ip.normalize_ip_or_cidr ("::1%a,b".toList) =
      some ("IP-CIDR,::1%a,b/128,no-resolve".toList) := by decide
example :
    ip.normalize_ip_or_cidr ("IP-CIDR,::1%a,b/128,no-resolve".toList) =
      some ("IP-CIDR,::1%a/128,no-resolve".toList) := by decide
example :
    ip.processLines ["::1%a,b".toList] =
      (["IP-CIDR,::1%a,b/128,no-resolve".toList], 1, 0) := by decide
example :
    domains.processLines ["example.com".toList, "# c".toList, "".toList,
        "DOMAIN-SUFFIX,x.y".toList, "domain-suffix,z".toList] =
      (["DOMAIN-SUFFIX,example.com".toList, "# c".toList, "".toList,
        "DOMAIN-SUFFIX,x.y".toList, "DOMAIN-SUFFIX,domain-suffix,z".toList], 2) := by decide
example : ip.backupOf ("a\n".toList) = "a".toList := by decide
example : ip.fileOutput ("1.2.3.4".toList) = "IP-CIDR,1.2.3.4/32,no-resolve\n".toList := by decide

/-! ### Generic lemmas about the string helpers -/

theorem pySplit_ne_nil (sep : Char) (s : Str) : pySplit sep s ≠ [] := by
  cases s with
  | nil => simp [pySplit]
  | cons c cs =>
    simp only [pySplit]
    split
    · simp
    · split <;> simp

theorem joinSep_cons (sep : Char) (p : Str) {ps : List Str} (h : ps ≠ []) :
    joinSep sep (p :: ps) = p ++ sep :: joinSep sep ps := by
  match ps with
  | q :: ps' => rfl

theorem joinSep_pySplit (sep : Char) (s : Str) : joinSep sep (pySplit sep s) = s := by
  induction s with
  | nil => rfl
  | cons c cs ih =>
    simp only [pySplit]
    by_cases h : c = sep
    · rw [if_pos h, joinSep_cons _ _ (pySplit_ne_nil sep cs), ih, h]
      rfl
    · rw [if_neg h]
      obtain ⟨p, ps, hps⟩ := List.exists_cons_of_ne_nil (pySplit_ne_nil sep cs)
      rw [hps]
      rw [hps] at ih
      cases ps with
      | nil => simpa [joinSep] using congrArg (c :: ·) ih
      | cons q ps' =>
        rw [joinSep_cons _ _ (by simp)] at ih
        rw [joinSep_cons _ _ (by simp)]
        simpa using congrArg (c :: ·) ih

theorem not_mem_of_mem_pySplit {sep : Char} {s p : Str} (h : p ∈ pySplit sep s) :
    sep ∉ p := by
  induction s generalizing p with
  | nil =>
    simp [pySplit] at h
    simp [h]
  | cons c cs ih =>
    simp only [pySplit] at h
    by_cases hc : c = sep
    · rw [if_pos hc] at h
      rcases List.mem_cons.mp h with h | h
      · simp [h]
      · exact ih h
    · rw [if_neg hc] at h
      obtain ⟨q, ps, hps⟩ := List.exists_cons_of_ne_nil (pySplit_ne_nil sep cs)
      rw [hps] at h
      rcases List.mem_cons.mp h with h | h
      · subst h
        intro hmem
        rcases List.mem_cons.mp hmem with h | h
        · exact hc h.symm
        · exact ih (hps ▸ List.mem_cons_self q ps) h
      · exact ih (hps ▸ List.mem_cons_of_mem q h)

theorem pySplit_eq_single {sep : Char} {p : Str} (h : sep ∉ p) : pySplit sep p = [p] := by
  induction p with
  | nil => rfl
  | cons c cs ih =>
    simp only [pySplit, if_neg (show ¬c = sep from fun hh => h (by simp [hh]))]
    rw [ih fun hm => h (List.mem_cons_of_mem _ hm)]

theorem pySplit_append {sep : Char} {a : Str} (ha : sep ∉ a) (b : Str) :
    pySplit sep (a ++ sep :: b) = a :: pySplit sep b := by
  induction a with
  | nil => simp [pySplit]
  | cons c cs ih =>
    simp only [List.cons_append, pySplit, List.append_eq,
      if_neg (show ¬c = sep from fun hh => ha (by simp [hh]))]
    rw [ih fun hm => ha (List.mem_cons_of_mem _ hm)]

theorem pySplit_joinSep {sep : Char} :
    ∀ {ps : List Str}, ps ≠ [] → (∀ p ∈ ps, sep ∉ p) →
      pySplit sep (joinSep sep ps) = ps
  | [p], _, h => pySplit_eq_single (h p (by simp))
  | p :: q :: ps, _, h => by
    rw [joinSep_cons _ _ (by simp), pySplit_append (h p (by simp))]
    rw [pySplit_joinSep (by simp) fun r hr => h r (List.mem_cons_of_mem p hr)]

theorem afterFirst_append {sep : Char} {a : Str} (ha : sep ∉ a) (b : Str) :
    afterFirst sep (a ++ sep :: b) = b := by
  induction a with
  | nil => simp [afterFirst]
  | cons c cs ih =>
    simp only [List.cons_append, afterFirst,
      if_neg (show ¬c = sep from fun hh => ha (by simp [hh]))]
    exact ih fun hm => ha (List.mem_cons_of_mem _ hm)

theorem pyPartition_eq_none {sep : Char} {s : Str} (h : sep ∉ s) :
    pyPartition sep s = none := by
  induction s with
  | nil => rfl
  | cons c cs ih =>
    simp only [pyPartition, if_neg (show ¬c = sep from fun hh => h (by simp [hh]))]
    rw [ih fun hm => h (List.mem_cons_of_mem _ hm)]
    rfl

theorem pyPartition_append {sep : Char} {a : Str} (ha : sep ∉ a) (b : Str) :
    pyPartition sep (a ++ sep :: b) = some (a, b) := by
  induction a with
  | nil => simp [pyPartition]
  | cons c cs ih =>
    simp only [List.cons_append, pyPartition, List.append_eq,
      if_neg (show ¬c = sep from fun hh => ha (by simp [hh]))]
    rw [ih fun hm => ha (List.mem_cons_of_mem _ hm)]
    rfl

theorem mem_joinSep {sep c : Char} :
    ∀ {ps : List Str}, c ∈ joinSep sep ps → c = sep ∨ ∃ p ∈ ps, c ∈ p
  | [], h => by simp [joinSep] at h
  | [p], h => by
    right
    exact ⟨p, by simp, h⟩
  | p :: q :: ps, h => by
    rw [joinSep_cons _ _ (by simp)] at h
    rcases List.mem_append.mp h with h | h
    · exact Or.inr ⟨p, by simp, h⟩
    · rcases List.mem_cons.mp h with h | h
      · exact Or.inl h
      · rcases mem_joinSep h with h | ⟨r, hr, hc⟩
        · exact Or.inl h
        · exact Or.inr ⟨r, List.mem_cons_of_mem p hr, hc⟩

theorem head?_joinSep_cons (sep : Char) {p : Str} (ps : List Str) (hp : p ≠ []) :
    (joinSep sep (p :: ps)).head? = p.head? := by
  cases ps with
  | nil => rfl
  | cons q ps' =>
    rw [joinSep_cons _ _ (by simp)]
    exact List.head?_append_of_ne_nil _ hp

/-! ### Lemmas about `pyStrip` -/

theorem head?_dropWhile {p : Char → Bool} {l : Str} {c : Char}
    (h : (l.dropWhile p).head? = some c) : p c = false := by
  induction l with
  | nil => simp at h
  | cons d ds ih =>
    rw [List.dropWhile_cons] at h
    split at h
    · exact ih h
    · simp at h
      subst h
      simp_all

theorem dropWhile_eq_self_of_head {p : Char → Bool} {s : Str}
    (h : ∀ c, s.head? = some c → p c = false) : s.dropWhile p = s := by
  cases s with
  | nil => rfl
  | cons c cs => simp [List.dropWhile_cons, h c rfl]

theorem pyStrip_eq_self {s : Str}
    (h1 : ∀ c, s.head? = some c → pyIsSpace c = false)
    (h2 : ∀ c, s.getLast? = some c → pyIsSpace c = false) : pyStrip s = s := by
  unfold pyStrip
  rw [dropWhile_eq_self_of_head h1,
    dropWhile_eq_self_of_head (by simpa [List.head?_reverse] using h2)]
  exact s.reverse_reverse

theorem pyStrip_head {s : Str} {c : Char} (h : (pyStrip s).head? = some c) :
    pyIsSpace c = false := by
  unfold pyStrip at h
  rw [List.head?_reverse] at h
  have hne : (((s.dropWhile pyIsSpace).reverse.dropWhile pyIsSpace)) ≠ [] := by
    intro hnil
    rw [hnil] at h
    simp at h
  obtain ⟨t, ht⟩ := List.dropWhile_suffix (l := (s.dropWhile pyIsSpace).reverse) pyIsSpace
  have h3 : (s.dropWhile pyIsSpace).reverse.getLast? = some c := by
    rw [← ht, List.getLast?_append_of_ne_nil _ hne, h]
  rw [List.getLast?_reverse] at h3
  exact head?_dropWhile h3

theorem pyStrip_last {s : Str} {c : Char} (h : (pyStrip s).getLast? = some c) :
    pyIsSpace c = false := by
  unfold pyStrip at h
  rw [List.getLast?_reverse] at h
  exact head?_dropWhile h

theorem pyStrip_idem (s : Str) : pyStrip (pyStrip s) = pyStrip s :=
  pyStrip_eq_self (fun _ h => pyStrip_head h) fun _ h => pyStrip_last h

theorem mem_of_mem_pyStrip {c : Char} {s : Str} (h : c ∈ pyStrip s) : c ∈ s := by
  unfold pyStrip at h
  rw [List.mem_reverse] at h
  have h2 := (List.dropWhile_sublist (l := (s.dropWhile pyIsSpace).reverse) pyIsSpace).mem h
  rw [List.mem_reverse] at h2
  exact (List.dropWhile_sublist (l := s) pyIsSpace).mem h2

/-! ### Decimal digit strings -/

theorem isAsciiDigit_iff {c : Char} : isAsciiDigit c = true ↔ c ∈ asciiDigits := by
  simp [isAsciiDigit, List.contains, List.elem_iff]

theorem digitChar_mem {n : Nat} (h : n < 10) : digitChar n ∈ asciiDigits := by
  interval_cases n <;> decide

theorem digitVal_digitChar {n : Nat} (h : n < 10) : digitVal (digitChar n) = n := by
  interval_cases n <;> decide

theorem digitChar_digitVal {c : Char} (h : c ∈ asciiDigits) : digitChar (digitVal c) = c := by
  fin_cases h <;> decide

theorem digitVal_lt_10 {c : Char} (h : c ∈ asciiDigits) : digitVal c < 10 := by
  fin_cases h <;> decide

theorem digitVal_pos {c : Char} (h : c ∈ asciiDigits) (h0 : c ≠ '0') : 1 ≤ digitVal c := by
  fin_cases h <;> simp_all <;> decide

theorem digitChar_ne_zero {n : Nat} (h1 : 1 ≤ n) (h2 : n < 10) : digitChar n ≠ '0' := by
  interval_cases n <;> decide

theorem natReprAux_fuel {f1 f2 n : Nat} (h1 : n < f1) (h2 : n < f2) :
    natReprAux f1 n = natReprAux f2 n := by
  induction f1 generalizing f2 n with
  | zero => omega
  | succ f1 ih =>
    cases f2 with
    | zero => omega
    | succ f2 =>
      simp only [natReprAux]
      by_cases h : n < 10
      · simp [h]
      · rw [if_neg h, if_neg h,
          show natReprAux f1 (n / 10) = natReprAux f2 (n / 10) from ih (by omega) (by omega)]

theorem natRepr_eq_lt {n : Nat} (h : n < 10) : natRepr n = [digitChar n] := by
  unfold natRepr
  simp [natReprAux, h]

theorem natRepr_eq_ge {n : Nat} (h : 10 ≤ n) :
    natRepr n = natRepr (n / 10) ++ [digitChar (n % 10)] := by
  show natReprAux (n + 1) n = natReprAux (n / 10 + 1) (n / 10) ++ [digitChar (n % 10)]
  rw [show natReprAux (n + 1) n =
      (if n < 10 then [digitChar n] else natReprAux n (n / 10) ++ [digitChar (n % 10)]) from rfl,
    if_neg (show ¬n < 10 by omega),
    show natReprAux n (n / 10) = natReprAux (n / 10 + 1) (n / 10) from
      natReprAux_fuel (by omega) (by omega)]

theorem natRepr_ne_nil (n : Nat) : natRepr n ≠ [] := by
  by_cases h : n < 10
  · rw [natRepr_eq_lt h]
    simp
  · rw [natRepr_eq_ge (by omega)]
    simp

theorem natRepr_all_digits (n : Nat) : ∀ c ∈ natRepr n, c ∈ asciiDigits := by
  induction n using Nat.strong_induction_on with
  | _ n ih =>
    by_cases h : n < 10
    · rw [natRepr_eq_lt h]
      intro c hc
      simp at hc
      subst hc
      exact digitChar_mem h
    · rw [natRepr_eq_ge (by omega)]
      intro c hc
      rcases List.mem_append.mp hc with hc | hc
      · exact ih (n / 10) (by omega) c hc
      · simp at hc
        subst hc
        exact digitChar_mem (Nat.mod_lt _ (by omega))

theorem natRepr_length_le : ∀ {k n : Nat}, 1 ≤ k → n < 10 ^ k → (natRepr n).length ≤ k := by
  intro k
  induction k with
  | zero => omega
  | succ k ih =>
    intro n _ h
    by_cases h10 : n < 10
    · rw [natRepr_eq_lt h10]
      simp
    · rw [natRepr_eq_ge (by omega)]
      have hk1 : 1 ≤ k := by
        rcases Nat.eq_zero_or_pos k with hk | hk
        · subst hk
          simp [pow_one] at h
          omega
        · exact hk
      have hdiv : n / 10 < 10 ^ k := by
        rw [pow_succ] at h
        omega
      have := ih hk1 hdiv
      simp only [List.length_append, List.length_singleton]
      omega

theorem natRepr_head_ne_zero {n : Nat} (hn : 1 ≤ n) :
    ∀ {c : Char}, (natRepr n).head? = some c → c ≠ '0' := by
  induction n using Nat.strong_induction_on with
  | _ n ih =>
    intro c hc
    by_cases h10 : n < 10
    · rw [natRepr_eq_lt h10] at hc
      simp at hc
      subst hc
      exact digitChar_ne_zero hn h10
    · rw [natRepr_eq_ge (by omega), List.head?_append_of_ne_nil _ (natRepr_ne_nil _)] at hc
      exact ih (n / 10) (by omega) (by omega) hc

theorem decValue_append_digit (s : Str) (c : Char) :
    decValue (s ++ [c]) = 10 * decValue s + digitVal c := by
  unfold decValue
  rw [List.foldl_append]
  rfl

theorem decValue_natRepr (n : Nat) : decValue (natRepr n) = n := by
  induction n using Nat.strong_induction_on with
  | _ n ih =>
    by_cases h10 : n < 10
    · rw [natRepr_eq_lt h10]
      show 10 * 0 + digitVal (digitChar n) = n
      rw [digitVal_digitChar h10]
      omega
    · rw [natRepr_eq_ge (by omega), decValue_append_digit, ih (n / 10) (by omega),
        digitVal_digitChar (Nat.mod_lt _ (by omega))]
      omega

theorem parseOctet_natRepr {v : Nat} (h : v ≤ 255) : parseOctet (natRepr v) = some v := by
  have hne := natRepr_ne_nil v
  have hall : (natRepr v).all isAsciiDigit = true := by
    rw [List.all_eq_true]
    intro c hc
    exact isAsciiDigit_iff.mpr (natRepr_all_digits v c hc)
  have hlen : (natRepr v).length ≤ 3 := natRepr_length_le (by omega) (by omega)
  have hlead : ¬(natRepr v ≠ ['0'] ∧ (natRepr v).head? = some '0') := by
    rintro ⟨hne0, hhead⟩
    rcases Nat.eq_zero_or_pos v with hv | hv
    · subst hv
      exact hne0 (by decide)
    · exact natRepr_head_ne_zero hv hhead rfl
  unfold parseOctet
  rw [if_neg (by simpa using hne), if_neg (by simp [hall]), if_neg (by omega),
    if_neg hlead, if_neg (by rw [decValue_natRepr]; omega), decValue_natRepr]


theorem natRepr_of_parseOctet {t : Str} {v : Nat} (h : parseOctet t = some v) :
    natRepr v = t := by
  unfold parseOctet at h
  split_ifs at h with h1 h2 h3 h4 h5
  injection h with h
  subst h
  have hall : ∀ c ∈ t, c ∈ asciiDigits := fun c hc =>
    isAsciiDigit_iff.mp (List.all_eq_true.mp h2 c hc)
  match t, h1, h3, h4, hall with
  | [a], _, _, h4, hall =>
    have ha : a ∈ asciiDigits := hall a (by simp)
    have hdec : decValue [a] = digitVal a := by
      simp [decValue]
    rw [hdec, natRepr_eq_lt (digitVal_lt_10 ha), digitChar_digitVal ha]
  | [a, b], _, _, h4, hall =>
    have ha : a ∈ asciiDigits := hall a (by simp)
    have hb : b ∈ asciiDigits := hall b (by simp)
    have ha0 : a ≠ '0' := by
      intro hh
      exact h4 ⟨by simp, by simp [hh]⟩
    have h1a := digitVal_pos ha ha0
    have hda := digitVal_lt_10 ha
    have hdb := digitVal_lt_10 hb
    have hdec : decValue [a, b] = 10 * digitVal a + digitVal b := by
      simp [decValue]
    rw [hdec, natRepr_eq_ge (by omega),
      show (10 * digitVal a + digitVal b) / 10 = digitVal a by omega,
      show (10 * digitVal a + digitVal b) % 10 = digitVal b by omega,
      natRepr_eq_lt hda, digitChar_digitVal ha, digitChar_digitVal hb]
    rfl
  | [a, b, c], _, _, h4, hall =>
    have ha : a ∈ asciiDigits := hall a (by simp)
    have hb : b ∈ asciiDigits := hall b (by simp)
    have hc : c ∈ asciiDigits := hall c (by simp)
    have ha0 : a ≠ '0' := by
      intro hh
      exact h4 ⟨by simp, by simp [hh]⟩
    have h1a := digitVal_pos ha ha0
    have hda := digitVal_lt_10 ha
    have hdb := digitVal_lt_10 hb
    have hdc := digitVal_lt_10 hc
    have hdec : decValue [a, b, c] = 100 * digitVal a + 10 * digitVal b + digitVal c := by
      simp [decValue]
      ring
    rw [hdec, natRepr_eq_ge (by omega),
      show (100 * digitVal a + 10 * digitVal b + digitVal c) / 10
          = 10 * digitVal a + digitVal b by omega,
      show (100 * digitVal a + 10 * digitVal b + digitVal c) % 10 = digitVal c by omega,
      natRepr_eq_ge (by omega),
      show (10 * digitVal a + digitVal b) / 10 = digitVal a by omega,
      show (10 * digitVal a + digitVal b) % 10 = digitVal b by omega,
      natRepr_eq_lt hda, digitChar_digitVal ha, digitChar_digitVal hb, digitChar_digitVal hc]
    simp
  | a :: b :: c :: d :: t5, _, h3, _, _ =>
    exfalso
    apply h3
    simp only [List.length_cons]
    omega

theorem parseOctet_inv {p : Str} {v : Nat} (h : parseOctet p = some v) :
    p ≠ [] ∧ (∀ c ∈ p, c ∈ asciiDigits) ∧ v ≤ 255 := by
  unfold parseOctet at h
  split_ifs at h with h1 h2 h3 h4 h5
  injection h with h
  subst h
  exact ⟨by simpa using h1,
    fun c hc => isAsciiDigit_iff.mp (List.all_eq_true.mp h2 c hc), by omega⟩

/-! ### Hexadecimal digit strings -/

theorem isHexDigit_iff {c : Char} : isHexDigit c = true ↔ c ∈ hexDigits := by
  simp [isHexDigit, List.contains, List.elem_iff]

theorem mem_hexDigits_of_lower {c : Char} (h : c ∈ hexDigitsLower) : c ∈ hexDigits :=
  List.mem_append_left _ h

theorem hexDigitChar_mem {n : Nat} (h : n < 16) : hexDigitChar n ∈ hexDigitsLower := by
  interval_cases n <;> decide

theorem hexVal_hexDigitChar {n : Nat} (h : n < 16) : hexVal (hexDigitChar n) = n := by
  interval_cases n <;> decide

theorem hexReprAux_fuel {f1 f2 n : Nat} (h1 : n < f1) (h2 : n < f2) :
    hexReprAux f1 n = hexReprAux f2 n := by
  induction f1 generalizing f2 n with
  | zero => omega
  | succ f1 ih =>
    cases f2 with
    | zero => omega
    | succ f2 =>
      simp only [hexReprAux]
      by_cases h : n < 16
      · simp [h]
      · rw [if_neg h, if_neg h,
          show hexReprAux f1 (n / 16) = hexReprAux f2 (n / 16) from ih (by omega) (by omega)]

theorem hexRepr_eq_lt {n : Nat} (h : n < 16) : hexRepr n = [hexDigitChar n] := by
  unfold hexRepr
  simp [hexReprAux, h]

theorem hexRepr_eq_ge {n : Nat} (h : 16 ≤ n) :
    hexRepr n = hexRepr (n / 16) ++ [hexDigitChar (n % 16)] := by
  show hexReprAux (n + 1) n = hexReprAux (n / 16 + 1) (n / 16) ++ [hexDigitChar (n % 16)]
  rw [show hexReprAux (n + 1) n =
      (if n < 16 then [hexDigitChar n] else hexReprAux n (n / 16) ++ [hexDigitChar (n % 16)]) from
      rfl,
    if_neg (show ¬n < 16 by omega),
    show hexReprAux n (n / 16) = hexReprAux (n / 16 + 1) (n / 16) from
      hexReprAux_fuel (by omega) (by omega)]

theorem hexRepr_ne_nil (n : Nat) : hexRepr n ≠ [] := by
  by_cases h : n < 16
  · rw [hexRepr_eq_lt h]
    simp
  · rw [hexRepr_eq_ge (by omega)]
    simp

theorem hexRepr_all_lower (n : Nat) : ∀ c ∈ hexRepr n, c ∈ hexDigitsLower := by
  induction n using Nat.strong_induction_on with
  | _ n ih =>
    by_cases h : n < 16
    · rw [hexRepr_eq_lt h]
      intro c hc
      simp at hc
      subst hc
      exact hexDigitChar_mem h
    · rw [hexRepr_eq_ge (by omega)]
      intro c hc
      rcases List.mem_append.mp hc with hc | hc
      · exact ih (n / 16) (by omega) c hc
      · simp at hc
        subst hc
        exact hexDigitChar_mem (Nat.mod_lt _ (by omega))

theorem hexRepr_length_le : ∀ {k n : Nat}, 1 ≤ k → n < 16 ^ k → (hexRepr n).length ≤ k := by
  intro k
  induction k with
  | zero => omega
  | succ k ih =>
    intro n _ h
    by_cases h16 : n < 16
    · rw [hexRepr_eq_lt h16]
      simp
    · rw [hexRepr_eq_ge (by omega)]
      have hk1 : 1 ≤ k := by
        rcases Nat.eq_zero_or_pos k with hk | hk
        · subst hk
          simp [pow_one] at h
          omega
        · exact hk
      have hdiv : n / 16 < 16 ^ k := by
        rw [pow_succ] at h
        omega
      have := ih hk1 hdiv
      simp only [List.length_append, List.length_singleton]
      omega

theorem hexValue_append_digit (s : Str) (c : Char) :
    hexValue (s ++ [c]) = 16 * hexValue s + hexVal c := by
  unfold hexValue
  rw [List.foldl_append]
  rfl

theorem hexValue_hexRepr (n : Nat) : hexValue (hexRepr n) = n := by
  induction n using Nat.strong_induction_on with
  | _ n ih =>
    by_cases h16 : n < 16
    · rw [hexRepr_eq_lt h16]
      show 16 * 0 + hexVal (hexDigitChar n) = n
      rw [hexVal_hexDigitChar h16]
      omega
    · rw [hexRepr_eq_ge (by omega), hexValue_append_digit, ih (n / 16) (by omega),
        hexVal_hexDigitChar (Nat.mod_lt _ (by omega))]
      omega

theorem parseHextet_hexRepr {v : Nat} (h : v < 65536) : parseHextet (hexRepr v) = some v := by
  have hall : (hexRepr v).all isHexDigit = true := by
    rw [List.all_eq_true]
    intro c hc
    exact isHexDigit_iff.mpr (mem_hexDigits_of_lower (hexRepr_all_lower v c hc))
  have hlen : (hexRepr v).length ≤ 4 := hexRepr_length_le (by omega) (by omega)
  unfold parseHextet
  rw [if_neg (by simp [hall]), if_neg (by omega),
    if_neg (by simpa using hexRepr_ne_nil v), hexValue_hexRepr]

theorem hexRepr_eq_single_zero_iff {n : Nat} : hexRepr n = ['0'] ↔ n = 0 := by
  constructor
  · intro h
    by_cases h16 : n < 16
    · rw [hexRepr_eq_lt h16] at h
      have : hexDigitChar n = '0' := by
        injection h
      interval_cases n <;> simp_all <;> exact absurd this (by decide)
    · rw [hexRepr_eq_ge (by omega)] at h
      have := congrArg List.length h
      simp at this
      exact absurd this (hexRepr_ne_nil _)
  · intro h
    subst h
    decide

theorem parseHextet_inv {p : Str} {v : Nat} (h : parseHextet p = some v) :
    p ≠ [] ∧ ∀ c ∈ p, c ∈ hexDigits := by
  unfold parseHextet at h
  split_ifs at h with h1 h2 h3
  exact ⟨by simpa using h3,
    fun c hc => isHexDigit_iff.mp (List.all_eq_true.mp h1 c hc)⟩

/-- Character facts about the lowercase hex alphabet used throughout the
branch analyses. -/
theorem hexLower_char_props {c : Char} (h : c ∈ hexDigitsLower) :
    pyIsSpace c = false ∧ c ≠ ':' ∧ c ≠ '.' ∧ c ≠ '%' ∧ c ≠ '/' ∧ c ≠ ',' ∧ c ≠ '#' ∧
      Char.toUpper c ≠ 'I' := by
  fin_cases h <;> decide

/-- Character facts about the full hex alphabet (which also appears in valid
IPv6 input text). -/
theorem hexDigit_char_props {c : Char} (h : c ∈ hexDigits) :
    pyIsSpace c = false ∧ c ≠ ':' ∧ c ≠ '.' ∧ c ≠ '%' ∧ c ≠ '/' ∧ c ≠ ',' ∧ c ≠ '#' ∧
      Char.toUpper c ≠ 'I' := by
  fin_cases h <;> decide

/-! ### IPv4 string round trips -/

theorem digit_char_props {c : Char} (h : c ∈ asciiDigits) :
    pyIsSpace c = false ∧ c ≠ ':' ∧ c ≠ '.' ∧ c ≠ '%' ∧ c ≠ '/' ∧ c ≠ ',' ∧ c ≠ '#' ∧
      Char.toUpper c ≠ 'I' :=
  hexLower_char_props (List.mem_append_left _ h)

theorem natRepr_no_dot (m : Nat) : '.' ∉ natRepr m := fun hm =>
  (digit_char_props (natRepr_all_digits m _ hm)).2.2.1 rfl

theorem parseIPv4_ipv4Str {n : Nat} (h : n < 2 ^ 32) : parseIPv4 (ipv4Str n) = some n := by
  have hsplit : pySplit '.' (ipv4Str n) =
      [natRepr (n / 2 ^ 24 % 256), natRepr (n / 2 ^ 16 % 256),
        natRepr (n / 2 ^ 8 % 256), natRepr (n % 256)] := by
    apply pySplit_joinSep (by simp)
    intro p hp
    simp at hp
    rcases hp with hp | hp | hp | hp <;> (subst hp; exact natRepr_no_dot _)
  have hne : ipv4Str n ≠ [] := by
    intro hh
    have h2 := congrArg (pySplit '.') hh
    rw [hsplit] at h2
    simp [pySplit] at h2
  unfold parseIPv4
  rw [if_neg (by simpa using hne), hsplit]
  dsimp only []
  rw [parseOctet_natRepr (show n / 2 ^ 24 % 256 ≤ 255 by omega),
    parseOctet_natRepr (show n / 2 ^ 16 % 256 ≤ 255 by omega),
    parseOctet_natRepr (show n / 2 ^ 8 % 256 ≤ 255 by omega),
    parseOctet_natRepr (show n % 256 ≤ 255 by omega)]
  show some _ = some n
  congr 1
  omega

theorem ipv4Str_of_parseIPv4 {s : Str} {n : Nat} (h : parseIPv4 s = some n) :
    ipv4Str n = s := by
  unfold parseIPv4 at h
  split_ifs at h with h1
  cases hps : pySplit '.' s with
  | nil => rw [hps] at h; simp at h
  | cons o1 t1 =>
    cases t1 with
    | nil => rw [hps] at h; simp at h
    | cons o2 t2 =>
      cases t2 with
      | nil => rw [hps] at h; simp at h
      | cons o3 t3 =>
        cases t3 with
        | nil => rw [hps] at h; simp at h
        | cons o4 t4 =>
          cases t4 with
          | cons o5 t5 => rw [hps] at h; simp at h
          | nil =>
            rw [hps] at h
            dsimp only [] at h
            rcases ho1 : parseOctet o1 with _ | v1 <;> rw [ho1] at h <;> simp at h
            rcases ho2 : parseOctet o2 with _ | v2 <;> rw [ho2] at h <;> simp at h
            rcases ho3 : parseOctet o3 with _ | v3 <;> rw [ho3] at h <;> simp at h
            rcases ho4 : parseOctet o4 with _ | v4 <;> rw [ho4] at h <;> simp at h
            obtain ⟨-, -, hle1⟩ := parseOctet_inv ho1
            obtain ⟨-, -, hle2⟩ := parseOctet_inv ho2
            obtain ⟨-, -, hle3⟩ := parseOctet_inv ho3
            obtain ⟨-, -, hle4⟩ := parseOctet_inv ho4
            rw [← joinSep_pySplit '.' s, hps]
            unfold ipv4Str
            rw [show n / 2 ^ 24 % 256 = v1 by omega, show n / 2 ^ 16 % 256 = v2 by omega,
              show n / 2 ^ 8 % 256 = v3 by omega, show n % 256 = v4 by omega,
              natRepr_of_parseOctet ho1, natRepr_of_parseOctet ho2,
              natRepr_of_parseOctet ho3, natRepr_of_parseOctet ho4]

theorem parseIPv4_lt {s : Str} {n : Nat} (h : parseIPv4 s = some n) : n < 2 ^ 32 := by
  unfold parseIPv4 at h
  split_ifs at h with h1
  cases hps : pySplit '.' s with
  | nil => rw [hps] at h; simp at h
  | cons o1 t1 =>
    cases t1 with
    | nil => rw [hps] at h; simp at h
    | cons o2 t2 =>
      cases t2 with
      | nil => rw [hps] at h; simp at h
      | cons o3 t3 =>
        cases t3 with
        | nil => rw [hps] at h; simp at h
        | cons o4 t4 =>
          cases t4 with
          | cons o5 t5 => rw [hps] at h; simp at h
          | nil =>
            rw [hps] at h
            dsimp only [] at h
            rcases ho1 : parseOctet o1 with _ | v1 <;> rw [ho1] at h <;> simp at h
            rcases ho2 : parseOctet o2 with _ | v2 <;> rw [ho2] at h <;> simp at h
            rcases ho3 : parseOctet o3 with _ | v3 <;> rw [ho3] at h <;> simp at h
            rcases ho4 : parseOctet o4 with _ | v4 <;> rw [ho4] at h <;> simp at h
            obtain ⟨-, -, hle1⟩ := parseOctet_inv ho1
            obtain ⟨-, -, hle2⟩ := parseOctet_inv ho2
            obtain ⟨-, -, hle3⟩ := parseOctet_inv ho3
            obtain ⟨-, -, hle4⟩ := parseOctet_inv ho4
            omega

/-! ### IPv6: hextet value accumulation -/

/-- Specification-side accumulator for the hextet folds. -/
def valueOf (vs : List Nat) (a : Nat) : Nat := vs.foldl (fun acc v => acc * 65536 + v) a

theorem valueOf_nil (a : Nat) : valueOf [] a = a := rfl

theorem valueOf_cons (v : Nat) (vs : List Nat) (a : Nat) :
    valueOf (v :: vs) a = valueOf vs (a * 65536 + v) := rfl

theorem valueOf_append (xs ys : List Nat) (a : Nat) :
    valueOf (xs ++ ys) a = valueOf ys (valueOf xs a) := by
  unfold valueOf
  rw [List.foldl_append]

theorem valueOf_shift (vs : List Nat) (a : Nat) :
    valueOf vs a = a * 65536 ^ vs.length + valueOf vs 0 := by
  induction vs generalizing a with
  | nil => simp [valueOf_nil]
  | cons v vs ih =>
    rw [valueOf_cons, ih, valueOf_cons, ih (0 * 65536 + v)]
    simp only [List.length_cons, pow_succ]
    ring

theorem valueOf_zeros {zs : List Nat} (h : ∀ v ∈ zs, v = 0) (a : Nat) :
    valueOf zs a = a * 65536 ^ zs.length := by
  induction zs generalizing a with
  | nil => simp [valueOf_nil]
  | cons v vs ih =>
    rw [valueOf_cons, h v (by simp), ih (fun w hw => h w (by simp [hw]))]
    simp only [List.length_cons, pow_succ]
    ring

theorem hexValue_lt {s : Str} (h : ∀ c ∈ s, c ∈ hexDigits) : hexValue s < 16 ^ s.length := by
  have hgen : ∀ (t : Str) (a : Nat), (∀ c ∈ t, c ∈ hexDigits) →
      t.foldl (fun x c => 16 * x + hexVal c) a < (a + 1) * 16 ^ t.length := by
    intro t
    induction t with
    | nil => intro a _; simpa using Nat.lt_succ_self a
    | cons c cs ih =>
      intro a hall
      have hc : hexVal c < 16 := by
        have := hall c (by simp)
        fin_cases this <;> decide
      have := ih (16 * a + hexVal c) fun d hd => hall d (by simp [hd])
      calc (c :: cs).foldl (fun x c => 16 * x + hexVal c) a
          = cs.foldl (fun x c => 16 * x + hexVal c) (16 * a + hexVal c) := rfl
        _ < (16 * a + hexVal c + 1) * 16 ^ cs.length := this
        _ ≤ (a + 1) * 16 ^ (c :: cs).length := by
            simp only [List.length_cons, pow_succ]
            calc (16 * a + hexVal c + 1) * 16 ^ cs.length
                ≤ ((a + 1) * 16) * 16 ^ cs.length := by
                  apply Nat.mul_le_mul_right
                  omega
              _ = (a + 1) * (16 ^ cs.length * 16) := by ring
  have := hgen s 0 h
  simpa using this

theorem parseHextet_lt {p : Str} {v : Nat} (h : parseHextet p = some v) : v < 65536 := by
  unfold parseHextet at h
  split_ifs at h with h1 h2 h3
  injection h with h
  subst h
  have hall : ∀ c ∈ p, c ∈ hexDigits := fun c hc =>
    isHexDigit_iff.mp (List.all_eq_true.mp h1 c hc)
  have hlen := hexValue_lt hall
  have : (16 : Nat) ^ p.length ≤ 16 ^ 4 := Nat.pow_le_pow_right (by omega) (by omega)
  omega

theorem foldHextets_map_hexRepr (vs : List Nat) (hvs : ∀ v ∈ vs, v < 65536) (a : Nat) :
    foldHextets (vs.map hexRepr) a = some (valueOf vs a) := by
  induction vs generalizing a with
  | nil => rfl
  | cons v vs ih =>
    show (parseHextet (hexRepr v)).map (fun h => a * 65536 + h) >>= _ = _
    rw [parseHextet_hexRepr (hvs v (by simp))]
    show foldHextets (vs.map hexRepr) (a * 65536 + v) = _
    rw [ih (fun w hw => hvs w (by simp [hw])), valueOf_cons]

theorem foldHextets_mem {ps : List Str} {a v : Nat} (h : foldHextets ps a = some v) :
    ∀ p ∈ ps, ∃ hh, parseHextet p = some hh := by
  induction ps generalizing a with
  | nil => simp
  | cons p ps ih =>
    intro q hq
    have hstep : foldHextets (p :: ps) a =
        (parseHextet p).map (fun h => a * 65536 + h) >>= fun a' => foldHextets ps a' := rfl
    rw [hstep] at h
    rcases hp : parseHextet p with _ | hv
    · rw [hp] at h
      simp at h
    · rcases List.mem_cons.mp hq with hq | hq
      · exact ⟨hv, hq ▸ hp⟩
      · rw [hp] at h
        simp only [Option.map, Option.bind] at h
        exact ih h q hq

theorem hextetVals_length (n : Nat) : (hextetVals n).length = 8 := rfl

theorem hextetVals_lt (n : Nat) : ∀ v ∈ hextetVals n, v < 65536 := by
  intro v hv
  simp [hextetVals] at hv
  rcases hv with h | h | h | h | h | h | h | h <;> omega

theorem valueOf_hextetVals {n : Nat} (h : n < 2 ^ 128) : valueOf (hextetVals n) 0 = n := by
  show valueOf [n / 2 ^ 112 % 65536, n / 2 ^ 96 % 65536, n / 2 ^ 80 % 65536,
    n / 2 ^ 64 % 65536, n / 2 ^ 48 % 65536, n / 2 ^ 32 % 65536, n / 2 ^ 16 % 65536,
    n % 65536] 0 = n
  simp only [valueOf, List.foldl_cons, List.foldl_nil]
  omega

/-! ### IPv6: the compression scan invariant -/

/-- An all-`"0"` in-bounds segment of `l`. -/
def ZeroSeg (l : List Str) (s len : Nat) : Prop :=
  s + len ≤ l.length ∧ ∀ j, s ≤ j → j < s + len → l[j]? = some (['0'] : Str)

theorem getElem?_append_middle (done : List Str) (h : Str) (t : List Str) :
    (done ++ h :: t)[done.length]? = some h := by
  rw [List.getElem?_append_right (le_refl _)]
  simp

theorem bestRunGo_spec :
    ∀ (hx done : List Str) (bs : Int) (bl : Nat) (cs : Int) (cl : Nat),
      (bl ≥ 1 → ZeroSeg (done ++ hx) bs.toNat bl) →
      (cl ≥ 1 → cs.toNat + cl = done.length ∧ ZeroSeg (done ++ hx) cs.toNat cl) →
      (cs = -1 ↔ cl = 0) →
      (bestRunGo hx done.length bs bl cs cl).2 ≥ 1 →
      ZeroSeg (done ++ hx) (bestRunGo hx done.length bs bl cs cl).1.toNat
        (bestRunGo hx done.length bs bl cs cl).2
  | [], done, bs, bl, cs, cl, hb, _, _, hr2 => by
    simp only [bestRunGo] at hr2 ⊢
    simpa using hb hr2
  | h :: t, done, bs, bl, cs, cl, hb, hc, hiff, hr2 => by
    have hassoc : done ++ h :: t = (done ++ [h]) ++ t := by
      rw [List.append_assoc]
      rfl
    have hlen1 : done.length + 1 = (done ++ [h]).length := by
      simp
    by_cases hz : h = ['0']
    · -- the current run of zeros extends by this element
      have hmid : (done ++ h :: t)[done.length]? = some (['0'] : Str) := by
        rw [getElem?_append_middle, hz]
      have hcur : (if cs = -1 then (done.length : Int) else cs).toNat + (cl + 1)
            = done.length + 1 ∧
          ZeroSeg (done ++ h :: t) (if cs = -1 then (done.length : Int) else cs).toNat
            (cl + 1) := by
        by_cases hcs : cs = -1
        · have hcl0 : cl = 0 := hiff.mp hcs
        -- fresh run starting at this index
          subst hcl0
          rw [if_pos hcs]
          refine ⟨by simp, by simp only [List.length_append, List.length_cons]; omega, ?_⟩
          intro j hj1 hj2
          have : j = done.length := by
            simp at hj1 hj2
            omega
          subst this
          exact hmid
        · have hcl1 : cl ≥ 1 := by
            rcases Nat.eq_zero_or_pos cl with h0 | h0
            · exact absurd (hiff.mpr h0) hcs
            · exact h0
          obtain ⟨hsum, hseg⟩ := hc hcl1
          rw [if_neg hcs]
          refine ⟨by omega, by rcases hseg with ⟨hle, _⟩; simp at hle ⊢; omega, ?_⟩
          intro j hj1 hj2
          rcases Nat.lt_or_ge j (cs.toNat + cl) with hlt | hge
          · exact hseg.2 j hj1 hlt
          · have : j = done.length := by omega
            subst this
            exact hmid
      have hiff' : (if cs = -1 then (done.length : Int) else cs) = -1 ↔ cl + 1 = 0 := by
        constructor
        · intro hcs'
          by_cases hcs : cs = -1
          · rw [if_pos hcs] at hcs'
            omega
          · rw [if_neg hcs] at hcs'
            exact absurd hcs' hcs
        · omega
      by_cases hgt : cl + 1 > bl
      · simp only [bestRunGo, if_pos hz, if_pos hgt] at hr2 ⊢
        rw [hlen1] at hr2
        rw [hassoc, hlen1]
        apply bestRunGo_spec t (done ++ [h])
        · intro _
          rw [← hassoc]
          exact hcur.2
        · intro _
          rw [← hassoc, ← hlen1]
          exact ⟨hcur.1, hcur.2⟩
        · exact hiff'
        · exact hr2
      · simp only [bestRunGo, if_pos hz, if_neg hgt] at hr2 ⊢
        rw [hlen1] at hr2
        rw [hassoc, hlen1]
        apply bestRunGo_spec t (done ++ [h])
        · intro hbl
          rw [← hassoc]
          exact hb hbl
        · intro _
          rw [← hassoc, ← hlen1]
          exact ⟨hcur.1, hcur.2⟩
        · exact hiff'
        · exact hr2
    · simp only [bestRunGo, if_neg hz] at hr2 ⊢
      rw [hlen1] at hr2
      rw [hassoc, hlen1]
      apply bestRunGo_spec t (done ++ [h])
      · intro hbl
        rw [← hassoc]
        exact hb hbl
      · omega
      · simp
      · exact hr2

/-! ### IPv6: parsing the printed form -/

theorem filter_range_eq_single {n i : Nat} {p : Nat → Bool} (hi : i < n) (hpi : p i = true)
    (huniq : ∀ j, j < n → p j = true → j = i) : (List.range n).filter p = [i] := by
  induction n with
  | zero => omega
  | succ n ih =>
    rw [List.range_succ, List.filter_append]
    by_cases hin : i = n
    · have hnil : (List.range n).filter p = [] := by
        apply List.filter_eq_nil_iff.mpr
        intro j hj hpj
        have hjn := List.mem_range.mp hj
        have := huniq j (Nat.lt_succ_of_lt hjn) hpj
        omega
      subst hin
      rw [hnil]
      simp [List.filter, hpi]
    · have hi' : i < n := by omega
      rw [ih hi' fun j hj hp => huniq j (by omega) hp]
      have hpn : p n = false := by
        by_contra hpn
        have := huniq n (by omega) (by simpa using hpn)
        omega
      simp [List.filter, hpn]

theorem interiorEmpties_eq_nil {parts : List Str}
    (h : ∀ j, 0 < j → j + 1 < parts.length → parts[j]? ≠ some ([] : Str)) :
    interiorEmpties parts = [] := by
  unfold interiorEmpties
  apply List.filter_eq_nil_iff.mpr
  intro j _ hpred
  simp only [Bool.and_eq_true, decide_eq_true_eq, beq_iff_eq] at hpred
  exact h j hpred.1.1 hpred.1.2 hpred.2

theorem interiorEmpties_eq_single {parts : List Str} {i : Nat}
    (hi : 0 < i) (hi2 : i + 1 < parts.length) (hemp : parts[i]? = some ([] : Str))
    (huniq : ∀ j, 0 < j → j + 1 < parts.length → parts[j]? = some ([] : Str) → j = i) :
    interiorEmpties parts = [i] := by
  unfold interiorEmpties
  apply filter_range_eq_single (by omega)
  · simp only [Bool.and_eq_true, decide_eq_true_eq, beq_iff_eq]
    exact ⟨⟨hi, hi2⟩, hemp⟩
  · intro j _ hp
    simp only [Bool.and_eq_true, decide_eq_true_eq, beq_iff_eq] at hp
    exact huniq j hp.1.1 hp.1.2 hp.2

theorem parseHextetParts_map {vals : List Nat} (hlen : vals.length = 8)
    (hlt : ∀ v ∈ vals, v < 65536) :
    parseHextetParts (vals.map hexRepr) = some (valueOf vals 0) := by
  have hxlen : (vals.map hexRepr).length = 8 := by simp [hlen]
  have hget : ∀ j, j < 8 → ∃ v, vals[j]? = some v ∧ (vals.map hexRepr)[j]? = some (hexRepr v) := by
    intro j hj
    have hj' : j < vals.length := by omega
    refine ⟨vals[j], List.getElem?_eq_getElem hj', ?_⟩
    rw [List.getElem?_map, List.getElem?_eq_getElem hj']
    rfl
  have hne : ∀ j, j < 8 → (vals.map hexRepr)[j]? ≠ some ([] : Str) := by
    intro j hj hcontra
    obtain ⟨v, _, hxv⟩ := hget j hj
    rw [hxv] at hcontra
    exact hexRepr_ne_nil v (by injection hcontra)
  unfold parseHextetParts
  rw [if_neg (by omega),
    interiorEmpties_eq_nil fun j hj hj2 => hne j (by rw [hxlen] at hj2; omega)]
  dsimp only []
  rw [if_neg (by omega),
    if_neg (by rw [List.head?_eq_getElem?]; exact hne 0 (by omega)),
    if_neg (by rw [List.getLast?_eq_getElem?, hxlen]; exact hne 7 (by omega)),
    foldHextets_map_hexRepr vals hlt 0]

theorem compressHextets_eq_of_gt {hx : List Str}
    (hbl : (bestRunGo hx 0 (-1) 0 (-1) 0).2 > 1) :
    compressHextets hx =
      (if (bestRunGo hx 0 (-1) 0 (-1) 0).1.toNat = 0 then [([] : Str)] else []) ++
        ((if (bestRunGo hx 0 (-1) 0 (-1) 0).1.toNat + (bestRunGo hx 0 (-1) 0 (-1) 0).2
              = hx.length
            then hx ++ [([] : Str)] else hx).take (bestRunGo hx 0 (-1) 0 (-1) 0).1.toNat ++
          [([] : Str)] ++
          (if (bestRunGo hx 0 (-1) 0 (-1) 0).1.toNat + (bestRunGo hx 0 (-1) 0 (-1) 0).2
              = hx.length
            then hx ++ [([] : Str)] else hx).drop
            ((bestRunGo hx 0 (-1) 0 (-1) 0).1.toNat + (bestRunGo hx 0 (-1) 0 (-1) 0).2)) := by
  unfold compressHextets
  rw [if_pos hbl]
  by_cases h : (bestRunGo hx 0 (-1) 0 (-1) 0).1.toNat = 0 <;> simp [h]

theorem sandwich_getElem?_eq_empty {A B : List Str} {j : Nat}
    (hA : ∀ k : Nat, A[k]? ≠ some ([] : Str)) (hB : ∀ k : Nat, B[k]? ≠ some ([] : Str))
    (h : (A ++ [([] : Str)] ++ B)[j]? = some ([] : Str)) : j = A.length := by
  rcases Nat.lt_trichotomy j A.length with hj | hj | hj
  · rw [List.append_assoc, List.getElem?_append_left hj] at h
    exact absurd h (hA j)
  · exact hj
  · rw [List.append_assoc, List.getElem?_append_right (by omega)] at h
    rw [List.getElem?_append_right (by simp; omega)] at h
    exact absurd h (hB _)

theorem foldHextets_nil (a : Nat) : foldHextets [] a = some a := rfl

theorem parseHextetParts_trailing {A : List Str} {k : Nat} (hA : A.length = k) (h1 : 1 ≤ k)
    (hk : k ≤ 6) (hAne : ∀ j : Nat, A[j]? ≠ some ([] : Str)) {w : Nat}
    (hfold : foldHextets A 0 = some w) :
    parseHextetParts (A ++ [([] : Str)] ++ [([] : Str)]) = some (w * 65536 ^ (8 - k)) := by
  set P := A ++ [([] : Str)] ++ [([] : Str)] with hP
  have hplen : P.length = k + 2 := by
    simp [hP, hA]
  have hint : interiorEmpties P = [k] := by
    apply interiorEmpties_eq_single (by omega) (by rw [hplen]; omega)
    · rw [hP, List.append_assoc, List.getElem?_append_right (by rw [hA]), hA]
      simp
    · intro j hj0 hjlt hj
      rw [hplen] at hjlt
      rcases Nat.lt_trichotomy j k with hjk | hjk | hjk
      · rw [hP, List.append_assoc, List.getElem?_append_left (by omega)] at hj
        exact absurd hj (hAne j)
      · exact hjk
      · omega
  have hhead : P.head? ≠ some ([] : Str) := by
    rw [List.head?_eq_getElem?, hP, List.append_assoc, List.getElem?_append_left (by omega)]
    exact hAne 0
  have hlast : P.getLast? = some ([] : Str) := by
    rw [hP, show A ++ [([] : Str)] ++ [([] : Str)] = (A ++ [([] : Str)]) ++ [([] : Str)] from rfl,
      List.getLast?_append_of_ne_nil _ (by simp)]
    rfl
  have htake : P.take k = A := by
    rw [hP, List.append_assoc, List.take_append_of_le_length (by omega), ← hA,
      List.take_length]
  unfold parseHextetParts
  rw [if_neg (by rw [hplen]; omega), hint]
  dsimp only []
  rw [if_neg hhead, if_pos hlast, if_pos (by rw [hplen]; omega)]
  dsimp only []
  rw [if_neg (show ¬8 - (k + 0) < 1 by omega), htake, hfold]
  show foldHextets (P.drop (P.length - 0)) (w * 65536 ^ (8 - (k + 0))) = _
  rw [show P.length - 0 = P.length by omega, List.drop_length, foldHextets_nil,
    show 8 - (k + 0) = 8 - k by omega]

theorem parseHextetParts_leading {B : List Str} {k : Nat} (hB : B.length = k) (h1 : 1 ≤ k)
    (hk : k ≤ 6) (hBne : ∀ j : Nat, B[j]? ≠ some ([] : Str)) {w : Nat}
    (hfold : foldHextets B 0 = some w) :
    parseHextetParts (([] : Str) :: ([] : Str) :: B) = some w := by
  set P := ([] : Str) :: ([] : Str) :: B with hP
  have hplen : P.length = k + 2 := by
    simp [hP, hB]
  have hint : interiorEmpties P = [1] := by
    apply interiorEmpties_eq_single (by omega) (by rw [hplen]; omega)
      (by rw [hP, List.getElem?_cons_succ, List.getElem?_cons_zero])
    intro j hj0 hjlt hj
    rcases j with _ | j
    · omega
    rcases j with _ | j
    · rfl
    · rw [hP, List.getElem?_cons_succ, List.getElem?_cons_succ] at hj
      exact absurd hj (hBne j)
  have hlast : P.getLast? ≠ some ([] : Str) := by
    rw [List.getLast?_eq_getElem?, hplen, hP, show k + 2 - 1 = (k - 1) + 2 by omega,
      List.getElem?_cons_succ, List.getElem?_cons_succ]
    exact hBne (k - 1)
  unfold parseHextetParts
  rw [if_neg (by rw [hplen]; omega), hint]
  dsimp only []
  rw [if_pos (by rw [hP]; rfl), if_pos (by omega), if_neg hlast]
  dsimp only []
  rw [if_neg (by rw [hplen]; omega)]
  rw [List.take_zero, foldHextets_nil]
  show foldHextets (P.drop (P.length - (P.length - 1 - 1))) (0 * 65536 ^ _) = some w
  rw [hplen, show k + 2 - (k + 2 - 1 - 1) = 2 by omega, hP,
    show (([] : Str) :: ([] : Str) :: B).drop 2 = B from rfl, Nat.zero_mul, hfold]

theorem parseHextetParts_middle {A B : List Str} {ka kb : Nat} (hA : A.length = ka)
    (hB : B.length = kb) (h1a : 1 ≤ ka) (h1b : 1 ≤ kb) (hk : ka + kb ≤ 6)
    (hAne : ∀ j : Nat, A[j]? ≠ some ([] : Str)) (hBne : ∀ j : Nat, B[j]? ≠ some ([] : Str))
    {w v : Nat} (hfoldA : foldHextets A 0 = some w)
    (hfoldB : foldHextets B (w * 65536 ^ (8 - (ka + kb))) = some v) :
    parseHextetParts (A ++ [([] : Str)] ++ B) = some v := by
  set P := A ++ [([] : Str)] ++ B with hP
  have hplen : P.length = ka + 1 + kb := by
    rw [hP]
    simp only [List.length_append, List.length_cons, List.length_nil, hA, hB]
  have hint : interiorEmpties P = [ka] := by
    apply interiorEmpties_eq_single (by omega) (by rw [hplen]; omega)
    · rw [hP, List.append_assoc, List.getElem?_append_right (by rw [hA]), hA]
      simp
    · intro j hj0 hjlt hj
      rw [hP] at hj
      have := sandwich_getElem?_eq_empty hAne hBne hj
      omega
  have hhead : P.head? ≠ some ([] : Str) := by
    rw [List.head?_eq_getElem?, hP, List.append_assoc, List.getElem?_append_left (by omega)]
    exact hAne 0
  have hlast : P.getLast? ≠ some ([] : Str) := by
    rw [List.getLast?_eq_getElem?, hplen, hP, List.append_assoc,
      List.getElem?_append_right (by rw [hA]; omega), hA,
      show ka + 1 + kb - 1 - ka = (kb - 1) + 1 by omega,
      List.singleton_append, List.getElem?_cons_succ]
    exact hBne (kb - 1)
  have htake : P.take ka = A := by
    rw [hP, List.append_assoc, List.take_append_of_le_length (by omega), ← hA,
      List.take_length]
  have hdrop : P.drop (ka + 1) = B := by
    rw [hP, show A ++ [([] : Str)] ++ B = (A ++ [([] : Str)]) ++ B from rfl,
      show ka + 1 = (A ++ [([] : Str)]).length by simp [hA], List.drop_left]
  unfold parseHextetParts
  rw [if_neg (by rw [hplen]; omega), hint]
  dsimp only []
  rw [if_neg hhead, if_neg hlast]
  dsimp only []
  rw [if_neg (show ¬8 - (ka + (P.length - ka - 1)) < 1 by rw [hplen]; omega), htake, hfoldA]
  show foldHextets (P.drop (P.length - (P.length - ka - 1)))
      (w * 65536 ^ (8 - (ka + (P.length - ka - 1)))) = some v
  rw [hplen, show ka + 1 + kb - (ka + 1 + kb - ka - 1) = ka + 1 by omega,
    show ka + (ka + 1 + kb - ka - 1) = ka + kb by omega]
  rw [show P.drop (ka + 1) = B from hdrop, hfoldB]

set_option maxHeartbeats 1000000 in
theorem parseHextetParts_compress {vals : List Nat} (hlen : vals.length = 8)
    (hlt : ∀ v ∈ vals, v < 65536) :
    parseHextetParts (compressHextets (vals.map hexRepr)) = some (valueOf vals 0) := by
  by_cases hbl : (bestRunGo (vals.map hexRepr) 0 (-1) 0 (-1) 0).2 > 1
  case neg =>
    have hcomp : compressHextets (vals.map hexRepr) = vals.map hexRepr := by
      unfold compressHextets
      rw [if_neg hbl]
    rw [hcomp]
    exact parseHextetParts_map hlen hlt
  case pos =>
    have hxlen : (vals.map hexRepr).length = 8 := by simp [hlen]
    have hseg : ZeroSeg (vals.map hexRepr)
        (bestRunGo (vals.map hexRepr) 0 (-1) 0 (-1) 0).1.toNat
        (bestRunGo (vals.map hexRepr) 0 (-1) 0 (-1) 0).2 := by
      have := bestRunGo_spec (vals.map hexRepr) [] (-1) 0 (-1) 0 (by omega) (by omega)
        (by simp) (by simpa using by omega)
      simpa using this
    rw [compressHextets_eq_of_gt hbl, hxlen]
    set r := bestRunGo (vals.map hexRepr) 0 (-1) 0 (-1) 0 with hr
    set s' := r.1.toNat with hsdef
    set L := r.2 with hLdef
    obtain ⟨hbound, hzero⟩ := hseg
    rw [hxlen] at hbound
    have hL2 : 2 ≤ L := hbl
    have hzv : ∀ j, s' ≤ j → j < s' + L → vals[j]? = some 0 := by
      intro j h1 h2
      have hx0 := hzero j h1 h2
      rw [List.getElem?_map] at hx0
      rcases hv : vals[j]? with _ | v <;> rw [hv] at hx0
      · simp at hx0
      · have hv0 : v = 0 := hexRepr_eq_single_zero_iff.mp (by simpa using hx0)
        rw [hv0]
    have hAlen : (vals.take s').length = s' := List.length_take_of_le (by omega)
    have hBlen : (vals.drop (s' + L)).length = 8 - (s' + L) := by
      rw [List.length_drop, hlen]
    have hZsplit : vals = vals.take s' ++ ((vals.drop s').take L ++ vals.drop (s' + L)) := by
      conv_lhs => rw [← List.take_append_drop s' vals]
      congr 1
      conv_lhs => rw [← List.take_append_drop L (vals.drop s')]
      rw [List.drop_drop]
    have hZlen : ((vals.drop s').take L).length = L := by
      rw [List.length_take_of_le]
      rw [List.length_drop, hlen]
      omega
    have hZzero : ∀ v ∈ (vals.drop s').take L, v = 0 := by
      intro v hv
      obtain ⟨j, hj⟩ := List.getElem?_of_mem hv
      rw [List.getElem?_take] at hj
      split at hj
      next hjL =>
        rw [List.getElem?_drop] at hj
        have := hzv (s' + j) (by omega) (by omega)
        rw [this] at hj
        injection hj with hj
        exact hj.symm
      next => simp at hj
    have hval : valueOf vals 0 =
        valueOf (vals.drop (s' + L)) (valueOf (vals.take s') 0 * 65536 ^ L) := by
      conv_lhs => rw [hZsplit]
      rw [valueOf_append, valueOf_append, valueOf_zeros hZzero, hZlen]
    have hAlt : ∀ v ∈ vals.take s', v < 65536 := fun v hv => hlt v (List.mem_of_mem_take hv)
    have hBlt : ∀ v ∈ vals.drop (s' + L), v < 65536 :=
      fun v hv => hlt v (List.mem_of_mem_drop hv)
    have hmapne : ∀ (w : List Nat) (j : Nat), (w.map hexRepr)[j]? ≠ some ([] : Str) := by
      intro w j hj
      rw [List.getElem?_map] at hj
      rcases hv : w[j]? with _ | v <;> rw [hv] at hj <;> simp at hj
      exact hexRepr_ne_nil v hj
    have hmapA : (vals.map hexRepr).take s' = (vals.take s').map hexRepr :=
      (List.map_take _ _ _).symm
    have hmapB : (vals.map hexRepr).drop (s' + L) = (vals.drop (s' + L)).map hexRepr :=
      (List.map_drop _ _ _).symm
    have hAmaplen : ((vals.take s').map hexRepr).length = s' := by
      rw [List.length_map, hAlen]
    have hBmaplen : ((vals.drop (s' + L)).map hexRepr).length = 8 - (s' + L) := by
      rw [List.length_map, hBlen]
    by_cases he8 : s' + L = 8
    · rw [if_pos he8]
      have htake : (vals.map hexRepr ++ [([] : Str)]).take s' = (vals.take s').map hexRepr := by
        rw [List.take_append_of_le_length (by omega), hmapA]
      have hdrop : (vals.map hexRepr ++ [([] : Str)]).drop (s' + L) = [([] : Str)] := by
        rw [show s' + L = (vals.map hexRepr).length by omega, List.drop_left]
      rw [htake, hdrop]
      have hBnil : vals.drop (s' + L) = [] := List.drop_eq_nil_of_le (by omega)
      rw [hval, hBnil, valueOf_nil]
      by_cases hs0 : s' = 0
      · -- the whole address is zero
        rw [if_pos hs0, hs0]
        rw [show vals.take 0 = [] from List.take_zero vals, valueOf_nil, Nat.zero_mul]
        simp only [List.map_nil, List.nil_append]
        decide
      · -- trailing run of zeros
        rw [if_neg hs0, List.nil_append, show L = 8 - s' by omega]
        exact parseHextetParts_trailing hAmaplen (by omega) (by omega) (hmapne _)
          (foldHextets_map_hexRepr _ hAlt 0)
    · rw [if_neg he8, hmapA, hmapB]
      by_cases hs0 : s' = 0
      · -- leading run of zeros
        rw [if_pos hs0, hval, hs0]
        rw [show vals.take 0 = [] from List.take_zero vals, valueOf_nil, Nat.zero_mul]
        rw [show ([([] : Str)] : List Str) ++
            (([] : List Nat).map hexRepr ++ [([] : Str)] ++ (vals.drop (0 + L)).map hexRepr)
            = ([] : Str) :: ([] : Str) :: (vals.drop (0 + L)).map hexRepr from rfl]
        exact parseHextetParts_leading (by rw [List.length_map, List.length_drop, hlen])
          (by omega) (by omega) (hmapne _)
          (foldHextets_map_hexRepr _ (by rw [show (0 : Nat) + L = s' + L by omega]; exact hBlt) 0)
      · -- interior run of zeros
        rw [if_neg hs0, List.nil_append, hval]
        exact parseHextetParts_middle hAmaplen hBmaplen (by omega) (by omega) (by omega)
          (hmapne _) (hmapne _) (foldHextets_map_hexRepr _ hAlt 0)
          (by
            rw [show 8 - (s' + (8 - (s' + L))) = L by omega]
            exact foldHextets_map_hexRepr _ hBlt _)

theorem mem_if_append_empty {hx : List Str} {x : Str} {c : Prop} [Decidable c]
    (h : x ∈ (if c then hx ++ [([] : Str)] else hx)) : x = [] ∨ x ∈ hx := by
  split at h
  · rcases List.mem_append.mp h with h | h
    · exact Or.inr h
    · simp at h
      exact Or.inl h
  · exact Or.inr h

theorem mem_compressHextets {hx : List Str} {x : Str} (h : x ∈ compressHextets hx) :
    x = [] ∨ x ∈ hx := by
  by_cases hbl : (bestRunGo hx 0 (-1) 0 (-1) 0).2 > 1
  · rw [compressHextets_eq_of_gt hbl] at h
    rcases List.mem_append.mp h with h | h
    · split at h <;> simp at h
      exact Or.inl h
    · rcases List.mem_append.mp h with h | h
      · rcases List.mem_append.mp h with h | h
        · exact mem_if_append_empty (List.mem_of_mem_take h)
        · simp at h
          exact Or.inl h
      · exact mem_if_append_empty (List.mem_of_mem_drop h)
  · have hcomp : compressHextets hx = hx := by
      unfold compressHextets
      rw [if_neg hbl]
    rw [hcomp] at h
    exact Or.inr h

theorem compressHextets_length_of_eight {hx : List Str} (hxlen : hx.length = 8) :
    3 ≤ (compressHextets hx).length := by
  by_cases hbl : (bestRunGo hx 0 (-1) 0 (-1) 0).2 > 1
  · have hseg : ZeroSeg hx (bestRunGo hx 0 (-1) 0 (-1) 0).1.toNat
        (bestRunGo hx 0 (-1) 0 (-1) 0).2 := by
      have := bestRunGo_spec hx [] (-1) 0 (-1) 0 (by omega) (by omega) (by simp)
        (by simpa using by omega)
      simpa using this
    obtain ⟨hbound, -⟩ := hseg
    rw [hxlen] at hbound
    rw [compressHextets_eq_of_gt hbl, hxlen]
    simp only [List.length_append, List.length_take, List.length_drop, List.length_cons,
      List.length_nil, hxlen]
    split_ifs <;> simp <;> omega
  · have hcomp : compressHextets hx = hx := by
      unfold compressHextets
      rw [if_neg hbl]
    rw [hcomp]
    omega

theorem joinSep_ne_nil_of_two {sep : Char} {ps : List Str} (h : 2 ≤ ps.length) :
    joinSep sep ps ≠ [] := by
  match ps, h with
  | p :: q :: ps, _ =>
    rw [joinSep_cons _ _ (by simp)]
    simp

theorem getLastD_mem {ps : List Str} (h : ps ≠ []) : ps.getLastD [] ∈ ps := by
  rw [List.getLastD_eq_getLast?]
  rcases hl : ps.getLast? with _ | x
  · exact absurd (List.getLast?_eq_none_iff.mp hl) h
  · exact List.mem_of_mem_getLast? hl

theorem contains_iff_mem {l : Str} {c : Char} : l.contains c = true ↔ c ∈ l := by
  rw [show l.contains c = l.elem c from rfl, List.elem_iff]

theorem parseIPv6Core_ipv6CoreStr {n : Nat} (h : n < 2 ^ 128) :
    parseIPv6Core (ipv6CoreStr n) = some n := by
  have hvlen : (hextetVals n).length = 8 := rfl
  have hvlt := hextetVals_lt n
  have hmem : ∀ x ∈ compressHextets ((hextetVals n).map hexRepr),
      x = [] ∨ ∃ v, x = hexRepr v := by
    intro x hx
    rcases mem_compressHextets hx with h1 | h1
    · exact Or.inl h1
    · obtain ⟨v, -, hv⟩ := List.mem_map.mp h1
      exact Or.inr ⟨v, hv.symm⟩
  have hnocolon : ∀ x ∈ compressHextets ((hextetVals n).map hexRepr), ':' ∉ x := by
    intro x hx
    rcases hmem x hx with h1 | ⟨v, h1⟩ <;> subst h1
    · simp
    · intro hc
      exact (hexLower_char_props (hexRepr_all_lower v _ hc)).2.1 rfl
  have hlen3 : 3 ≤ (compressHextets ((hextetVals n).map hexRepr)).length :=
    compressHextets_length_of_eight (by simp [hvlen])
  have hne : compressHextets ((hextetVals n).map hexRepr) ≠ [] := by
    intro hnil
    rw [hnil] at hlen3
    simp at hlen3
  have hsplit : pySplit ':' (joinSep ':' (compressHextets ((hextetVals n).map hexRepr)))
      = compressHextets ((hextetVals n).map hexRepr) :=
    pySplit_joinSep hne hnocolon
  have hnodot : ¬((compressHextets ((hextetVals n).map hexRepr)).getLastD []).contains '.'
      = true := by
    have hlast := getLastD_mem hne
    rcases hmem _ hlast with h1 | ⟨v, h1⟩ <;> rw [h1]
    · simp [List.contains]
    · intro hc
      exact (hexLower_char_props (hexRepr_all_lower v _ (contains_iff_mem.mp hc))).2.2.1 rfl
  show parseIPv6Core (joinSep ':' (compressHextets ((hextetVals n).map hexRepr))) = some n
  unfold parseIPv6Core
  rw [if_neg (by simpa using joinSep_ne_nil_of_two (by omega)), hsplit]
  dsimp only []
  rw [if_neg (by omega), if_neg hnodot]
  exact (parseHextetParts_compress hvlen hvlt).trans (by rw [valueOf_hextetVals h])

/-! ### IPv6: bounds and inversion facts for parsed values -/

theorem foldHextets_bound {ps : List Str} {a v : Nat} (h : foldHextets ps a = some v) :
    v < (a + 1) * 65536 ^ ps.length := by
  induction ps generalizing a with
  | nil =>
    injection h with h
    subst h
    simpa using Nat.lt_succ_self a
  | cons p ps ih =>
    have hstep : foldHextets (p :: ps) a =
        (parseHextet p).map (fun h => a * 65536 + h) >>= fun a' => foldHextets ps a' := rfl
    rw [hstep] at h
    rcases hp : parseHextet p with _ | hv <;> rw [hp] at h
    · simp at h
    · simp only [Option.map, Option.bind] at h
      have hhv := parseHextet_lt hp
      have := ih h
      calc v < (a * 65536 + hv + 1) * 65536 ^ ps.length := this
        _ ≤ ((a + 1) * 65536) * 65536 ^ ps.length := by
            apply Nat.mul_le_mul_right
            omega
        _ = (a + 1) * 65536 ^ (p :: ps).length := by
            simp only [List.length_cons, pow_succ]
            ring

theorem interiorEmpties_pos {parts : List Str} {i : Nat} (h : interiorEmpties parts = [i]) :
    0 < i ∧ i + 1 < parts.length := by
  have hmem : i ∈ interiorEmpties parts := by
    rw [h]
    simp
  unfold interiorEmpties at hmem
  obtain ⟨-, hpred⟩ := List.mem_filter.mp hmem
  simp only [Bool.and_eq_true, decide_eq_true_eq] at hpred
  exact ⟨hpred.1.1, hpred.1.2⟩

theorem skipBranch_bound {parts : List Str} {hi lo v : Nat} (hs : hi + lo ≤ 7)
    (h : ((foldHextets (parts.take hi) 0).bind fun a =>
        foldHextets (parts.drop (parts.length - lo)) (a * 65536 ^ (8 - (hi + lo))))
      = some v) :
    v < 2 ^ 128 := by
  rcases ha : foldHextets (parts.take hi) 0 with _ | a <;> rw [ha] at h
  · simp at h
  · simp only [Option.bind] at h
    have hab := foldHextets_bound ha
    have hvb := foldHextets_bound h
    have htl : (parts.take hi).length ≤ hi := List.length_take_le hi parts
    have hdl : (parts.drop (parts.length - lo)).length ≤ lo := by
      rw [List.length_drop]
      omega
    have ha2 : a < 65536 ^ hi := by
      calc a < (0 + 1) * 65536 ^ (parts.take hi).length := hab
        _ ≤ 65536 ^ hi := by
            simpa using Nat.pow_le_pow_right (by omega) htl
    have hv2 : v < (a * 65536 ^ (8 - (hi + lo)) + 1) * 65536 ^ lo := by
      calc v < (a * 65536 ^ (8 - (hi + lo)) + 1) *
            65536 ^ (parts.drop (parts.length - lo)).length := hvb
        _ ≤ _ := Nat.mul_le_mul_left _ (Nat.pow_le_pow_right (by omega) hdl)
    have hstep : (a * 65536 ^ (8 - (hi + lo)) + 1) * 65536 ^ lo
        ≤ 65536 ^ hi * 65536 ^ (8 - (hi + lo)) * 65536 ^ lo := by
      apply Nat.mul_le_mul_right
      have h1 : a + 1 ≤ 65536 ^ hi := ha2
      have h2 : (1 : Nat) ≤ 65536 ^ (8 - (hi + lo)) := Nat.one_le_pow _ _ (by omega)
      calc a * 65536 ^ (8 - (hi + lo)) + 1
          ≤ a * 65536 ^ (8 - (hi + lo)) + 65536 ^ (8 - (hi + lo)) := by omega
        _ = (a + 1) * 65536 ^ (8 - (hi + lo)) := by ring
        _ ≤ 65536 ^ hi * 65536 ^ (8 - (hi + lo)) := Nat.mul_le_mul_right _ h1
    have hpow : 65536 ^ hi * 65536 ^ (8 - (hi + lo)) * 65536 ^ lo = 2 ^ 128 := by
      rw [← pow_add, ← pow_add]
      rw [show hi + (8 - (hi + lo)) + lo = 8 by omega]
      norm_num
    omega

theorem parseHextetParts_inv {P : List Str} {v : Nat} (h : parseHextetParts P = some v) :
    v < 2 ^ 128 ∧ ∀ p, P.head? = some p → p ≠ [] → ∃ hh, parseHextet p = some hh := by
  unfold parseHextetParts at h
  by_cases h9 : P.length > 9
  · rw [if_pos h9] at h
    exact absurd h (by simp)
  rw [if_neg h9] at h
  rcases hie : interiorEmpties P with _ | ⟨i, rest⟩
  · rw [hie] at h
    dsimp only [] at h
    split_ifs at h with h8 hh hl <;> try exact absurd h (by simp)
    have hbound := foldHextets_bound h
    constructor
    · calc v < (0 + 1) * 65536 ^ P.length := hbound
        _ = 65536 ^ P.length := by ring
        _ ≤ 2 ^ 128 := by
            rw [show P.length = 8 from by omega]
            norm_num
    · intro p hp hpne
      exact foldHextets_mem h p (List.mem_of_mem_head? hp)
  · rcases rest with _ | ⟨j, rest2⟩
    · -- exactly one interior empty part
      obtain ⟨hipos, hilt⟩ := interiorEmpties_pos hie
      rw [hie] at h
      dsimp only [] at h
      by_cases hhd : P.head? = some ([] : Str)
      · rw [if_pos hhd] at h
        by_cases hi1 : i - 1 = 0
        · rw [if_pos hi1] at h
          by_cases hlst : P.getLast? = some ([] : Str)
          · rw [if_pos hlst] at h
            by_cases hlo1 : P.length - i - 1 - 1 = 0
            · rw [if_pos hlo1] at h
              dsimp only [] at h
              split_ifs at h with hg
              refine ⟨skipBranch_bound (by omega) h, ?_⟩
              intro p hp hpne
              rw [hp] at hhd
              injection hhd with hhd
              exact absurd hhd hpne
            · rw [if_neg hlo1] at h
              dsimp only [] at h
              simp at h
          · rw [if_neg hlst] at h
            dsimp only [] at h
            split_ifs at h with hg
            refine ⟨skipBranch_bound (by omega) h, ?_⟩
            intro p hp hpne
            rw [hp] at hhd
            injection hhd with hhd
            exact absurd hhd hpne
        · rw [if_neg hi1] at h
          dsimp only [] at h
          simp at h
      · rw [if_neg hhd] at h
        by_cases hlst : P.getLast? = some ([] : Str)
        · rw [if_pos hlst] at h
          by_cases hlo1 : P.length - i - 1 - 1 = 0
          · rw [if_pos hlo1] at h
            dsimp only [] at h
            split_ifs at h with hg
            refine ⟨skipBranch_bound (by omega) h, ?_⟩
            intro p hp hpne
            rcases hap : foldHextets (P.take i) 0 with _ | a <;> rw [hap] at h
            · simp at h
            · apply foldHextets_mem hap
              rcases P with _ | ⟨q, Q⟩
              · simp at hp
              · injection hp with hp
                rw [show (q :: Q).take i = q :: Q.take (i - 1) from by
                  rcases i with _ | i
                  · omega
                  · rfl, hp]
                simp
          · rw [if_neg hlo1] at h
            dsimp only [] at h
            simp at h
        · rw [if_neg hlst] at h
          dsimp only [] at h
          split_ifs at h with hg
          refine ⟨skipBranch_bound (by omega) h, ?_⟩
          intro p hp hpne
          rcases hap : foldHextets (P.take i) 0 with _ | a <;> rw [hap] at h
          · simp at h
          · apply foldHextets_mem hap
            rcases P with _ | ⟨q, Q⟩
            · simp at hp
            · injection hp with hp
              rw [show (q :: Q).take i = q :: Q.take (i - 1) from by
                rcases i with _ | i
                · omega
                · rfl, hp]
              simp
    · rw [hie] at h
      dsimp only [] at h
      simp at h

theorem parseIPv6Core_inv {s : Str} {v : Nat} (h : parseIPv6Core s = some v) :
    v < 2 ^ 128 ∧ s ≠ [] ∧ ∃ c, s.head? = some c ∧ (c = ':' ∨ c ∈ hexDigits) := by
  unfold parseIPv6Core at h
  by_cases hne : s.isEmpty
  · rw [if_pos hne] at h
    exact absurd h (by simp)
  rw [if_neg hne] at h
  by_cases hlt3 : (pySplit ':' s).length < 3
  · rw [if_pos hlt3] at h
    exact absurd h (by simp)
  rw [if_neg hlt3] at h
  obtain ⟨p0, rest, hps⟩ := List.exists_cons_of_ne_nil (pySplit_ne_nil ':' s)
  have hjoin : joinSep ':' (pySplit ':' s) = s := joinSep_pySplit ':' s
  have hrestne : rest ≠ [] := by
    intro hr
    rw [hps, hr] at hlt3
    simp at hlt3
  have hheadchar : (∀ p, p = p0 → p ≠ [] → ∃ hh, parseHextet p = some hh) →
      ∃ c, s.head? = some c ∧ (c = ':' ∨ c ∈ hexDigits) := by
    intro hhex
    by_cases hp0 : p0 = []
    · refine ⟨':', ?_, Or.inl rfl⟩
      rw [← hjoin, hps, hp0, joinSep_cons _ _ hrestne]
      rfl
    · obtain ⟨c, cs, hc⟩ := List.exists_cons_of_ne_nil hp0
      obtain ⟨hh, hph⟩ := hhex p0 rfl hp0
      obtain ⟨-, hchars⟩ := parseHextet_inv hph
      refine ⟨c, ?_, Or.inr (hchars c (by rw [hc]; simp))⟩
      rw [← hjoin, hps, head?_joinSep_cons _ _ hp0, hc]
      rfl
  by_cases hdot : ((pySplit ':' s).getLastD []).contains '.'
  · rw [if_pos hdot] at h
    rcases h4 : parseIPv4Address ((pySplit ':' s).getLastD []) with _ | w <;> rw [h4] at h
    · exact absurd h (by simp)
    · obtain ⟨hvlt, hhead⟩ := parseHextetParts_inv h
      refine ⟨hvlt, by simpa using hne, ?_⟩
      apply hheadchar
      intro p hp hpne
      apply hhead p _ hpne
      rw [hps, List.dropLast_cons_of_ne_nil hrestne, hp]
      rfl
  · rw [if_neg hdot] at h
    obtain ⟨hvlt, hhead⟩ := parseHextetParts_inv h
    refine ⟨hvlt, by simpa using hne, ?_⟩
    apply hheadchar
    intro p hp hpne
    apply hhead p _ hpne
    rw [hps, hp]
    rfl

theorem pyPartition_inv {sep : Char} {s a b : Str} (h : pyPartition sep s = some (a, b)) :
    s = a ++ sep :: b ∧ sep ∉ a := by
  induction s generalizing a b with
  | nil => simp [pyPartition] at h
  | cons c cs ih =>
    simp only [pyPartition] at h
    by_cases hc : c = sep
    · rw [if_pos hc] at h
      injection h with h
      injection h with h1 h2
      subst h1
      subst h2
      subst hc
      exact ⟨rfl, by simp⟩
    · rw [if_neg hc] at h
      rcases hpp : pyPartition sep cs with _ | ⟨p1, p2⟩ <;> rw [hpp] at h
      · simp at h
      · simp only [Option.map] at h
        injection h with h
        injection h with h1 h2
        obtain ⟨hs, hna⟩ := ih hpp
        subst h2
        rw [← h1, hs]
        refine ⟨rfl, ?_⟩
        intro hmem
        rcases List.mem_cons.mp hmem with hm | hm
        · exact hc hm.symm
        · exact hna hm

theorem parseIPv6Address_inv {s : Str} {pa : IPv6Parsed} (h : parseIPv6Address s = some pa) :
    pa.val < 2 ^ 128 ∧ '/' ∉ s ∧ s ≠ [] ∧
      (∃ c, s.head? = some c ∧ (c = ':' ∨ c ∈ hexDigits)) ∧
      ∀ sc, pa.scope = some sc → sc ≠ [] ∧ '%' ∉ sc ∧ '/' ∉ sc := by
  unfold parseIPv6Address at h
  by_cases hslash : s.contains '/'
  · rw [if_pos hslash] at h
    exact absurd h (by simp)
  rw [if_neg hslash] at h
  have hnoslash : '/' ∉ s := fun hm => hslash (contains_iff_mem.mpr hm)
  rcases hpt : pyPartition '%' s with _ | ⟨addr, sc⟩ <;> rw [hpt] at h <;>
    dsimp only [] at h
  · rcases hc : parseIPv6Core s with _ | v <;> rw [hc] at h
    · simp at h
    · simp only [Option.map] at h
      injection h with h
      subst h
      obtain ⟨hvlt, hne, hhead⟩ := parseIPv6Core_inv hc
      exact ⟨hvlt, hnoslash, hne, hhead, by simp⟩
  · by_cases hscbad : sc.isEmpty || sc.contains '%'
    · rw [if_pos hscbad] at h
      simp at h
    rw [if_neg hscbad] at h
    rcases hc : parseIPv6Core addr with _ | v <;> rw [hc] at h
    · simp at h
    · simp only [Option.map] at h
      injection h with h
      subst h
      obtain ⟨hvlt, hne, c, hcc, hcl⟩ := parseIPv6Core_inv hc
      obtain ⟨hsplit, -⟩ := pyPartition_inv hpt
      simp only [Bool.or_eq_true, not_or] at hscbad
      refine ⟨hvlt, hnoslash, ?_, ⟨c, ?_, hcl⟩, ?_⟩
      · rw [hsplit]
        simp
      · rw [hsplit, List.head?_append_of_ne_nil _ hne, hcc]
      · intro sc' hsc'
        injection hsc' with hsc'
        subst hsc'
        refine ⟨by simpa using hscbad.1, ?_, ?_⟩
        · intro hm
          exact (by simpa using hscbad.2 : ¬sc.contains '%' = true) (contains_iff_mem.mpr hm)
        · intro hm
          exact hnoslash (by rw [hsplit]; exact List.mem_append_right _ (by simp [hm]))

theorem parseIPv4_inv2 {s : Str} {n : Nat} (h : parseIPv4 s = some n) :
    (∀ c ∈ s, c = '.' ∨ c ∈ asciiDigits) ∧ ∃ c, s.head? = some c ∧ c ∈ asciiDigits := by
  unfold parseIPv4 at h
  split_ifs at h with h1
  cases hps : pySplit '.' s with
  | nil => rw [hps] at h; simp at h
  | cons o1 t1 =>
    cases t1 with
    | nil => rw [hps] at h; simp at h
    | cons o2 t2 =>
      cases t2 with
      | nil => rw [hps] at h; simp at h
      | cons o3 t3 =>
        cases t3 with
        | nil => rw [hps] at h; simp at h
        | cons o4 t4 =>
          cases t4 with
          | cons o5 t5 => rw [hps] at h; simp at h
          | nil =>
            rw [hps] at h
            dsimp only [] at h
            rcases ho1 : parseOctet o1 with _ | v1 <;> rw [ho1] at h <;> simp at h
            rcases ho2 : parseOctet o2 with _ | v2 <;> rw [ho2] at h <;> simp at h
            rcases ho3 : parseOctet o3 with _ | v3 <;> rw [ho3] at h <;> simp at h
            rcases ho4 : parseOctet o4 with _ | v4 <;> rw [ho4] at h <;> simp at h
            obtain ⟨hne1, hd1, -⟩ := parseOctet_inv ho1
            obtain ⟨-, hd2, -⟩ := parseOctet_inv ho2
            obtain ⟨-, hd3, -⟩ := parseOctet_inv ho3
            obtain ⟨-, hd4, -⟩ := parseOctet_inv ho4
            have hjoin : joinSep '.' [o1, o2, o3, o4] = s := by
              rw [← hps]
              exact joinSep_pySplit '.' s
            constructor
            · intro c hc
              rw [← hjoin] at hc
              rcases mem_joinSep hc with hc | ⟨p, hp, hcp⟩
              · exact Or.inl hc
              · simp at hp
                rcases hp with hp | hp | hp | hp <;> subst hp
                · exact Or.inr (hd1 c hcp)
                · exact Or.inr (hd2 c hcp)
                · exact Or.inr (hd3 c hcp)
                · exact Or.inr (hd4 c hcp)
            · obtain ⟨c, cs, hc⟩ := List.exists_cons_of_ne_nil hne1
              refine ⟨c, ?_, hd1 c (by rw [hc]; simp)⟩
              rw [← hjoin, head?_joinSep_cons _ _ hne1, hc]
              rfl

theorem ip_address_inv {s : Str} {a : IPAddr} (h : ip_address s = some a) :
    '/' ∉ s ∧ s ≠ [] ∧ (∃ c, s.head? = some c ∧ (c = ':' ∨ c ∈ hexDigits)) ∧
      (∀ n, a = .v4 n → n < 2 ^ 32) ∧
      ∀ n sc, a = .v6 n sc →
        n < 2 ^ 128 ∧ ∀ t, sc = some t → t ≠ [] ∧ '%' ∉ t ∧ '/' ∉ t := by
  unfold ip_address at h
  rcases h4 : parseIPv4Address s with _ | n <;> rw [h4] at h
  · rcases h6 : parseIPv6Address s with _ | pa <;> rw [h6] at h
    · simp at h
    · simp only [Option.map] at h
      injection h with h
      subst h
      obtain ⟨hvlt, hns, hne, hhead, hsc⟩ := parseIPv6Address_inv h6
      exact ⟨hns, hne, hhead, by simp, fun n sc hn => by
        injection hn with hn1 hn2
        subst hn1
        subst hn2
        exact ⟨hvlt, hsc⟩⟩
  · injection h with h
    subst h
    unfold parseIPv4Address at h4
    split_ifs at h4 with hslash
    obtain ⟨hchars, c, hcc, hcd⟩ := parseIPv4_inv2 h4
    refine ⟨fun hm => hslash (contains_iff_mem.mpr hm), ?_, ?_, ?_, by simp⟩
    · intro hnil
      rw [hnil] at hcc
      simp at hcc
    · exact ⟨c, hcc, Or.inr (List.mem_append_left _ (List.mem_append_left _ hcd))⟩
    · intro m hm
      injection hm with hm
      subst hm
      exact parseIPv4_lt h4

/-! ### Character classes of printed addresses and networks -/

theorem mem_joinSep_of_mem {sep c : Char} :
    ∀ {ps : List Str} {p : Str}, p ∈ ps → c ∈ p → c ∈ joinSep sep ps
  | [], p, hp, _ => by simp at hp
  | [q], p, hp, hc => by
    simp at hp
    subst hp
    exact hc
  | q :: r :: ps, p, hp, hc => by
    rw [joinSep_cons _ _ (by simp)]
    rcases List.mem_cons.mp hp with hp | hp
    · subst hp
      exact List.mem_append_left _ hc
    · exact List.mem_append_right _ (List.mem_cons_of_mem _ (mem_joinSep_of_mem hp hc))

theorem sep_mem_joinSep {sep : Char} {ps : List Str} (h : 2 ≤ ps.length) :
    sep ∈ joinSep sep ps := by
  match ps, h with
  | p :: q :: ps, _ =>
    rw [joinSep_cons _ _ (by simp)]
    exact List.mem_append_right _ (by simp)

theorem mem_pySplit_subset {sep c : Char} {s p : Str} (hp : p ∈ pySplit sep s)
    (hc : c ∈ p) : c ∈ s := by
  rw [← joinSep_pySplit sep s]
  exact mem_joinSep_of_mem hp hc

theorem ipv4Str_chars {n : Nat} : ∀ c ∈ ipv4Str n, c = '.' ∨ c ∈ asciiDigits := by
  intro c hc
  unfold ipv4Str at hc
  rcases mem_joinSep hc with hc | ⟨p, hp, hcp⟩
  · exact Or.inl hc
  · simp only [List.mem_cons, List.not_mem_nil, or_false] at hp
    rcases hp with hp | hp | hp | hp <;> subst hp <;>
      exact Or.inr (natRepr_all_digits _ c hcp)

theorem ipv6CoreStr_chars {n : Nat} : ∀ c ∈ ipv6CoreStr n, c = ':' ∨ c ∈ hexDigitsLower := by
  intro c hc
  unfold ipv6CoreStr at hc
  rcases mem_joinSep hc with hc | ⟨p, hp, hcp⟩
  · exact Or.inl hc
  · rcases mem_compressHextets hp with hp | hp
    · subst hp
      simp at hcp
    · obtain ⟨v, hv, hvp⟩ := List.mem_map.mp hp
      rw [← hvp] at hcp
      exact Or.inr (hexRepr_all_lower _ c hcp)

theorem colon_mem_ipv6CoreStr (n : Nat) : ':' ∈ ipv6CoreStr n := by
  unfold ipv6CoreStr
  refine sep_mem_joinSep ?_
  have h8 : ((hextetVals n).map hexRepr).length = 8 := by
    rw [List.length_map, hextetVals_length]
  have := compressHextets_length_of_eight h8
  omega

theorem ipv4Str_ne_nil (n : Nat) : ipv4Str n ≠ [] := by
  unfold ipv4Str
  intro h
  have : '.' ∈ ([] : Str) := by
    rw [← h]
    exact sep_mem_joinSep (by simp)
  simp at this

theorem ipv6CoreStr_ne_nil (n : Nat) : ipv6CoreStr n ≠ [] := fun h => by
  have := colon_mem_ipv6CoreStr n
  rw [h] at this
  simp at this

/-- The characters that can occur in a printed, scopeless network string. -/
def netChar (c : Char) : Prop :=
  c = '.' ∨ c = ':' ∨ c = '/' ∨ c ∈ asciiDigits ∨ c ∈ hexDigitsLower

theorem netStr_chars {net : IPNet} (hsc : net.scope = none) :
    ∀ c ∈ netStr net, netChar c := by
  intro c hc
  unfold netStr at hc
  rcases List.mem_append.mp hc with hc | hc
  · cases hv : net.isV6 <;> rw [hv] at hc
    · simp only [if_neg Bool.false_ne_true] at hc
      rcases ipv4Str_chars c hc with hc | hc
      · exact Or.inl hc
      · exact Or.inr (Or.inr (Or.inr (Or.inl hc)))
    · simp only [if_pos rfl] at hc
      rw [hsc] at hc
      rcases ipv6CoreStr_chars c hc with hc | hc
      · exact Or.inr (Or.inl hc)
      · exact Or.inr (Or.inr (Or.inr (Or.inr hc)))
  · rcases List.mem_cons.mp hc with hc | hc
    · exact Or.inr (Or.inr (Or.inl hc))
    · exact Or.inr (Or.inr (Or.inr (Or.inl (natRepr_all_digits _ c hc))))

theorem addrCidr_chars_of_none :
    ∀ {a : IPAddr}, (∀ n sc, a = IPAddr.v6 n sc → sc = none) →
      ∀ c ∈ addrCidr a, netChar c
  | .v4 n, _, c, hc => by
    unfold addrCidr at hc
    rcases List.mem_append.mp hc with hc | hc
    · rcases ipv4Str_chars c hc with hc | hc
      · exact Or.inl hc
      · exact Or.inr (Or.inr (Or.inr (Or.inl hc)))
    · simp only [List.mem_cons, List.not_mem_nil, or_false] at hc
      rcases hc with hc | hc | hc <;> subst hc <;> simp [netChar, asciiDigits]
  | .v6 n sc, hsc, c, hc => by
    have : sc = none := hsc n sc rfl
    subst this
    unfold addrCidr at hc
    rcases List.mem_append.mp hc with hc | hc
    · rcases ipv6CoreStr_chars c (by simpa [ipv6AddrStr] using hc) with hc | hc
      · exact Or.inr (Or.inl hc)
      · exact Or.inr (Or.inr (Or.inr (Or.inr hc)))
    · simp only [List.mem_cons, List.not_mem_nil, or_false] at hc
      rcases hc with hc | hc | hc | hc <;> subst hc <;> simp [netChar, asciiDigits]

theorem netChar_props {c : Char} (h : netChar c) :
    pyIsSpace c = false ∧ c ≠ ',' ∧ c ≠ '#' ∧ c ≠ '%' ∧ c.toUpper ≠ 'I' := by
  rcases h with h | h | h | h | h
  · subst h; exact ⟨rfl, by decide, by decide, by decide, by decide⟩
  · subst h; exact ⟨rfl, by decide, by decide, by decide, by decide⟩
  · subst h; exact ⟨rfl, by decide, by decide, by decide, by decide⟩
  · obtain ⟨h1, -, -, h4, -, h6, h7, h8⟩ := digit_char_props h
    exact ⟨h1, h6, h7, h4, h8⟩
  · obtain ⟨h1, -, -, h4, -, h6, h7, h8⟩ := hexLower_char_props h
    exact ⟨h1, h6, h7, h4, h8⟩

/-! ### Well-formedness of parsed networks -/

/-- The invariant every network produced by `ip_network` satisfies: the
address is already masked, bounds hold, IPv4 networks are scopeless, and a
surviving IPv6 scope id is a nonempty string free of `%` and `/`. -/
def NetWF (net : IPNet) : Prop :=
  net.addr &&& netmaskInt (cond net.isV6 128 32) net.prefixlen = net.addr ∧
  net.prefixlen ≤ cond net.isV6 128 32 ∧
  net.addr < 2 ^ cond net.isV6 128 32 ∧
  (net.isV6 = false → net.scope = none) ∧
  ∀ t, net.scope = some t → t ≠ [] ∧ '%' ∉ t ∧ '/' ∉ t

theorem prefixFromString_le {maxLen : Nat} {m : Str} {p : Nat}
    (h : prefixFromString maxLen m = some p) : p ≤ maxLen := by
  unfold prefixFromString at h
  split_ifs at h with h1 h2 h3
  injection h with h
  omega

theorem prefixFromIpInt_le {maxLen ipInt p : Nat} (h : prefixFromIpInt maxLen ipInt = some p) :
    p ≤ maxLen := by
  simp only [prefixFromIpInt] at h
  split_ifs at h
  injection h with h
  omega

theorem v4MakeNetmask_le {m : Str} {p : Nat} (h : v4MakeNetmask m = some p) : p ≤ 32 := by
  unfold v4MakeNetmask at h
  rcases h1 : prefixFromString 32 m with _ | q <;> rw [h1] at h <;> dsimp only [] at h
  · rcases h2 : parseIPv4 m with _ | ipInt <;> rw [h2] at h <;> dsimp only [] at h
    · simp at h
    · rcases h3 : prefixFromIpInt 32 ipInt with _ | q <;> rw [h3] at h <;>
        dsimp only [] at h
      · exact prefixFromIpInt_le h
      · injection h with h
        subst h
        exact prefixFromIpInt_le h3
  · injection h with h
    subst h
    exact prefixFromString_le h1

theorem v6MakeNetmask_le {m : Str} {p : Nat} (h : v6MakeNetmask m = some p) : p ≤ 128 :=
  prefixFromString_le h

theorem parseIPv4Address_lt {a : Str} {n : Nat} (h : parseIPv4Address a = some n) :
    n < 2 ^ 32 := by
  unfold parseIPv4Address at h
  split_ifs at h
  exact parseIPv4_lt h

theorem ipv4NetworkWith_inv {strict : Bool} {a : Str} {p : Nat} {net : IPNet}
    (h : ipv4NetworkWith strict a p = some net) :
    ∃ n, parseIPv4Address a = some n ∧ net.isV6 = false ∧ net.scope = none ∧
      net.prefixlen = p ∧ net.addr &&& netmaskInt 32 p = net.addr ∧ net.addr < 2 ^ 32 ∧
      net.addr = n &&& netmaskInt 32 p := by
  unfold ipv4NetworkWith at h
  rcases h4 : parseIPv4Address a with _ | n <;> rw [h4] at h
  · simp at h
  · dsimp only [] at h
    have hlt : n < 2 ^ 32 := parseIPv4Address_lt h4
    refine ⟨n, rfl, ?_⟩
    by_cases hm : n &&& netmaskInt 32 p ≠ n
    · rw [if_pos hm] at h
      cases strict with
      | true =>
        rw [if_pos rfl] at h
        simp at h
      | false =>
        rw [if_neg (by simp)] at h
        injection h with h
        subst h
        refine ⟨rfl, rfl, rfl, ?_, ?_, rfl⟩
        · show (n &&& netmaskInt 32 p) &&& netmaskInt 32 p = n &&& netmaskInt 32 p
          rw [Nat.and_assoc, Nat.and_self]
        · exact lt_of_le_of_lt Nat.and_le_left hlt
    · rw [if_neg hm] at h
      injection h with h
      subst h
      push_neg at hm
      exact ⟨rfl, rfl, rfl, hm, hlt, hm.symm⟩

theorem ipv6NetworkWith_inv {strict : Bool} {a : Str} {p : Nat} {net : IPNet}
    (h : ipv6NetworkWith strict a p = some net) :
    ∃ pa, parseIPv6Address a = some pa ∧ net.isV6 = true ∧ net.prefixlen = p ∧
      net.addr &&& netmaskInt 128 p = net.addr ∧ net.addr < 2 ^ 128 ∧
      (net.scope = pa.scope ∨ net.scope = none) ∧
      net.addr = pa.val &&& netmaskInt 128 p := by
  unfold ipv6NetworkWith at h
  rcases h6 : parseIPv6Address a with _ | pa <;> rw [h6] at h
  · simp at h
  · dsimp only [] at h
    have hlt : pa.val < 2 ^ 128 := (parseIPv6Address_inv h6).1
    refine ⟨pa, rfl, ?_⟩
    by_cases hm : pa.val &&& netmaskInt 128 p ≠ pa.val
    · rw [if_pos hm] at h
      cases strict with
      | true =>
        rw [if_pos rfl] at h
        simp at h
      | false =>
        rw [if_neg (by simp)] at h
        injection h with h
        subst h
        refine ⟨rfl, rfl, ?_, ?_, Or.inr rfl, rfl⟩
        · show (pa.val &&& netmaskInt 128 p) &&& netmaskInt 128 p = _
          rw [Nat.and_assoc, Nat.and_self]
        · exact lt_of_le_of_lt Nat.and_le_left hlt
    · rw [if_neg hm] at h
      injection h with h
      subst h
      push_neg at hm
      exact ⟨rfl, rfl, hm, hlt, Or.inl rfl, hm.symm⟩

theorem ipv4_network_inv {strict : Bool} {s : Str} {net : IPNet}
    (h : ipv4_network strict s = some net) :
    ∃ a rest n, pySplit '/' s = a :: rest ∧ parseIPv4Address a = some n ∧
      net.isV6 = false ∧ net.scope = none ∧ net.prefixlen ≤ 32 ∧
      net.addr &&& netmaskInt 32 net.prefixlen = net.addr ∧ net.addr < 2 ^ 32 := by
  unfold ipv4_network at h
  rcases hps : pySplit '/' s with _ | ⟨a, rest⟩ <;> rw [hps] at h
  · simp at h
  · cases rest with
    | nil =>
      dsimp only [] at h
      obtain ⟨n, hn, h1, h2, h3, h4, h5, -⟩ := ipv4NetworkWith_inv h
      exact ⟨a, [], n, rfl, hn, h1, h2, by omega, by rw [h3]; exact h4, h5⟩
    | cons m rest2 =>
      cases rest2 with
      | nil =>
        dsimp only [] at h
        rcases hmk : v4MakeNetmask m with _ | p <;> rw [hmk] at h
        · simp at h
        · simp only [Option.bind] at h
          obtain ⟨n, hn, h1, h2, h3, h4, h5, -⟩ := ipv4NetworkWith_inv h
          exact ⟨a, [m], n, rfl, hn, h1, h2, by
            rw [h3]; exact v4MakeNetmask_le hmk, by rw [h3]; exact h4, h5⟩
      | cons _ _ => simp at h

theorem ipv6_network_inv {strict : Bool} {s : Str} {net : IPNet}
    (h : ipv6_network strict s = some net) :
    ∃ a rest pa, pySplit '/' s = a :: rest ∧ parseIPv6Address a = some pa ∧
      net.isV6 = true ∧ (net.scope = pa.scope ∨ net.scope = none) ∧ net.prefixlen ≤ 128 ∧
      net.addr &&& netmaskInt 128 net.prefixlen = net.addr ∧ net.addr < 2 ^ 128 := by
  unfold ipv6_network at h
  rcases hps : pySplit '/' s with _ | ⟨a, rest⟩ <;> rw [hps] at h
  · simp at h
  · cases rest with
    | nil =>
      dsimp only [] at h
      obtain ⟨pa, hn, h1, h2, h3, h4, h5, -⟩ := ipv6NetworkWith_inv h
      exact ⟨a, [], pa, rfl, hn, h1, h5, by omega, by rw [h2]; exact h3, h4⟩
    | cons m rest2 =>
      cases rest2 with
      | nil =>
        dsimp only [] at h
        rcases hmk : v6MakeNetmask m with _ | p <;> rw [hmk] at h
        · simp at h
        · simp only [Option.bind] at h
          obtain ⟨pa, hn, h1, h2, h3, h4, h5, -⟩ := ipv6NetworkWith_inv h
          exact ⟨a, [m], pa, rfl, hn, h1, h5, by
            rw [h2]; exact v6MakeNetmask_le hmk, by rw [h2]; exact h3, h4⟩
      | cons _ _ => simp at h

theorem parseIPv6Address_scope_none {a : Str} {pa : IPv6Parsed}
    (h : parseIPv6Address a = some pa) (hp : '%' ∉ a) : pa.scope = none := by
  unfold parseIPv6Address at h
  split_ifs at h
  rw [pyPartition_eq_none hp] at h
  dsimp only [] at h
  rcases hc : parseIPv6Core a with _ | v <;> rw [hc] at h
  · simp at h
  · simp only [Option.map] at h
    injection h with h
    rw [← h]

theorem ip_network_wf {strict : Bool} {s : Str} {net : IPNet}
    (h : ip_network strict s = some net) : NetWF net := by
  unfold ip_network at h
  rcases h4 : ipv4_network strict s with _ | net4 <;> rw [h4] at h
  · obtain ⟨a, rest, pa, -, hpa, h1, h2, h3, hm, hlt⟩ := ipv6_network_inv h
    refine ⟨by rw [h1]; exact hm, by rw [h1]; exact h3, by rw [h1]; exact hlt,
      by rw [h1]; simp, ?_⟩
    intro t ht
    rcases h2 with h2 | h2
    · exact (parseIPv6Address_inv hpa).2.2.2.2 t (by rw [← h2]; exact ht)
    · rw [h2] at ht
      simp at ht
  · injection h with h
    subst h
    obtain ⟨a, rest, n, -, hn, h1, h2, h3, hm, hlt⟩ := ipv4_network_inv h4
    exact ⟨by rw [h1]; exact hm, by rw [h1]; exact h3, by rw [h1]; exact hlt,
      fun _ => h2, fun t ht => by rw [h2] at ht; simp at ht⟩

theorem ip_network_head {strict : Bool} {s : Str} {net : IPNet}
    (h : ip_network strict s = some net) :
    ∃ c, s.head? = some c ∧ (c = ':' ∨ c ∈ hexDigits) := by
  have hjoin : joinSep '/' (pySplit '/' s) = s := joinSep_pySplit '/' s
  unfold ip_network at h
  rcases h4 : ipv4_network strict s with _ | net4 <;> rw [h4] at h
  · obtain ⟨a, rest, pa, hps, hpa, -⟩ := ipv6_network_inv h
    obtain ⟨-, -, hne, ⟨c, hc, hcl⟩, -⟩ := parseIPv6Address_inv hpa
    refine ⟨c, ?_, hcl⟩
    rw [← hjoin, hps, head?_joinSep_cons _ _ hne]
    exact hc
  · injection h with h
    subst h
    obtain ⟨a, rest, n, hps, hn, -⟩ := ipv4_network_inv h4
    unfold parseIPv4Address at hn
    split_ifs at hn
    obtain ⟨-, c, hc, hcd⟩ := parseIPv4_inv2 hn
    refine ⟨c, ?_, Or.inr (List.mem_append_left _ (List.mem_append_left _ hcd))⟩
    have hne : a ≠ [] := by
      intro hnil
      rw [hnil] at hc
      simp at hc
    rw [← hjoin, hps, head?_joinSep_cons _ _ hne]
    exact hc

theorem ip_network_scope_none {strict : Bool} {s : Str} {net : IPNet}
    (h : ip_network strict s = some net) (hp : '%' ∉ s) : net.scope = none := by
  unfold ip_network at h
  rcases h4 : ipv4_network strict s with _ | net4 <;> rw [h4] at h
  · obtain ⟨a, rest, pa, hps, hpa, -, h2, -⟩ := ipv6_network_inv h
    rcases h2 with h2 | h2
    · rw [h2]
      exact parseIPv6Address_scope_none hpa fun hm =>
        hp (mem_pySplit_subset (by rw [hps]; simp) hm)
    · exact h2
  · injection h with h
    subst h
    obtain ⟨-, -, -, -, -, -, h2, -⟩ := ipv4_network_inv h4
    exact h2

theorem ip_address_scope_none {s : Str} {n : Nat} {sc : Option Str}
    (h : ip_address s = some (IPAddr.v6 n sc)) (hp : '%' ∉ s) : sc = none := by
  unfold ip_address at h
  rcases h4 : parseIPv4Address s with _ | m <;> rw [h4] at h
  · rcases h6 : parseIPv6Address s with _ | pa <;> rw [h6] at h
    · simp at h
    · simp only [Option.map] at h
      injection h with h
      injection h with h1 h2
      rw [← h2]
      exact parseIPv6Address_scope_none h6 hp
  · injection h with h
    simp at h

/-! ### Parsing back printed networks -/

theorem ipv4Str_no_slash (n : Nat) : '/' ∉ ipv4Str n := fun hm => by
  rcases ipv4Str_chars _ hm with h | h
  · exact absurd h (by decide)
  · exact (digit_char_props h).2.2.2.2.1 rfl

theorem ipv6CoreStr_no_slash (n : Nat) : '/' ∉ ipv6CoreStr n := fun hm => by
  rcases ipv6CoreStr_chars _ hm with h | h
  · exact absurd h (by decide)
  · exact (hexLower_char_props h).2.2.2.2.1 rfl

theorem ipv6CoreStr_no_pct (n : Nat) : '%' ∉ ipv6CoreStr n := fun hm => by
  rcases ipv6CoreStr_chars _ hm with h | h
  · exact absurd h (by decide)
  · exact (hexLower_char_props h).2.2.2.1 rfl

theorem natRepr_no_slash (m : Nat) : '/' ∉ natRepr m := fun hm =>
  (digit_char_props (natRepr_all_digits m _ hm)).2.2.2.2.1 rfl

theorem prefixFromString_natRepr {maxLen p : Nat} (hp : p ≤ maxLen) :
    prefixFromString maxLen (natRepr p) = some p := by
  unfold prefixFromString
  rw [if_neg, if_neg, if_pos, decValue_natRepr]
  · rw [decValue_natRepr]
    exact hp
  · intro hall
    refine hall ?_
    rw [List.all_eq_true]
    intro c hc
    exact isAsciiDigit_iff.mpr (natRepr_all_digits p c hc)
  · intro hemp
    rw [List.isEmpty_iff] at hemp
    exact natRepr_ne_nil p hemp

theorem prefixFromString_natRepr_gt {maxLen p : Nat} (hp : maxLen < p) :
    prefixFromString maxLen (natRepr p) = none := by
  unfold prefixFromString
  rw [if_neg, if_neg, if_neg]
  · rw [decValue_natRepr]
    omega
  · intro hall
    refine hall ?_
    rw [List.all_eq_true]
    intro c hc
    exact isAsciiDigit_iff.mpr (natRepr_all_digits p c hc)
  · intro hemp
    rw [List.isEmpty_iff] at hemp
    exact natRepr_ne_nil p hemp

theorem v4MakeNetmask_natRepr {p : Nat} (hp : p ≤ 32) :
    v4MakeNetmask (natRepr p) = some p := by
  unfold v4MakeNetmask
  rw [prefixFromString_natRepr hp]

theorem parseIPv4_natRepr (p : Nat) : parseIPv4 (natRepr p) = none := by
  unfold parseIPv4
  rw [if_neg, pySplit_eq_single (natRepr_no_dot p)]
  intro hemp
  rw [List.isEmpty_iff] at hemp
  exact natRepr_ne_nil p hemp

theorem v4MakeNetmask_natRepr_gt {p : Nat} (hp : 32 < p) :
    v4MakeNetmask (natRepr p) = none := by
  unfold v4MakeNetmask
  rw [prefixFromString_natRepr_gt hp]
  dsimp only []
  rw [parseIPv4_natRepr p]

theorem v6MakeNetmask_natRepr {p : Nat} (hp : p ≤ 128) :
    v6MakeNetmask (natRepr p) = some p :=
  prefixFromString_natRepr hp

theorem parseIPv4Address_ipv4Str {n : Nat} (h : n < 2 ^ 32) :
    parseIPv4Address (ipv4Str n) = some n := by
  unfold parseIPv4Address
  rw [if_neg fun hc => ipv4Str_no_slash n (contains_iff_mem.mp hc)]
  exact parseIPv4_ipv4Str h

theorem parseIPv4_none_of_colon {s : Str} (h : ':' ∈ s) : parseIPv4 s = none := by
  rcases hp : parseIPv4 s with _ | n
  · rfl
  · obtain ⟨hchars, -⟩ := parseIPv4_inv2 hp
    rcases hchars ':' h with hc | hc
    · exact absurd hc (by decide)
    · exact absurd rfl (digit_char_props hc).2.1

theorem parseIPv6Address_ipv6CoreStr {n : Nat} (h : n < 2 ^ 128) :
    parseIPv6Address (ipv6CoreStr n) = some ⟨n, none⟩ := by
  unfold parseIPv6Address
  rw [if_neg fun hc => ipv6CoreStr_no_slash n (contains_iff_mem.mp hc),
    pyPartition_eq_none (ipv6CoreStr_no_pct n)]
  dsimp only []
  rw [parseIPv6Core_ipv6CoreStr h]
  rfl

theorem netmask_full_v4 {n : Nat} (h : n < 2 ^ 32) : n &&& netmaskInt 32 32 = n := by
  have hm : netmaskInt 32 32 = 2 ^ 32 - 1 := by decide
  rw [hm, Nat.and_pow_two_sub_one_eq_mod, Nat.mod_eq_of_lt h]

theorem netmask_full_v6 {n : Nat} (h : n < 2 ^ 128) : n &&& netmaskInt 128 128 = n := by
  have hm : netmaskInt 128 128 = 2 ^ 128 - 1 := by
    show (2 ^ 128 - 1) ^^^ ((2 ^ 128 - 1) >>> 128) = 2 ^ 128 - 1
    rw [show (2 ^ 128 - 1) >>> 128 = 0 by decide, Nat.xor_zero]
  rw [hm, Nat.and_pow_two_sub_one_eq_mod, Nat.mod_eq_of_lt h]

theorem ipv4_network_netStr {net : IPNet} (h6 : net.isV6 = false) (hwf : NetWF net) :
    ipv4_network false (netStr net) = some net := by
  obtain ⟨v6, addr, scope, plen⟩ := net
  obtain ⟨hm, hp, hlt, hsc, -⟩ := hwf
  simp only at h6 hm hp hlt hsc
  subst h6
  have hscn : scope = none := hsc rfl
  subst hscn
  simp only [cond] at hm hp hlt
  unfold netStr
  simp only [if_neg Bool.false_ne_true]
  unfold ipv4_network
  rw [pySplit_append (ipv4Str_no_slash addr), pySplit_eq_single (natRepr_no_slash plen)]
  dsimp only []
  rw [v4MakeNetmask_natRepr hp]
  simp only [Option.bind]
  unfold ipv4NetworkWith
  rw [parseIPv4Address_ipv4Str hlt]
  dsimp only []
  rw [if_neg fun hne => hne hm]

theorem ipv4_network_netStr_v6 {net : IPNet} (h6 : net.isV6 = true)
    (hsc : net.scope = none) : ipv4_network false (netStr net) = none := by
  unfold netStr
  rw [h6, hsc, if_pos rfl]
  unfold ipv4_network
  rw [show ipv6AddrStr net.addr none = ipv6CoreStr net.addr from rfl,
    pySplit_append (ipv6CoreStr_no_slash net.addr),
    pySplit_eq_single (natRepr_no_slash net.prefixlen)]
  dsimp only []
  by_cases hp32 : net.prefixlen ≤ 32
  · rw [v4MakeNetmask_natRepr hp32]
    simp only [Option.bind]
    unfold ipv4NetworkWith parseIPv4Address
    rw [if_neg fun hc => ipv6CoreStr_no_slash net.addr (contains_iff_mem.mp hc),
      parseIPv4_none_of_colon (colon_mem_ipv6CoreStr net.addr)]
  · rw [v4MakeNetmask_natRepr_gt (by omega)]
    rfl

theorem ipv6_network_netStr {net : IPNet} (h6 : net.isV6 = true) (hsc : net.scope = none)
    (hwf : NetWF net) : ipv6_network false (netStr net) = some net := by
  obtain ⟨v6, addr, scope, plen⟩ := net
  obtain ⟨hm, hp, hlt, -, -⟩ := hwf
  simp only at h6 hsc hm hp hlt
  subst h6
  subst hsc
  simp only [cond] at hm hp hlt
  unfold netStr
  rw [if_pos rfl]
  unfold ipv6_network
  rw [show ipv6AddrStr addr none = ipv6CoreStr addr from rfl,
    pySplit_append (ipv6CoreStr_no_slash addr), pySplit_eq_single (natRepr_no_slash plen)]
  dsimp only []
  rw [v6MakeNetmask_natRepr hp]
  simp only [Option.bind]
  unfold ipv6NetworkWith
  rw [parseIPv6Address_ipv6CoreStr hlt]
  dsimp only []
  rw [if_neg fun hne => hne hm]

theorem ip_network_netStr {net : IPNet} (hsc : net.scope = none) (hwf : NetWF net) :
    ip_network false (netStr net) = some net := by
  unfold ip_network
  cases h6 : net.isV6 with
  | false => rw [ipv4_network_netStr h6 hwf]
  | true => rw [ipv4_network_netStr_v6 h6 hsc, ipv6_network_netStr h6 hsc hwf]

theorem netStr_addrCidr_v4 (n : Nat) :
    netStr ⟨false, n, none, 32⟩ = addrCidr (IPAddr.v4 n) := by
  simp only [netStr, addrCidr, if_neg Bool.false_ne_true]
  rw [show natRepr 32 = ['3', '2'] from by decide]

theorem netStr_addrCidr_v6 (n : Nat) :
    netStr ⟨true, n, none, 128⟩ = addrCidr (IPAddr.v6 n none) := by
  simp only [netStr, addrCidr, if_pos rfl]
  rw [show natRepr 128 = ['1', '2', '8'] from by decide]
  rfl

theorem netwf_v4_full {n : Nat} (h : n < 2 ^ 32) : NetWF ⟨false, n, none, 32⟩ :=
  ⟨netmask_full_v4 h, by simp, h, fun _ => rfl, fun t ht => by simp at ht⟩

theorem netwf_v6_full {n : Nat} (h : n < 2 ^ 128) : NetWF ⟨true, n, none, 128⟩ :=
  ⟨netmask_full_v6 h, by simp, h, by simp, fun t ht => by simp at ht⟩

/-! ### Branch analysis of the normalizers -/

theorem startsWith_head {s : Str} {x : Char} {t : Str} (h : startsWith s (x :: t) = true) :
    s.head? = some x := by
  unfold startsWith at h
  obtain ⟨u, hu⟩ := List.isPrefixOf_iff_prefix.mp h
  rw [← hu]
  rfl

theorem startsWith_false_of_head {s t : Str} {x y : Char} (hs : s.head? = some y)
    (ht : t.head? = some x) (hne : y ≠ x) : startsWith s t = false := by
  cases t with
  | nil => simp at ht
  | cons c cs =>
    injection ht with ht
    subst ht
    by_contra hsw
    rw [Bool.not_eq_false] at hsw
    rw [startsWith_head hsw] at hs
    injection hs with hs
    exact hne hs.symm

theorem tag_check_false {s : Str} {c : Char} (hc : s.head? = some c)
    (hI : c.toUpper ≠ 'I') : startsWith (pyUpper s) ipCidrTag = false := by
  refine startsWith_false_of_head (y := Char.toUpper c) ?_ ?_ hI
  · rw [pyUpper, List.head?_map, hc]
    rfl
  · rfl

theorem normalize_agree {line : Str}
    (h : ((pyStrip line).isEmpty || startsWith (pyStrip line) ['#']) = false) :
    domainsIp.normalize_ip_or_cidr line = ip.normalize_ip_or_cidr line := by
  unfold ip.normalize_ip_or_cidr domainsIp.normalize_ip_or_cidr
  dsimp only []
  by_cases htag : startsWith (pyUpper (pyStrip line)) ipCidrTag
  · rw [if_pos htag, if_pos htag]
  · have hfalse : ¬(false = true) := by simp
    rw [if_neg htag, if_neg htag, h, if_neg hfalse, if_neg hfalse]

theorem ip_normalize_of_net {line : Str} {net : IPNet}
    (hslash : (pyStrip line).contains '/' = true)
    (h : ip_network false (pyStrip line) = some net) :
    ip.normalize_ip_or_cidr line = some (emit (netStr net)) := by
  obtain ⟨c, hc, hcl⟩ := ip_network_head h
  have hI : c.toUpper ≠ 'I' := by
    rcases hcl with hcl | hcl
    · subst hcl
      decide
    · exact (hexDigit_char_props hcl).2.2.2.2.2.2.2
  have hhash : c ≠ '#' := by
    rcases hcl with hcl | hcl
    · subst hcl
      decide
    · exact (hexDigit_char_props hcl).2.2.2.2.2.2.1
  unfold ip.normalize_ip_or_cidr
  dsimp only []
  rw [if_neg (by rw [tag_check_false hc hI]; simp)]
  rw [if_neg ?hpass]
  case hpass =>
    intro hor
    rw [Bool.or_eq_true] at hor
    rcases hor with hor | hor
    · rw [List.isEmpty_iff.mp hor] at hc
      simp at hc
    · rw [startsWith_head hor] at hc
      injection hc with hc
      exact hhash hc.symm
  rw [if_pos hslash, h]
  rfl

theorem ip_normalize_of_addr {line : Str} {a : IPAddr}
    (h : ip_address (pyStrip line) = some a) :
    ip.normalize_ip_or_cidr line = some (emit (addrCidr a)) := by
  obtain ⟨hns, hne, ⟨c, hc, hcl⟩, -, -⟩ := ip_address_inv h
  have hI : c.toUpper ≠ 'I' := by
    rcases hcl with hcl | hcl
    · subst hcl
      decide
    · exact (hexDigit_char_props hcl).2.2.2.2.2.2.2
  have hhash : c ≠ '#' := by
    rcases hcl with hcl | hcl
    · subst hcl
      decide
    · exact (hexDigit_char_props hcl).2.2.2.2.2.2.1
  have hslash : (pyStrip line).contains '/' = false := by
    rw [← Bool.not_eq_true]
    intro hcon
    exact hns (contains_iff_mem.mp hcon)
  unfold ip.normalize_ip_or_cidr
  dsimp only []
  rw [if_neg (by rw [tag_check_false hc hI]; simp)]
  rw [if_neg ?hpass]
  case hpass =>
    intro hor
    rw [Bool.or_eq_true] at hor
    rcases hor with hor | hor
    · rw [List.isEmpty_iff.mp hor] at hc
      simp at hc
    · rw [startsWith_head hor] at hc
      injection hc with hc
      exact hhash hc.symm
  rw [if_neg (by rw [hslash]; simp), h]
  rfl

theorem ip_normalize_pass {line : Str}
    (h : ((pyStrip line).isEmpty || startsWith (pyStrip line) ['#']) = true) :
    ip.normalize_ip_or_cidr line = some (pyStrip line) := by
  unfold ip.normalize_ip_or_cidr
  dsimp only []
  rw [if_neg ?htag, if_pos h]
  case htag =>
    rw [Bool.or_eq_true] at h
    rcases h with h | h
    · rw [List.isEmpty_iff.mp h]
      decide
    · rw [tag_check_false (startsWith_head h) (by decide)]
      simp

theorem domainsIp_normalize_pass {line : Str}
    (h : ((pyStrip line).isEmpty || startsWith (pyStrip line) ['#']) = true) :
    domainsIp.normalize_ip_or_cidr line = some line := by
  unfold domainsIp.normalize_ip_or_cidr
  dsimp only []
  rw [if_neg ?htag, if_pos h]
  case htag =>
    rw [Bool.or_eq_true] at h
    rcases h with h | h
    · rw [List.isEmpty_iff.mp h]
      decide
    · rw [tag_check_false (startsWith_head h) (by decide)]
      simp

theorem ip_normalize_none {line : Str}
    (hb : ((pyStrip line).isEmpty || startsWith (pyStrip line) ['#']) = false)
    (htag : startsWith (pyUpper (pyStrip line)) ipCidrTag = false)
    (hnet : ip_network false (pyStrip line) = none)
    (haddr : ip_address (pyStrip line) = none) :
    ip.normalize_ip_or_cidr line = none := by
  unfold ip.normalize_ip_or_cidr
  dsimp only []
  rw [if_neg (by rw [htag]; simp), if_neg (by rw [hb]; simp)]
  by_cases hs : (pyStrip line).contains '/'
  · rw [if_pos hs, hnet]
    rw [haddr]
    rfl
  · rw [if_neg hs]
    rw [haddr]
    rfl

theorem headD_map_pyStrip {P : List Str} (h : P ≠ []) :
    (P.map pyStrip).headD [] = pyStrip (P.headD []) := by
  cases P with
  | nil => simp at h
  | cons p ps => rfl

theorem ip_normalize_tagged {line t r : Str}
    (hsplit : pyStrip line = t ++ ',' :: r)
    (ht : pyUpper t = ['I', 'P', '-', 'C', 'I', 'D', 'R']) :
    ip.normalize_ip_or_cidr line =
      (let cand := pyStrip ((pySplit ',' (pyStrip r)).headD []);
       if cand.contains '/' then (ip_network false cand).map fun net => emit (netStr net)
       else (ip_address cand).map fun a => emit (addrCidr a)) := by
  have hnc : ',' ∉ t := fun hm => by
    have hmem : ',' ∈ pyUpper t := List.mem_map.mpr ⟨',', hm, rfl⟩
    rw [ht] at hmem
    exact absurd hmem (by decide)
  have htag : startsWith (pyUpper (pyStrip line)) ipCidrTag = true := by
    rw [hsplit]
    show List.isPrefixOf ipCidrTag (List.map Char.toUpper (t ++ ',' :: r)) = true
    rw [List.map_append]
    rw [show List.map Char.toUpper t = pyUpper t from rfl, ht]
    rw [List.isPrefixOf_iff_prefix]
    exact ⟨List.map Char.toUpper r, rfl⟩
  unfold ip.normalize_ip_or_cidr
  dsimp only []
  rw [if_pos htag, hsplit, afterFirst_append hnc,
    headD_map_pyStrip (pySplit_ne_nil ',' (pyStrip r))]

theorem domainsIp_normalize_tagged {line t r : Str}
    (hsplit : pyStrip line = t ++ ',' :: r)
    (ht : pyUpper t = ['I', 'P', '-', 'C', 'I', 'D', 'R']) :
    domainsIp.normalize_ip_or_cidr line =
      (let cand := pyStrip ((pySplit ',' (pyStrip r)).headD []);
       if cand.contains '/' then (ip_network false cand).map fun net => emit (netStr net)
       else (ip_address cand).map fun a => emit (addrCidr a)) := by
  have hnc : ',' ∉ t := fun hm => by
    have hmem : ',' ∈ pyUpper t := List.mem_map.mpr ⟨',', hm, rfl⟩
    rw [ht] at hmem
    exact absurd hmem (by decide)
  have htag : startsWith (pyUpper (pyStrip line)) ipCidrTag = true := by
    rw [hsplit]
    show List.isPrefixOf ipCidrTag (List.map Char.toUpper (t ++ ',' :: r)) = true
    rw [List.map_append]
    rw [show List.map Char.toUpper t = pyUpper t from rfl, ht]
    rw [List.isPrefixOf_iff_prefix]
    exact ⟨List.map Char.toUpper r, rfl⟩
  unfold domainsIp.normalize_ip_or_cidr
  dsimp only []
  rw [if_pos htag, hsplit, afterFirst_append hnc,
    headD_map_pyStrip (pySplit_ne_nil ',' (pyStrip r))]

/-! ### Stability of emitted rules under a second normalization pass -/

theorem toNat_ofNat_valid {n : Nat} (h : n.isValidChar) : (Char.ofNat n).toNat = n := by
  rw [Char.ofNat, dif_pos h]
  rfl

theorem toUpper_eq_comma {c : Char} (h : c.toUpper = ',') : c = ',' := by
  unfold Char.toUpper at h
  dsimp only [] at h
  split_ifs at h with hcond
  · exfalso
    have hv : (c.toNat - 32).isValidChar := Or.inl (by omega)
    have h2 := congrArg Char.toNat h
    rw [toNat_ofNat_valid hv] at h2
    have hcomma : (',' : Char).toNat = 44 := rfl
    omega
  · exact h

theorem headD_mem {P : List Str} (h : P ≠ []) : P.headD [] ∈ P := by
  cases P with
  | nil => exact absurd rfl h
  | cons p ps => exact List.mem_cons_self p ps

theorem tag_split_of_startsWith {s : Str} (h : startsWith (pyUpper s) ipCidrTag = true) :
    ∃ t r, s = t ++ ',' :: r ∧ pyUpper t = ['I', 'P', '-', 'C', 'I', 'D', 'R'] := by
  obtain ⟨u, hu⟩ := List.isPrefixOf_iff_prefix.mp h
  have hlen : 8 ≤ s.length := by
    have := congrArg List.length hu
    simp only [List.length_append, pyUpper, List.length_map] at this
    have h8 : ipCidrTag.length = 8 := rfl
    omega
  have h7 : 7 < s.length := by omega
  refine ⟨s.take 7, s.drop 8, ?_, ?_⟩
  · have hd : s.drop 7 = s[7] :: s.drop 8 := List.drop_eq_getElem_cons h7
    have hc : s[7].toUpper = ',' := by
      have hmap : (pyUpper s)[7]? = some ',' := by
        rw [← hu, List.getElem?_append_left (by decide : (7 : Nat) < ipCidrTag.length)]
        rfl
      rw [pyUpper, List.getElem?_map, List.getElem?_eq_getElem h7] at hmap
      simp only [Option.map] at hmap
      injection hmap
    have := toUpper_eq_comma hc
    rw [← this, ← hd, List.take_append_drop]
  · have : pyUpper (s.take 7) = (pyUpper s).take 7 := by
      rw [pyUpper, pyUpper, List.map_take]
    rw [this, ← hu, List.take_append_of_le_length (by decide : (7 : Nat) ≤ ipCidrTag.length)]
    rfl

theorem pyStrip_emit (cidr : Str) : pyStrip (emit cidr) = emit cidr := by
  refine pyStrip_eq_self ?_ ?_
  · intro c hc
    have hh : (emit cidr).head? = some 'I' := rfl
    rw [hh] at hc
    injection hc with hc
    subst hc
    rfl
  · intro c hc
    have hl : (emit cidr).getLast? = some 'e' := by
      show ((ipCidrTag ++ cidr) ++ noResolveTag).getLast? = some 'e'
      rw [List.getLast?_append_of_ne_nil _ (by decide)]
      rfl
    rw [hl] at hc
    injection hc with hc
    subst hc
    rfl

theorem ip_normalize_emit {cidr : Str} {net : IPNet}
    (hnc : ',' ∉ cidr)
    (hh : ∀ c, cidr.head? = some c → pyIsSpace c = false)
    (hl : ∀ c, cidr.getLast? = some c → pyIsSpace c = false)
    (hslash : '/' ∈ cidr)
    (hnp : ip_network false cidr = some net)
    (hstr : netStr net = cidr) :
    ip.normalize_ip_or_cidr (emit cidr) = some (emit cidr) := by
  have hne : cidr ≠ [] := by
    intro hnil
    rw [hnil] at hslash
    simp at hslash
  have hsplit : pyStrip (emit cidr) =
      ['I', 'P', '-', 'C', 'I', 'D', 'R'] ++ ',' :: (cidr ++ noResolveTag) := by
    rw [pyStrip_emit]
    show (ipCidrTag ++ cidr) ++ noResolveTag = _
    rw [List.append_assoc]
    rfl
  rw [ip_normalize_tagged hsplit (by decide)]
  have hbody : pyStrip (cidr ++ noResolveTag) = cidr ++ noResolveTag := by
    refine pyStrip_eq_self ?_ ?_
    · intro c hc
      rw [List.head?_append_of_ne_nil _ hne] at hc
      exact hh c hc
    · intro c hc
      rw [List.getLast?_append_of_ne_nil _ (by decide)] at hc
      have : c = 'e' := by
        rw [show noResolveTag.getLast? = some 'e' from rfl] at hc
        injection hc with hc
        exact hc.symm
      subst this
      rfl
  dsimp only []
  rw [hbody,
    show cidr ++ noResolveTag =
      cidr ++ ',' :: ['n', 'o', '-', 'r', 'e', 's', 'o', 'l', 'v', 'e'] from rfl,
    pySplit_append hnc, pySplit_eq_single (by decide)]
  simp only [List.headD]
  rw [pyStrip_eq_self hh hl, if_pos (contains_iff_mem.mpr hslash), hnp]
  simp only [Option.map]
  rw [hstr]

theorem netStr_props {net : IPNet} (hsc : net.scope = none) :
    (∀ c, (netStr net).head? = some c → pyIsSpace c = false) ∧
    (∀ c, (netStr net).getLast? = some c → pyIsSpace c = false) ∧
    ',' ∉ netStr net ∧ '/' ∈ netStr net := by
  have hchars := netStr_chars hsc
  refine ⟨fun c hc => (netChar_props (hchars c (List.mem_of_mem_head? hc))).1,
    fun c hc => (netChar_props (hchars c (List.mem_of_mem_getLast? hc))).1,
    fun hm => (netChar_props (hchars ',' hm)).2.1 rfl, ?_⟩
  unfold netStr
  exact List.mem_append_right _ (by simp)

theorem ip_normalize_emit_netStr {net : IPNet} (hsc : net.scope = none) (hwf : NetWF net) :
    ip.normalize_ip_or_cidr (emit (netStr net)) = some (emit (netStr net)) := by
  obtain ⟨hh, hl, hnc, hslash⟩ := netStr_props hsc
  exact ip_normalize_emit hnc hh hl hslash (ip_network_netStr hsc hwf) rfl

theorem ip_normalize_emit_addr {a : IPAddr}
    (h4 : ∀ n, a = IPAddr.v4 n → n < 2 ^ 32)
    (h6 : ∀ n sc, a = IPAddr.v6 n sc → n < 2 ^ 128 ∧ sc = none) :
    ip.normalize_ip_or_cidr (emit (addrCidr a)) = some (emit (addrCidr a)) := by
  cases a with
  | v4 n =>
    rw [← netStr_addrCidr_v4 n]
    exact ip_normalize_emit_netStr rfl (netwf_v4_full (h4 n rfl))
  | v6 n sc =>
    obtain ⟨hlt, hscn⟩ := h6 n sc rfl
    subst hscn
    rw [← netStr_addrCidr_v6 n]
    exact ip_normalize_emit_netStr rfl (netwf_v6_full hlt)

theorem ip_normalize_noslash_none {line : Str}
    (hb : ((pyStrip line).isEmpty || startsWith (pyStrip line) ['#']) = false)
    (htag : startsWith (pyUpper (pyStrip line)) ipCidrTag = false)
    (hsl : (pyStrip line).contains '/' = false)
    (haddr : ip_address (pyStrip line) = none) :
    ip.normalize_ip_or_cidr line = none := by
  unfold ip.normalize_ip_or_cidr
  dsimp only []
  rw [if_neg (by rw [htag]; simp), if_neg (by rw [hb]; simp), if_neg (by rw [hsl]; simp),
    haddr]
  rfl

theorem ip_normalize_stable {line res : Str} (hp : '%' ∉ line)
    (h : ip.normalize_ip_or_cidr line = some res) :
    ip.normalize_ip_or_cidr res = some res := by
  have hps : '%' ∉ pyStrip line := fun hm => hp (mem_of_mem_pyStrip hm)
  by_cases htag : startsWith (pyUpper (pyStrip line)) ipCidrTag = true
  · obtain ⟨t, r, hsr, ht⟩ := tag_split_of_startsWith htag
    rw [ip_normalize_tagged hsr ht] at h
    dsimp only [] at h
    have hpc : '%' ∉ pyStrip ((pySplit ',' (pyStrip r)).headD []) := by
      intro hm
      have h1 : '%' ∈ (pySplit ',' (pyStrip r)).headD [] := mem_of_mem_pyStrip hm
      have h2 : '%' ∈ pyStrip r :=
        mem_pySplit_subset (headD_mem (pySplit_ne_nil ',' (pyStrip r))) h1
      have h3 : '%' ∈ r := mem_of_mem_pyStrip h2
      exact hps (by
        rw [hsr]
        exact List.mem_append_right _ (List.mem_cons_of_mem _ h3))
    by_cases hsl : (pyStrip ((pySplit ',' (pyStrip r)).headD [])).contains '/'
    · rw [if_pos hsl] at h
      rcases hn : ip_network false (pyStrip ((pySplit ',' (pyStrip r)).headD []))
        with _ | net <;> rw [hn] at h
      · simp at h
      · simp only [Option.map] at h
        injection h with h
        subst h
        exact ip_normalize_emit_netStr (ip_network_scope_none hn hpc) (ip_network_wf hn)
    · rw [if_neg hsl] at h
      rcases ha : ip_address (pyStrip ((pySplit ',' (pyStrip r)).headD []))
        with _ | a <;> rw [ha] at h
      · simp at h
      · simp only [Option.map] at h
        injection h with h
        subst h
        refine ip_normalize_emit_addr ?_ ?_
        · intro n hn4
          subst hn4
          exact (ip_address_inv ha).2.2.2.1 n rfl
        · intro n sc hn6
          rw [hn6] at ha
          exact ⟨((ip_address_inv ha).2.2.2.2 n sc rfl).1, ip_address_scope_none ha hpc⟩
  · have htagf : startsWith (pyUpper (pyStrip line)) ipCidrTag = false := by
      rw [Bool.not_eq_true] at htag
      exact htag
    by_cases hpass : ((pyStrip line).isEmpty || startsWith (pyStrip line) ['#']) = true
    · rw [ip_normalize_pass hpass] at h
      injection h with h
      subst h
      have h2 : ip.normalize_ip_or_cidr (pyStrip line) = some (pyStrip (pyStrip line)) :=
        ip_normalize_pass (by rw [pyStrip_idem]; exact hpass)
      rw [pyStrip_idem] at h2
      exact h2
    · have hpf : ((pyStrip line).isEmpty || startsWith (pyStrip line) ['#']) = false := by
        rw [Bool.not_eq_true] at hpass
        exact hpass
      by_cases hsl : (pyStrip line).contains '/'
      · rcases hn : ip_network false (pyStrip line) with _ | net
        · rcases ha : ip_address (pyStrip line) with _ | a
          · rw [ip_normalize_none hpf htagf hn ha] at h
            simp at h
          · exact absurd (contains_iff_mem.mp hsl) (ip_address_inv ha).1
        · rw [ip_normalize_of_net hsl hn] at h
          injection h with h
          subst h
          exact ip_normalize_emit_netStr (ip_network_scope_none hn hps) (ip_network_wf hn)
      · have hslf : (pyStrip line).contains '/' = false := by
          rw [Bool.not_eq_true] at hsl
          exact hsl
        rcases ha : ip_address (pyStrip line) with _ | a
        · rw [ip_normalize_noslash_none hpf htagf hslf ha] at h
          simp at h
        · rw [ip_normalize_of_addr ha] at h
          injection h with h
          subst h
          refine ip_normalize_emit_addr ?_ ?_
          · intro n hn4
            subst hn4
            exact (ip_address_inv ha).2.2.2.1 n rfl
          · intro n sc hn6
            rw [hn6] at ha
            exact ⟨((ip_address_inv ha).2.2.2.2 n sc rfl).1, ip_address_scope_none ha hps⟩

/-! ### Whole-file behaviour of the IP normalizer -/

theorem ip_processLines_out_stable :
    ∀ {L : List Str}, (∀ l ∈ L, '%' ∉ l) →
      ∀ res ∈ (ip.processLines L).1, ip.normalize_ip_or_cidr res = some res := by
  intro L
  induction L with
  | nil =>
    intro _ res hres
    simp [ip.processLines] at hres
  | cons raw rest ih =>
    intro hL res hres
    rw [ip.processLines] at hres
    rcases hn : ip.normalize_ip_or_cidr raw with _ | r <;> rw [hn] at hres <;>
      dsimp only [] at hres
    · exact ih (fun l hl => hL l (List.mem_cons_of_mem _ hl)) res hres
    · by_cases heq : r = raw
      · rw [if_pos heq] at hres
        rcases List.mem_cons.mp hres with hres | hres
        · subst hres
          rw [heq] at hn
          exact hn
        · exact ih (fun l hl => hL l (List.mem_cons_of_mem _ hl)) res hres
      · rw [if_neg heq] at hres
        rcases List.mem_cons.mp hres with hres | hres
        · subst hres
          exact ip_normalize_stable (hL raw (List.mem_cons_self raw rest)) hn
        · exact ih (fun l hl => hL l (List.mem_cons_of_mem _ hl)) res hres

theorem ip_processLines_fixed :
    ∀ {M : List Str}, (∀ res ∈ M, ip.normalize_ip_or_cidr res = some res) →
      ip.processLines M = (M, 0, M.length) := by
  intro M
  induction M with
  | nil => intro _; rfl
  | cons x xs ih =>
    intro hM
    rw [ip.processLines]
    rw [hM x (List.mem_cons_self x xs), ih fun res hres => hM res (List.mem_cons_of_mem _ hres)]
    dsimp only []
    rw [if_pos rfl]
    rfl

/-! ### The domain normalizer as an independent per-line map (spec 4.1) -/

/-- The per-line transform of the domain normalizer exactly as the spec
describes it: blank and comment lines unchanged, a line whose trimmed form
already starts with the tag kept as its trimmed form, every other line
prefixed with the tag after trimming. -/
def specDomainLine (raw : Str) : Str :=
  if (pyStrip raw).isEmpty then raw
  else if startsWith (pyStrip raw) ['#'] then raw
  else if startsWith (pyStrip raw) dsTag then pyStrip raw
  else dsTag ++ pyStrip raw

/-- Whether a line receives a new prefix, per the spec contract. -/
def specDomainChanged (raw : Str) : Bool :=
  !(pyStrip raw).isEmpty && !startsWith (pyStrip raw) ['#'] &&
    !startsWith (pyStrip raw) dsTag

theorem domains_processLines_spec (L : List Str) :
    domains.processLines L =
      (L.map specDomainLine, (L.filter specDomainChanged).length) := by
  induction L with
  | nil => rfl
  | cons raw rest ih =>
    rw [domains.processLines]
    rw [ih, List.map_cons, List.filter_cons]
    unfold specDomainLine specDomainChanged
    by_cases h1 : (pyStrip raw).isEmpty
    · simp [h1]
    · by_cases h2 : startsWith (pyStrip raw) ['#']
      · simp [h1, h2]
      · by_cases h3 : startsWith (pyStrip raw) dsTag
        · simp [h1, h2, h3]
        · simp [h1, h2, h3]

theorem specDomainLine_fixed (raw : Str) :
    specDomainLine (specDomainLine raw) = specDomainLine raw ∧
    specDomainChanged (specDomainLine raw) = false := by
  by_cases h1 : (pyStrip raw).isEmpty
  · have hout : specDomainLine raw = raw := by
      unfold specDomainLine
      rw [if_pos h1]
    rw [hout]
    constructor
    · exact hout
    · unfold specDomainChanged
      rw [h1]
      rfl
  · by_cases h2 : startsWith (pyStrip raw) ['#']
    · have hout : specDomainLine raw = raw := by
        unfold specDomainLine
        rw [if_neg h1, if_pos h2]
      rw [hout]
      constructor
      · exact hout
      · unfold specDomainChanged
        rw [h2]
        simp
    · by_cases h3 : startsWith (pyStrip raw) dsTag
      · have hout : specDomainLine raw = pyStrip raw := by
          unfold specDomainLine
          rw [if_neg h1, if_neg h2, if_pos h3]
        have hstrip : pyStrip (pyStrip raw) = pyStrip raw := pyStrip_idem raw
        have h1' : ¬(pyStrip (pyStrip raw)).isEmpty := by rw [hstrip]; exact h1
        have h2' : ¬startsWith (pyStrip (pyStrip raw)) ['#'] = true := by
          rw [hstrip]; exact h2
        have h3' : startsWith (pyStrip (pyStrip raw)) dsTag = true := by
          rw [hstrip]; exact h3
        rw [hout]
        constructor
        · unfold specDomainLine
          rw [if_neg h1', if_neg h2', if_pos h3', hstrip]
        · unfold specDomainChanged
          rw [h3']
          simp
      · have hout : specDomainLine raw = dsTag ++ pyStrip raw := by
          unfold specDomainLine
          rw [if_neg h1, if_neg h2, if_neg h3]
        have hne : pyStrip raw ≠ [] := by
          intro h0
          rw [h0] at h1
          exact h1 rfl
        have hstrip : pyStrip (dsTag ++ pyStrip raw) = dsTag ++ pyStrip raw := by
          refine pyStrip_eq_self ?_ ?_
          · intro c hc
            have : (dsTag ++ pyStrip raw).head? = some 'D' := rfl
            rw [this] at hc
            injection hc with hc
            subst hc
            rfl
          · intro c hc
            rw [List.getLast?_append_of_ne_nil _ hne] at hc
            exact pyStrip_last hc
        have h3' : startsWith (dsTag ++ pyStrip raw) dsTag = true := by
          unfold startsWith
          rw [List.isPrefixOf_iff_prefix]
          exact ⟨pyStrip raw, rfl⟩
        have h1' : ¬(pyStrip (dsTag ++ pyStrip raw)).isEmpty := by
          rw [hstrip]
          simp [dsTag]
        have h2' : ¬startsWith (pyStrip (dsTag ++ pyStrip raw)) ['#'] = true := by
          rw [hstrip]
          intro hsw
          have := startsWith_head hsw
          rw [show (dsTag ++ pyStrip raw).head? = some 'D' from rfl] at this
          injection this with this
          exact absurd this (by decide)
        rw [hout]
        constructor
        · unfold specDomainLine
          rw [if_neg h1', if_neg h2', if_pos (by rw [hstrip]; exact h3'), hstrip]
        · unfold specDomainChanged
          rw [hstrip, h3']
          simp

theorem list_map_id_of {α : Type} {f : α → α} :
    ∀ {M : List α}, (∀ l ∈ M, f l = l) → M.map f = M
  | [], _ => rfl
  | x :: xs, h => by
    rw [List.map_cons, h x (List.mem_cons_self x xs),
      list_map_id_of fun l hl => h l (List.mem_cons_of_mem _ hl)]

theorem domains_processLines_idem (L : List Str) :
    domains.processLines (domains.processLines L).1 = ((domains.processLines L).1, 0) := by
  rw [domains_processLines_spec L]
  rw [domains_processLines_spec]
  have h1 : (L.map specDomainLine).map specDomainLine = L.map specDomainLine :=
    list_map_id_of fun l hl => by
      obtain ⟨raw, -, hraw⟩ := List.mem_map.mp hl
      rw [← hraw]
      exact (specDomainLine_fixed raw).1
  have h2 : (L.map specDomainLine).filter specDomainChanged = [] :=
    List.filter_eq_nil_iff.mpr fun l hl => by
      obtain ⟨raw, -, hraw⟩ := List.mem_map.mp hl
      rw [← hraw]
      simp [(specDomainLine_fixed raw).2]
  rw [h1, h2]
  rfl

/-! ### `splitlines` and the backup/write round trips -/

theorem splitlinesGo_cons_break {c : Char} {r acc : Str} (hc : isLineBreak c = true)
    (hcr : c ≠ '\r') : splitlinesGo (c :: r) acc = acc.reverse :: splitlinesGo r [] := by
  rw [splitlinesGo.eq_def]
  split
  · simp_all
  · rename_i heq
    injection heq with h1 h2
    exact absurd h1 hcr
  · rename_i heq
    injection heq with h1 h2
    subst h1
    subst h2
    rw [if_pos hc]

theorem splitlinesGo_cons_nobreak {c : Char} {r acc : Str} (hc : isLineBreak c = false) :
    splitlinesGo (c :: r) acc = splitlinesGo r (c :: acc) := by
  rw [splitlinesGo.eq_def]
  split
  · simp_all
  · rename_i heq
    injection heq with h1 h2
    subst h1
    exact absurd hc (by decide)
  · rename_i heq
    injection heq with h1 h2
    subst h1
    subst h2
    rw [if_neg (by rw [hc]; simp)]

theorem splitlinesGo_cons_r {d : Char} {r acc : Str} (hd : d ≠ '\n') :
    splitlinesGo ('\r' :: d :: r) acc = acc.reverse :: splitlinesGo (d :: r) [] := by
  rw [splitlinesGo.eq_def]
  split
  · simp_all
  · rename_i heq
    injection heq with h1 h2
    injection h2 with h2 h3
    exact absurd h2 hd
  · rename_i heq
    injection heq with h1 h2
    subst h1
    subst h2
    rw [if_pos (by decide)]

theorem splitlinesGo_rn {r acc : Str} :
    splitlinesGo ('\r' :: '\n' :: r) acc = acc.reverse :: splitlinesGo r [] := rfl

theorem splitlinesGo_join : ∀ (s acc : Str),
    (∀ c ∈ s, isLineBreak c = true → c = '\n') → s.getLast? ≠ some '\n' →
    joinSep '\n' (splitlinesGo s acc) = acc.reverse ++ s := by
  intro s
  induction s with
  | nil =>
    intro acc _ _
    have h0 : splitlinesGo [] acc = if acc.isEmpty then [] else [acc.reverse] := rfl
    by_cases h : acc.isEmpty
    · rw [h0, if_pos h, List.isEmpty_iff.mp h]
      rfl
    · rw [h0, if_neg h]
      simp [joinSep]
  | cons c r ih =>
    intro acc h1 h2
    by_cases hc : isLineBreak c
    · have hcn : c = '\n' := h1 c (List.mem_cons_self c r) hc
      subst hcn
      have hr : r ≠ [] := by
        intro h0
        subst h0
        exact h2 rfl
      have hlast : r.getLast? ≠ some '\n' := by
        intro h0
        refine h2 ?_
        rw [show ('\n' :: r : Str) = ['\n'] ++ r from rfl,
          List.getLast?_append_of_ne_nil _ hr]
        exact h0
      have hIH := ih [] (fun d hd hbr => h1 d (List.mem_cons_of_mem _ hd) hbr) hlast
      rw [splitlinesGo_cons_break hc (by decide)]
      have hgo : splitlinesGo r [] ≠ [] := by
        intro h0
        rw [h0] at hIH
        exact hr (by simpa [joinSep] using hIH.symm)
      rw [joinSep_cons _ _ hgo, hIH]
      simp
    · have hcb : isLineBreak c = false := by
        rw [Bool.not_eq_true] at hc
        exact hc
      rw [splitlinesGo_cons_nobreak hcb]
      have hlast : r.getLast? ≠ some '\n' := by
        cases r with
        | nil => simp
        | cons d ds =>
          intro h0
          refine h2 ?_
          rw [show (c :: d :: ds : Str) = [c] ++ (d :: ds) from rfl,
            List.getLast?_append_of_ne_nil _ (by simp)]
          exact h0
      have hIH := ih (c :: acc) (fun d hd hbr => h1 d (List.mem_cons_of_mem _ hd) hbr) hlast
      rw [hIH]
      simp

theorem joinSep_pySplitlines {content : Str}
    (h1 : ∀ c ∈ content, isLineBreak c = true → c = '\n')
    (h2 : content.getLast? ≠ some '\n') :
    joinSep '\n' (pySplitlines content) = content := by
  have := splitlinesGo_join content [] h1 h2
  simpa using this

theorem splitlinesGo_append_newline : ∀ (k : Nat) (s acc : Str), s.length ≤ k → s ≠ [] →
    (∀ c, s.getLast? = some c → isLineBreak c = false) →
    splitlinesGo (s ++ ['\n']) acc = splitlinesGo s acc := by
  intro k
  induction k with
  | zero =>
    intro s acc hlen hne _
    cases s with
    | nil => exact absurd rfl hne
    | cons c r => simp at hlen
  | succ k ih =>
    intro s acc hlen hne hlast
    cases s with
    | nil => exact absurd rfl hne
    | cons c r =>
      cases r with
      | nil =>
        have hcb : isLineBreak c = false := hlast c rfl
        show splitlinesGo (c :: ['\n']) acc = splitlinesGo [c] acc
        rw [splitlinesGo_cons_nobreak hcb, splitlinesGo_cons_nobreak hcb,
          splitlinesGo_cons_break (by decide) (by decide)]
        rfl
      | cons d ds =>
        have hlen2 : (d :: ds).length ≤ k := by
          simp only [List.length_cons] at hlen ⊢
          omega
        have hne2 : (d :: ds : Str) ≠ [] := by simp
        have hlast2 : ∀ e, (d :: ds : Str).getLast? = some e → isLineBreak e = false := by
          intro e he
          refine hlast e ?_
          rw [show (c :: d :: ds : Str) = [c] ++ (d :: ds) from rfl,
            List.getLast?_append_of_ne_nil _ (by simp)]
          exact he
        have hIH := ih (d :: ds) [] hlen2 hne2 hlast2
        by_cases hc : isLineBreak c
        · by_cases hcr : c = '\r'
          · subst hcr
            by_cases hdn : d = '\n'
            · subst hdn
              have hds : ds ≠ [] := by
                intro h0
                subst h0
                exact absurd (hlast '\n' rfl) (by decide)
              have hlast3 : ∀ e, ds.getLast? = some e → isLineBreak e = false := by
                intro e he
                refine hlast2 e ?_
                rw [show ('\n' :: ds : Str) = ['\n'] ++ ds from rfl,
                  List.getLast?_append_of_ne_nil _ hds]
                exact he
              show splitlinesGo ('\r' :: '\n' :: (ds ++ ['\n'])) acc = _
              rw [splitlinesGo_rn, splitlinesGo_rn,
                ih ds [] (by simp only [List.length_cons] at hlen; omega) hds hlast3]
            · show splitlinesGo ('\r' :: d :: (ds ++ ['\n'])) acc = _
              rw [splitlinesGo_cons_r hdn, splitlinesGo_cons_r hdn]
              rw [show (d :: (ds ++ ['\n']) : Str) = (d :: ds) ++ ['\n'] from rfl, hIH]
          · show splitlinesGo (c :: ((d :: ds) ++ ['\n'])) acc = _
            rw [splitlinesGo_cons_break hc hcr, splitlinesGo_cons_break hc hcr, hIH]
        · have hcb : isLineBreak c = false := by
            rw [Bool.not_eq_true] at hc
            exact hc
          show splitlinesGo (c :: ((d :: ds) ++ ['\n'])) acc = _
          rw [splitlinesGo_cons_nobreak hcb, splitlinesGo_cons_nobreak hcb,
            ih (d :: ds) (c :: acc) hlen2 hne2 hlast2]

theorem pySplitlines_append_newline {content : Str} (hne : content ≠ [])
    (hlast : ∀ c, content.getLast? = some c → isLineBreak c = false) :
    pySplitlines (content ++ ['\n']) = pySplitlines content :=
  splitlinesGo_append_newline content.length content [] (le_refl _) hne hlast

/-! ### Remaining helpers for the claim theorems -/

theorem ip_address_v4_elim {s : Str} {n : Nat} (h : ip_address s = some (IPAddr.v4 n)) :
    parseIPv4Address s = some n := by
  unfold ip_address at h
  rcases h4 : parseIPv4Address s with _ | m <;> rw [h4] at h
  · rcases h6 : parseIPv6Address s with _ | pa <;> rw [h6] at h
    · simp at h
    · simp only [Option.map] at h
      injection h with h
      simp at h
  · injection h with h
    injection h with h
    rw [h]

theorem parseIPv4Address_strip (s : Str) {n : Nat} (h : parseIPv4Address s = some n) :
    parseIPv4 s = some n := by
  unfold parseIPv4Address at h
  split_ifs at h
  exact h

theorem ip_processLines_len_sum :
    ∀ L : List Str, (ip.processLines L).1.length =
      (ip.processLines L).2.1 + (ip.processLines L).2.2
  | [] => rfl
  | raw :: rest => by
    rw [ip.processLines]
    rcases ip.normalize_ip_or_cidr raw with _ | res
    · exact ip_processLines_len_sum rest
    · dsimp only []
      split_ifs <;> simp only [List.length_cons, ip_processLines_len_sum rest] <;> omega

theorem ip_processLines_len_le :
    ∀ L : List Str, (ip.processLines L).1.length ≤ L.length
  | [] => le_refl 0
  | raw :: rest => by
    rw [ip.processLines]
    rcases ip.normalize_ip_or_cidr raw with _ | res
    · exact le_trans (ip_processLines_len_le rest) (by simp)
    · dsimp only []
      have := ip_processLines_len_le rest
      split_ifs <;> simp only [List.length_cons] <;> omega

theorem ip_processLines_skip {line : Str} (h : ip.normalize_ip_or_cidr line = none) :
    ∀ pre post : List Str,
      ip.processLines (pre ++ line :: post) = ip.processLines (pre ++ post)
  | [], post => by
    rw [List.nil_append, List.nil_append, ip.processLines, h]
  | raw :: pre, post => by
    rw [List.cons_append, List.cons_append, ip.processLines, ip.processLines,
      ip_processLines_skip h pre post]

theorem getLast?_append_newline (s : Str) : (s ++ ['\n']).getLast? = some '\n' := by
  rw [List.getLast?_append_of_ne_nil _ (by simp)]
  rfl

theorem pass_false_of_head {s : Str} {c : Char} (hc : s.head? = some c) (hh : c ≠ '#') :
    (s.isEmpty || startsWith s ['#']) = false := by
  have h1 : s.isEmpty = false := by
    rw [Bool.eq_false_iff]
    intro hemp
    rw [List.isEmpty_iff.mp hemp] at hc
    simp at hc
  rw [h1,
    startsWith_false_of_head hc (show (['#'] : Str).head? = some '#' from rfl) hh]
  rfl

theorem emit_getLast? (cidr : Str) : (emit cidr).getLast? = some 'e' := by
  show ((ipCidrTag ++ cidr) ++ noResolveTag).getLast? = some 'e'
  rw [List.getLast?_append_of_ne_nil _ (by decide)]
  rfl

/-! ## The claims -/

/-- **C1** (corrected).  For every line whose stripped text parses as a bare
IP address, both IP normalizers emit `IP-CIDR,<cidr>,no-resolve`; for IPv4
the output is exactly `IP-CIDR,<address>/32,no-resolve` as claimed, but the
IPv6 half of the claim is wrong: the output contains `/128` followed by
`,no-resolve`, so it does not end in `/128`. -/
theorem C1_amended {line : Str} {a : IPAddr} (h : ip_address (pyStrip line) = some a) :
    ip.normalize_ip_or_cidr line = some (emit (addrCidr a)) ∧
    domainsIp.normalize_ip_or_cidr line = some (emit (addrCidr a)) ∧
    (∀ n, a = IPAddr.v4 n →
      emit (addrCidr a) = ipCidrTag ++ pyStrip line ++ '/' :: '3' :: '2' :: noResolveTag) ∧
    (∀ n sc, a = IPAddr.v6 n sc →
      (∃ pre, emit (addrCidr a) = pre ++ '/' :: '1' :: '2' :: '8' :: noResolveTag) ∧
      ¬ ['/', '1', '2', '8'] <:+ emit (addrCidr a)) := by
  obtain ⟨-, -, ⟨c, hc, hcl⟩, -, -⟩ := ip_address_inv h
  have hhash : c ≠ '#' := by
    rcases hcl with hcl | hcl
    · subst hcl
      decide
    · exact (hexDigit_char_props hcl).2.2.2.2.2.2.1
  have h1 := ip_normalize_of_addr h
  refine ⟨h1, by rw [normalize_agree (pass_false_of_head hc hhash)]; exact h1, ?_, ?_⟩
  · intro n hn
    subst hn
    have hstr : ipv4Str n = pyStrip line :=
      ipv4Str_of_parseIPv4 (parseIPv4Address_strip _ (ip_address_v4_elim h))
    show ipCidrTag ++ (ipv4Str n ++ ['/', '3', '2']) ++ noResolveTag = _
    rw [hstr]
    simp [List.append_assoc]
  · intro n sc hn
    subst hn
    constructor
    · refine ⟨ipCidrTag ++ ipv6AddrStr n sc, ?_⟩
      show ipCidrTag ++ (ipv6AddrStr n sc ++ ['/', '1', '2', '8']) ++ noResolveTag = _
      simp [List.append_assoc]
    · intro hsuf
      obtain ⟨tpre, htp⟩ := hsuf
      have h8 := congrArg List.getLast? htp
      rw [List.getLast?_append_of_ne_nil _ (by decide), emit_getLast?] at h8
      exact absurd h8 (by decide)

/-- **C1 counterexample**: the spec says the output for a bare IPv6 address
"ends in `/128`", but the normalizer's output for `::1` ends in
`,no-resolve` instead. -/
theorem C1_counterexample :
    ip.normalize_ip_or_cidr ("::1".toList) = some ("IP-CIDR,::1/128,no-resolve".toList) ∧
    ¬ ("/128".toList <:+ "IP-CIDR,::1/128,no-resolve".toList) := by
  constructor
  · decide
  · decide

theorem C1_amended_witness :
    ip_address (pyStrip ("1.2.3.4".toList)) = some (IPAddr.v4 16909060) ∧
    ip.normalize_ip_or_cidr ("1.2.3.4".toList) =
      some (emit (addrCidr (IPAddr.v4 16909060))) ∧
    ip.normalize_ip_or_cidr ("::1".toList) = some (emit (addrCidr (IPAddr.v6 1 none))) :=
  ⟨by decide, (C1_amended (by decide)).1, (C1_amended (by decide)).1⟩

/-- **C2** (confirmed).  A line containing `/` whose stripped text parses as
a network under the non-strict constructor is accepted by both normalizers
and emitted as `IP-CIDR,<str(network)>,no-resolve`, and the emitted network
address has its host bits masked off (it is a fixed point of its own
netmask). -/
theorem C2 {line : Str} {net : IPNet}
    (hslash : (pyStrip line).contains '/' = true)
    (h : ip_network false (pyStrip line) = some net) :
    ip.normalize_ip_or_cidr line = some (emit (netStr net)) ∧
    domainsIp.normalize_ip_or_cidr line = some (emit (netStr net)) ∧
    net.addr &&& netmaskInt (cond net.isV6 128 32) net.prefixlen = net.addr := by
  obtain ⟨c, hc, hcl⟩ := ip_network_head h
  have hhash : c ≠ '#' := by
    rcases hcl with hcl | hcl
    · subst hcl
      decide
    · exact (hexDigit_char_props hcl).2.2.2.2.2.2.1
  have h1 := ip_normalize_of_net hslash h
  exact ⟨h1, by rw [normalize_agree (pass_false_of_head hc hhash)]; exact h1,
    (ip_network_wf h).1⟩

theorem C2_witness :
    ip.normalize_ip_or_cidr ("10.1.2.3/24".toList) =
      some ("IP-CIDR,10.1.2.0/24,no-resolve".toList) ∧
    ip.normalize_ip_or_cidr ("10.0.0.0/8".toList) =
      some ("IP-CIDR,10.0.0.0/8,no-resolve".toList) := by
  constructor
  · have h := (C2 (by decide)
      (show ip_network false (pyStrip ("10.1.2.3/24".toList)) =
        some ⟨false, 167838208, none, 24⟩ by decide)).1
    rw [h]
    decide
  · have h := (C2 (by decide)
      (show ip_network false (pyStrip ("10.0.0.0/8".toList)) =
        some ⟨false, 167772160, none, 8⟩ by decide)).1
    rw [h]
    decide

/-- **C3** (confirmed).  For a line whose trimmed form starts
case-insensitively with `IP-CIDR,`: the normalizer is fully determined by
the first comma-separated field after the prefix (conjunct 1); every
successful output re-emits the canonical `IP-CIDR,...,no-resolve` wrapper
(conjunct 2); trailing fields are ignored (conjunct 3); and a parse failure
of the first field rejects the whole line instead of falling through
(conjunct 4). -/
theorem C3 {line t r : Str} (hsplit : pyStrip line = t ++ ',' :: r)
    (ht : pyUpper t = ['I', 'P', '-', 'C', 'I', 'D', 'R']) :
    (ip.normalize_ip_or_cidr line =
      (let cand := pyStrip ((pySplit ',' (pyStrip r)).headD []);
       if cand.contains '/' then (ip_network false cand).map fun net => emit (netStr net)
       else (ip_address cand).map fun a => emit (addrCidr a))) ∧
    (∀ res, ip.normalize_ip_or_cidr line = some res →
      ∃ mid, res = ipCidrTag ++ mid ++ noResolveTag) ∧
    (∀ c0 trail, pyStrip r = c0 ++ ',' :: trail → ',' ∉ c0 →
      ip.normalize_ip_or_cidr line =
        (if (pyStrip c0).contains '/' then
          (ip_network false (pyStrip c0)).map fun net => emit (netStr net)
         else (ip_address (pyStrip c0)).map fun a => emit (addrCidr a))) ∧
    ((pyStrip ((pySplit ',' (pyStrip r)).headD [])).contains '/' = true →
      ip_network false (pyStrip ((pySplit ',' (pyStrip r)).headD [])) = none →
      ip.normalize_ip_or_cidr line = none) := by
  have h1 := ip_normalize_tagged hsplit ht
  refine ⟨h1, ?_, ?_, ?_⟩
  · intro res hres
    rw [h1] at hres
    dsimp only [] at hres
    by_cases hsl : (pyStrip ((pySplit ',' (pyStrip r)).headD [])).contains '/'
    · rw [if_pos hsl] at hres
      rcases hn : ip_network false (pyStrip ((pySplit ',' (pyStrip r)).headD []))
        with _ | net <;> rw [hn] at hres
      · simp at hres
      · simp only [Option.map] at hres
        injection hres with hres
        exact ⟨netStr net, hres.symm⟩
    · rw [if_neg hsl] at hres
      rcases ha : ip_address (pyStrip ((pySplit ',' (pyStrip r)).headD []))
        with _ | a <;> rw [ha] at hres
      · simp at hres
      · simp only [Option.map] at hres
        injection hres with hres
        exact ⟨addrCidr a, hres.symm⟩
  · intro c0 trail hr0 hnc0
    rw [h1]
    dsimp only []
    rw [hr0, pySplit_append hnc0, List.headD_cons]
  · intro hsl hnone
    rw [h1]
    dsimp only []
    rw [if_pos hsl, hnone]
    rfl

theorem C3_witness :
    ip.normalize_ip_or_cidr ("ip-cidr,8.8.8.8,no-resolve,extra".toList) =
      some ("IP-CIDR,8.8.8.8/32,no-resolve".toList) ∧
    ip.normalize_ip_or_cidr ("IP-CIDR,999.1.2.3/8".toList) = none := by
  constructor
  · have h := (C3
      (show pyStrip ("ip-cidr,8.8.8.8,no-resolve,extra".toList) =
        "ip-cidr".toList ++ ',' :: "8.8.8.8,no-resolve,extra".toList from by decide)
      (by decide)).1
    rw [h]
    decide
  · exact (C3
      (show pyStrip ("IP-CIDR,999.1.2.3/8".toList) =
        "IP-CIDR".toList ++ ',' :: "999.1.2.3/8".toList from by decide)
      (by decide)).2.2.2 (by decide) (by decide)

/-- **C4** (confirmed).  A line that is neither blank, nor a comment, nor
parseable (and not tag-prefixed) makes the normalizer return `None`;
`process_lst_file` then omits the line entirely, counting it as neither
changed nor kept: the output length always equals changed + kept and is
strictly smaller than the input length when such a line is present. -/
theorem C4 {line : Str} (pre post : List Str)
    (hblank : (pyStrip line).isEmpty = false)
    (hcom : startsWith (pyStrip line) ['#'] = false)
    (htag : startsWith (pyUpper (pyStrip line)) ipCidrTag = false)
    (hnet : ip_network false (pyStrip line) = none)
    (haddr : ip_address (pyStrip line) = none) :
    ip.normalize_ip_or_cidr line = none ∧
    ip.processLines (pre ++ line :: post) = ip.processLines (pre ++ post) ∧
    (∀ L : List Str,
      (ip.processLines L).1.length = (ip.processLines L).2.1 + (ip.processLines L).2.2) ∧
    (ip.processLines (pre ++ line :: post)).1.length < (pre ++ line :: post).length := by
  have hb : ((pyStrip line).isEmpty || startsWith (pyStrip line) ['#']) = false := by
    rw [hblank, hcom]
    rfl
  have h0 : ip.normalize_ip_or_cidr line = none := ip_normalize_none hb htag hnet haddr
  refine ⟨h0, ip_processLines_skip h0 pre post, ip_processLines_len_sum, ?_⟩
  rw [ip_processLines_skip h0 pre post]
  have hle := ip_processLines_len_le (pre ++ post)
  have hlt : (pre ++ post).length < (pre ++ line :: post).length := by
    simp only [List.length_append, List.length_cons]
    omega
  omega

theorem C4_witness :
    ip.normalize_ip_or_cidr ("not-an-ip".toList) = none ∧
    ip.processLines (["1.2.3.4".toList] ++ "not-an-ip".toList :: ["# x".toList]) =
      ip.processLines (["1.2.3.4".toList] ++ ["# x".toList]) ∧
    (ip.processLines (["1.2.3.4".toList] ++ "not-an-ip".toList :: ["# x".toList])).1.length <
      (["1.2.3.4".toList] ++ "not-an-ip".toList :: ["# x".toList]).length := by
  obtain ⟨ha, hb2, -, hd⟩ := @C4 ("not-an-ip".toList) ["1.2.3.4".toList] ["# x".toList]
    (by decide) (by decide) (by decide) (by decide) (by decide)
  exact ⟨ha, hb2, hd⟩

/-- **C5** (corrected).  The domain normalizer is idempotent unconditionally
(first conjunct, no hypothesis), and the whole-file IP normalization is
idempotent for inputs containing no `%` (no IPv6 scope ids): the second pass
keeps every line unchanged, changes nothing and drops nothing.  Without that
restriction the IP half of the claim is false: a scoped IPv6 address whose
scope id contains a comma is changed again by the second pass (see the
counterexample). -/
theorem C5_amended (L : List Str) :
    domains.processLines (domains.processLines L).1 = ((domains.processLines L).1, 0) ∧
    ((∀ l ∈ L, '%' ∉ l) →
      ip.processLines (ip.processLines L).1 =
        ((ip.processLines L).1, 0, (ip.processLines L).1.length)) :=
  ⟨domains_processLines_idem L,
    fun h => ip_processLines_fixed (ip_processLines_out_stable h)⟩

/-- **C5 counterexample**: on the single line `::1%a,b` (a scoped IPv6
address with a comma inside the scope id) the first pass emits
`IP-CIDR,::1%a,b/128,no-resolve`, and the second pass changes that line
again (changed count 1, different output), so IP normalization is not
idempotent. -/
theorem C5_counterexample :
    (ip.processLines (ip.processLines ["::1%a,b".toList]).1).2.1 = 1 ∧
    (ip.processLines (ip.processLines ["::1%a,b".toList]).1).1 ≠
      (ip.processLines ["::1%a,b".toList]).1 := by
  constructor
  · decide
  · decide

theorem C5_amended_witness :
    domains.processLines (domains.processLines ["100%.example.com".toList]).1 =
      ((domains.processLines ["100%.example.com".toList]).1, 0) ∧
    (∀ l ∈ ["10.1.2.3/24".toList, "# c".toList, "".toList, "not-an-ip".toList,
        "ip-cidr,8.8.8.8".toList], '%' ∉ l) ∧
    ip.processLines (ip.processLines ["10.1.2.3/24".toList, "# c".toList, "".toList,
        "not-an-ip".toList, "ip-cidr,8.8.8.8".toList]).1 =
      ((ip.processLines ["10.1.2.3/24".toList, "# c".toList, "".toList,
        "not-an-ip".toList, "ip-cidr,8.8.8.8".toList]).1, 0,
       (ip.processLines ["10.1.2.3/24".toList, "# c".toList, "".toList,
        "not-an-ip".toList, "ip-cidr,8.8.8.8".toList]).1.length) :=
  ⟨(C5_amended ["100%.example.com".toList]).1, by decide,
    (C5_amended _).2 (by decide)⟩

/-- **C6** (corrected).  For blank and comment lines the domain normalizer
and the `domains_ip.py` IP normalizer return the raw line byte-identically,
but the `ip.py` IP normalizer returns the *stripped* line, which differs
from the raw line whenever it carries leading or trailing whitespace (see
the counterexample); the byte-identity claim holds for `ip.py` only on
already-stripped lines. -/
theorem C6_amended {line : Str}
    (h : ((pyStrip line).isEmpty || startsWith (pyStrip line) ['#']) = true) :
    domainsIp.normalize_ip_or_cidr line = some line ∧
    ip.normalize_ip_or_cidr line = some (pyStrip line) ∧
    (∀ rest, domains.processLines (line :: rest) =
      (line :: (domains.processLines rest).1, (domains.processLines rest).2)) ∧
    (pyStrip line = line → ip.normalize_ip_or_cidr line = some line) := by
  refine ⟨domainsIp_normalize_pass h, ip_normalize_pass h, ?_, ?_⟩
  · intro rest
    rw [domains.processLines]
    rw [Bool.or_eq_true] at h
    by_cases h1 : (pyStrip line).isEmpty
    · rw [if_pos h1]
    · rcases h with h | h
      · exact absurd h h1
      · rw [if_neg h1, if_pos h]
  · intro hs
    rw [ip_normalize_pass h, hs]

/-- **C6 counterexample**: the comment line ` # x` (with a leading space) is
returned by the `ip.py` normalizer as `# x`, not byte-identically. -/
theorem C6_counterexample :
    ip.normalize_ip_or_cidr (" # x".toList) = some ("# x".toList) ∧
    "# x".toList ≠ " # x".toList := by
  constructor
  · decide
  · decide

theorem C6_amended_witness :
    ((pyStrip ("  # hello  ".toList)).isEmpty ||
      startsWith (pyStrip ("  # hello  ".toList)) ['#']) = true ∧
    domainsIp.normalize_ip_or_cidr ("  # hello  ".toList) = some ("  # hello  ".toList) ∧
    ip.normalize_ip_or_cidr ("  # hello  ".toList) =
      some (pyStrip ("  # hello  ".toList)) :=
  ⟨by decide, (C6_amended (by decide)).1, (C6_amended (by decide)).2.1⟩

/-- **C7** (confirmed).  The domain normalizer transforms every line
independently — it is exactly the map of the spec's per-line transform
(blank/comment lines unchanged, already-tagged lines kept trimmed, all
other lines tag-prefixed after trimming) — so the output has the input's
length, and the returned count is the number of lines that received a new
prefix. -/
theorem C7 (L : List Str) :
    domains.processLines L =
      (L.map specDomainLine, (L.filter specDomainChanged).length) ∧
    (domains.processLines L).1.length = L.length :=
  ⟨domains_processLines_spec L, by rw [domains_processLines_spec L]; simp⟩

/-- **C8** (corrected).  The backup written before a rewrite is
`"\n".join(content.splitlines())`, which is byte-identical to the original
content only when the content uses `\n` line breaks exclusively and does
not end with a newline; a trailing newline is lost (see the
counterexample), so the backup is not always an exact byte-for-byte copy. -/
theorem C8_amended {content : Str}
    (h1 : ∀ c ∈ content, isLineBreak c = true → c = '\n')
    (h2 : content.getLast? ≠ some '\n') :
    ip.backupOf content = content ∧ domains.backupOf content = content :=
  ⟨joinSep_pySplitlines h1 h2, joinSep_pySplitlines h1 h2⟩

/-- **C8 counterexample**: content `a\n` is backed up as `a` — the trailing
newline is not preserved, so the backup is not an exact copy. -/
theorem C8_counterexample :
    ip.backupOf ("a\n".toList) = "a".toList ∧ "a".toList ≠ "a\n".toList := by
  constructor
  · decide
  · decide

theorem C8_amended_witness :
    (∀ c ∈ "a\nb".toList, isLineBreak c = true → c = '\n') ∧
    "a\nb".toList.getLast? ≠ some '\n' ∧
    ip.backupOf ("a\nb".toList) = "a\nb".toList :=
  ⟨by decide, by decide, (C8_amended (by decide) (by decide)).1⟩

/-- **C9** (confirmed).  The rewritten file is the transformed lines joined
by single newlines plus exactly one trailing newline: it always ends in a
newline, appending a trailing newline to the input does not change the
output (so the input's trailing-terminator state is irrelevant), and an
empty input produces just a newline. -/
theorem C9 {content : Str}
    (h : ∀ c, content.getLast? = some c → isLineBreak c = false) :
    ip.fileOutput content =
      joinSep '\n' (ip.processLines (pySplitlines content)).1 ++ ['\n'] ∧
    (ip.fileOutput content).getLast? = some '\n' ∧
    (domains.fileOutput content).getLast? = some '\n' ∧
    ip.fileOutput (content ++ ['\n']) = ip.fileOutput content ∧
    domains.fileOutput (content ++ ['\n']) = domains.fileOutput content ∧
    ip.fileOutput ([] : Str) = ['\n'] := by
  refine ⟨rfl, getLast?_append_newline _, getLast?_append_newline _, ?_, ?_, rfl⟩
  · by_cases hne : content = []
    · subst hne
      decide
    · unfold ip.fileOutput
      rw [pySplitlines_append_newline hne h]
  · by_cases hne : content = []
    · subst hne
      decide
    · unfold domains.fileOutput
      rw [pySplitlines_append_newline hne h]

theorem C9_witness :
    (∀ c, ("a".toList).getLast? = some c → isLineBreak c = false) ∧
    ip.fileOutput ("a".toList ++ ['\n']) = ip.fileOutput ("a".toList) ∧
    (ip.fileOutput ("a".toList)).getLast? = some '\n' :=
  ⟨by decide, (C9 (by decide)).2.2.2.1, (C9 (by decide)).2.1⟩

/-- **C10** (confirmed).  The IP normalizer's already-prefixed check is
case-insensitive — a line tagged with any casing of `IP-CIDR,` is treated
exactly like one tagged `IP-CIDR,` — while the domain normalizer's check is
case-sensitive: a line whose trimmed form starts with a non-uppercase
variant of `DOMAIN-SUFFIX,` gets another `DOMAIN-SUFFIX,` prefix prepended
and is counted as changed. -/
theorem C10 {line line2 raw t r u q : Str}
    (hsplit : pyStrip line = t ++ ',' :: r)
    (ht : pyUpper t = ['I', 'P', '-', 'C', 'I', 'D', 'R'])
    (hsplit2 : pyStrip line2 = ipCidrTag ++ r)
    (hraw : pyStrip raw = u ++ q)
    (hu : pyUpper u = dsTag) (hne : u ≠ dsTag) :
    ip.normalize_ip_or_cidr line = ip.normalize_ip_or_cidr line2 ∧
    ∀ rest, domains.processLines (raw :: rest) =
      ((dsTag ++ (u ++ q)) :: (domains.processLines rest).1,
        (domains.processLines rest).2 + 1) := by
  constructor
  · rw [ip_normalize_tagged hsplit ht,
      ip_normalize_tagged
        (show pyStrip line2 = "IP-CIDR".toList ++ ',' :: r from hsplit2) (by decide)]
  · intro rest
    have hulen : u.length = 14 := by
      have := congrArg List.length hu
      simpa [pyUpper] using this
    have hune : u ≠ [] := by
      intro h0
      rw [h0] at hulen
      simp at hulen
    obtain ⟨c, u', hcu⟩ := List.exists_cons_of_ne_nil hune
    have hcD : c.toUpper = 'D' := by
      have h0 := congrArg List.head? hu
      rw [hcu] at h0
      have hx : (pyUpper (c :: u')).head? = some c.toUpper := rfl
      have hy : dsTag.head? = some 'D' := rfl
      rw [hx, hy] at h0
      exact Option.some.inj h0
    have hhead : (u ++ q).head? = some c := by
      rw [hcu]
      rfl
    have hblank : ¬(u ++ q : Str).isEmpty = true := by
      intro hemp
      have := List.isEmpty_iff.mp hemp
      rw [hcu] at this
      simp at this
    have hcom : ¬startsWith (u ++ q) ['#'] = true := by
      intro hsw
      have hq := startsWith_head hsw
      rw [hhead] at hq
      have hcc := Option.some.inj hq
      rw [hcc] at hcD
      exact absurd hcD (by decide)
    have htag : ¬startsWith (u ++ q) dsTag = true := by
      intro hsw
      obtain ⟨v, hv⟩ := List.isPrefixOf_iff_prefix.mp hsw
      refine hne ?_
      have h14 : (dsTag ++ v).take 14 = dsTag := by
        rw [show (14 : Nat) = dsTag.length from rfl, List.take_left]
      have h14' : (u ++ q).take 14 = u := by
        rw [show (14 : Nat) = u.length from hulen.symm, List.take_left]
      rw [hv, h14'] at h14
      exact h14
    rw [domains.processLines, hraw, if_neg hblank, if_neg hcom, if_neg htag]

theorem C10_witness :
    ip.normalize_ip_or_cidr ("ip-cidr,1.2.3.4".toList) =
      ip.normalize_ip_or_cidr ("IP-CIDR,1.2.3.4".toList) ∧
    domains.processLines ["domain-suffix,example.com".toList] =
      (["DOMAIN-SUFFIX,domain-suffix,example.com".toList], 1) := by
  obtain ⟨h1, h2⟩ := @C10 ("ip-cidr,1.2.3.4".toList) ("IP-CIDR,1.2.3.4".toList)
    ("domain-suffix,example.com".toList) ("ip-cidr".toList) ("1.2.3.4".toList)
    ("domain-suffix,".toList) ("example.com".toList)
    (by decide) (by decide) (by decide) (by decide) (by decide) (by decide)
  refine ⟨h1, ?_⟩
  rw [h2 []]
  decide
